import Mathlib

/-!
# HttpDirectoryInput: reconciliation of declared and running HTTP inputs

A shallow embedding of `http_directory_input.go`.

* Go maps (`inputs`, `specified`) are association lists with pairwise distinct
  keys; the order of the list is the order in which a `range` over the map
  visits it.  Go leaves that order unspecified: the statements about a pass
  hold for every order of `specified`, the reachable states are closed under
  reordering `inputs`, and on a running set with pairwise distinct logical
  names the search of the inner loop does not depend on the order
  (`findDuplicate_perm`).
* The field `Headers` of a configuration is a Go map whose order no line of
  the file reads; it is a finite map (`Finmap`), so that two configurations
  are equal exactly when they hold the same headers.
* The lifecycle manager (`pConfig.AddInputRunner`, `pConfig.RemoveInputRunner`)
  and the logging sink (`ir.LogMessage`, `ir.LogError`) are collaborators of
  the host.  Their calls are recorded in two traces carried by the state; the
  answer of `AddInputRunner` is a parameter that may depend on all earlier
  calls.
* `filepath.Walk` and the parsing of a fragment are collaborators as well:
  `loadInputs` receives what line 151 produced, the error returned by the
  walk and the map the callback filled.
* `toml.DecodeFile` and `NewPluginMaker` are functions of the host and enter
  `loadHttpFile` as parameters.  A panic (a method call on a nil maker, the
  close of a closed channel) is the value `none`.
* `Run` is run on the events its `select` services, each tick carrying what
  the walk of its pass produces.
-/

namespace HttpDirectory

/-! ## Data model -/

/-- A Go value of type `map[string]string`: a finite map from keys to values,
with no order and at most one value for a key. -/
abbrev HeaderMap := Finmap (fun _ : String => String)

/-- The expression `m[k]` on a `map[string]string`: the value stored under `k`,
the empty string when `m` has no key `k`. -/
def HeaderMap.index (m : HeaderMap) (k : String) : String :=
  (m.lookup k).getD ""

/-- The map a decoder builds from the `key = value` lines of a `headers` table,
taken in the order in which they are written: each line stores its value under
its key. -/
def headerMap (lines : List (String × String)) : HeaderMap :=
  lines.foldl (fun m line => m.insert line.1 line.2) ∅

/-- The fields of `http.HttpInputConfig` that `Equals` reads.  The struct is
declared by heka (package `heka/plugins/http`), outside this repository; the
types are those of that declaration, against which lines 44-86 compile: `Urls`
is a slice `[]string`, an ordered list, and `Headers` is a `map[string]string`. -/
structure HttpInputConfig where
  Url : String
  Urls : List String
  Method : String
  Headers : HeaderMap
  Body : String
  Username : String
  Password : String
  TickerInterval : Nat
  SuccessSeverity : Int
  ErrorSeverity : Int
deriving DecidableEq

/-- An `InputRunner` of the host: `Name` is what `ir.Name()` returns, `handle`
stands for the identity of the runner object. -/
structure InputRunner where
  Name : String
  handle : Nat
deriving DecidableEq

/-- An error value.  `host` is an error handed back by a collaborator
(`filepath.Walk`, `AddInputRunner`, the plugin maker); `duplicateName` is the
value built by `fmt.Errorf` at line 178. -/
inductive GoError where
  | host (msg : String)
  | duplicateName (runningEntryInputName : String) (name : String)
deriving DecidableEq

/-- The text of an error, `err.Error()`. -/
def GoError.Error : GoError → String
  | .host msg => msg
  | .duplicateName runningEntryInputName name =>
      "Duplicate Name: Input with name [" ++ runningEntryInputName ++
        "] already exists. Not loading input file: " ++ name

/-- The `MutableMaker` of an entry as far as `logDirWalkFunc` uses it: the
outcome of `OrigPrepConfig()` and of `MakeRunner("")`.  The closure installed
by `SetPrepConfig` at line 247 returns what `OrigPrepConfig()` returns. -/
structure MutableMaker where
  OrigPrepConfig : GoError ⊕ HttpInputConfig
  MakeRunner : GoError ⊕ InputRunner
deriving DecidableEq

/-- The struct `HttpEntry`, lines 13-18. -/
structure HttpEntry where
  ir : InputRunner
  maker : MutableMaker
  config : HttpInputConfig
  fileName : String
deriving DecidableEq

/-- A call received by the lifecycle manager. -/
inductive Call where
  | RemoveInputRunner (ir : InputRunner)
  | AddInputRunner (ir : InputRunner)
deriving DecidableEq

/-- A line received by the logging sink. -/
inductive LogLine where
  | LogMessage (msg : String)
  | LogError (msg : String)
deriving DecidableEq

/-- A Go `map[string]*HttpEntry`, in iteration order. -/
abbrev EntryMap := List (String × HttpEntry)

/-- The keys of a map. -/
def mapKeys (m : EntryMap) : List String := m.map Prod.fst

/-- The read `m[k]` with its `ok` flag. -/
def mapGet : EntryMap → String → Option HttpEntry
  | [], _ => none
  | (k, v) :: m, x => if k = x then some v else mapGet m x

/-- The statement `delete(m, k)`. -/
def mapDelete (k : String) (m : EntryMap) : EntryMap :=
  m.filter (fun p => decide (p.1 ≠ k))

/-- The assignment `m[k] = v`. -/
def mapSet (k : String) (v : HttpEntry) (m : EntryMap) : EntryMap :=
  mapDelete k m ++ [(k, v)]

/-- The lifecycle manager: the answer of `AddInputRunner`, given the calls it
has received so far: `none` is a nil error, `some msg` an error of the host
with that text. -/
structure PipelineConfig where
  AddInputRunner : List Call → InputRunner → Option String

/-- The struct `HttpDirectoryInput`, lines 29-40, with the two traces of its
collaborators.  `stopChan` is `true` once the channel is closed. -/
structure HttpDirectoryInput where
  inputs : EntryMap
  specified : EntryMap
  stopChan : Bool
  logDir : String
  calls : List Call
  log : List LogLine
deriving DecidableEq

/-- The value left by `Init`, lines 94-101: both maps empty, the channel open,
nothing said to the collaborators yet. -/
def Init (logDir : String) : HttpDirectoryInput :=
  { inputs := [], specified := [], stopChan := false, logDir := logDir, calls := [], log := [] }

/-! ## Equals, lines 44-86 -/

/-- The loop `for i, v := range running { if other[i] != v { return false } }`
of lines 51-55, over the slice `Urls`: `true` when it runs to its end, `false`
when it returns.  `i` is the index of the head of the part of `running` still
to visit. -/
def rangeCompare (other : List String) : Nat → List String → Bool
  | _, [] => true
  | i, v :: rest => if other[i]? ≠ some v then false else rangeCompare other (i + 1) rest

/-- The loop `for i, v := range running { if other[i] != v { return false } }`
of lines 62-66, over the map `Headers`: `i` is a key of `running`, `v` the
value `running` stores under it, and `other[i]` is the empty string when
`other` has no key `i`.  `true` when the loop runs to its end, `false` when it
returns; the order in which `range` visits the keys does not change which of
the two happens. -/
def rangeCompareMap (other running : HeaderMap) : Bool :=
  decide (∀ i ∈ running.keys, other.index i = running.index i)

/-- The method `Equals`. -/
def Equals (runningEntry otherEntry : HttpInputConfig) : Bool :=
  if runningEntry.Url ≠ otherEntry.Url then false
  else if runningEntry.Urls.length ≠ otherEntry.Urls.length then false
  else if rangeCompare otherEntry.Urls 0 runningEntry.Urls = false then false
  else if runningEntry.Method ≠ otherEntry.Method then false
  else if runningEntry.Headers.keys.card ≠ otherEntry.Headers.keys.card then false
  else if rangeCompareMap otherEntry.Headers runningEntry.Headers = false then false
  else if runningEntry.Body ≠ otherEntry.Body then false
  else if runningEntry.Username ≠ otherEntry.Username then false
  else if runningEntry.Password ≠ otherEntry.Password then false
  else if runningEntry.TickerInterval ≠ otherEntry.TickerInterval then false
  else if runningEntry.SuccessSeverity ≠ otherEntry.SuccessSeverity then false
  else if runningEntry.ErrorSeverity ≠ otherEntry.ErrorSeverity then false
  else true

/-! ## The scan: logDirWalkFunc, lines 208-260 -/

/-- What the callback reads of an `os.FileInfo`. -/
structure FileInfo where
  IsDir : Bool
deriving DecidableEq

/-- The scan of `filepath.Ext` from the end of the path: `acc` is the part
already passed.  It stops with no extension at a path separator and returns
the suffix that starts at the first dot it meets. -/
def extScan : List Char → List Char → String
  | [], _ => ""
  | c :: rest, acc =>
      if c = '/' then "" else if c = '.' then String.mk ('.' :: acc) else extScan rest (c :: acc)

/-- The function `filepath.Ext`. -/
def Ext (path : String) : String := extScan path.data.reverse []

/-- The callback `logDirWalkFunc`.  `loadHttpFile` is what the method of that
name returns on a path, when it returns: an error or the maker of the entry.
The result is the new state and the returned error.  The flag set by
`SetTransient(true)` on the runner is not part of the model. -/
def logDirWalkFunc (loadHttpFile : String → GoError ⊕ MutableMaker) (path : String)
    (info : Option FileInfo) (err : Option GoError) (lsdi : HttpDirectoryInput) :
    HttpDirectoryInput × Option GoError :=
  match err with
  | some e =>
      ({ lsdi with log := lsdi.log ++ [.LogError ("walking \x27" ++ path ++ "\x27: " ++ e.Error)] },
        none)
  | none =>
    match info with
    | none => (lsdi, none)
    | some info =>
      if info.IsDir || Ext path ≠ ".toml" then (lsdi, none)
      else
        match loadHttpFile path with
        | .inl e =>
            ({ lsdi with
                log := lsdi.log ++
                  [.LogError ("loading http file \x27" ++ path ++ "\x27: " ++ e.Error)] }, none)
        | .inr maker =>
          match maker.OrigPrepConfig with
          | .inl e =>
              ({ lsdi with log := lsdi.log ++ [.LogError ("prepping config: " ++ e.Error)] }, none)
          | .inr config =>
            match maker.MakeRunner with
            | .inl e =>
                ({ lsdi with log := lsdi.log ++ [.LogError ("making runner: " ++ e.Error)] }, none)
            | .inr runner =>
                ({ lsdi with
                    specified :=
                      mapSet path { ir := runner, maker := maker, config := config, fileName := path }
                        lsdi.specified }, none)

/-- One invocation of the callback by `filepath.Walk`. -/
structure Visit where
  path : String
  info : Option FileInfo
  err : Option GoError
deriving DecidableEq

/-- The driver `filepath.Walk` over the invocations it makes while the
callback keeps answering nil: it stops at the first error the callback
returns and returns that error, and returns nil otherwise. -/
def Walk (walkFn : Visit → HttpDirectoryInput → HttpDirectoryInput × Option GoError) :
    List Visit → HttpDirectoryInput → HttpDirectoryInput × Option GoError
  | [], lsdi => (lsdi, none)
  | v :: vs, lsdi =>
      match walkFn v lsdi with
      | (lsdi1, some e) => (lsdi1, some e)
      | (lsdi1, none) => Walk walkFn vs lsdi1

/-- What lines 150-151 leave behind: the map `specified` in the order in which
the pass will range over it, the lines the callback logged, and the error
returned by `filepath.Walk`. -/
structure WalkResult where
  specified : EntryMap
  log : List LogLine
  err : Option GoError
deriving DecidableEq

/-! ## The pass: loadInputs, lines 145-202 -/

/-- How an iteration of the loop over `specified` ends: `next` goes on with
the following entry (`continue` or the end of the body), `ret` is the `return`
of line 178.  Both carry the state and the value of the named result `err`. -/
inductive Flow where
  | next (lsdi : HttpDirectoryInput) (err : Option GoError)
  | ret (lsdi : HttpDirectoryInput) (err : Option GoError)
deriving DecidableEq

/-- The three statements that stop a running entry (lines 158-160, 175-177
and 188-190): `RemoveInputRunner` on its runner, `delete` of its key from
`inputs`, and the message `Removed:` with that key. -/
def stopRunner (name : String) (entry : HttpEntry) (lsdi : HttpDirectoryInput) :
    HttpDirectoryInput :=
  { lsdi with
      calls := lsdi.calls ++ [.RemoveInputRunner entry.ir]
      inputs := mapDelete name lsdi.inputs
      log := lsdi.log ++ [.LogMessage ("Removed: " ++ name)] }

/-- The loop of lines 156-162 over a snapshot of `inputs`: a running entry
whose key is not a key of `specified` is stopped. -/
def rangeInputs : EntryMap → HttpDirectoryInput → HttpDirectoryInput
  | [], lsdi => lsdi
  | (name, entry) :: rest, lsdi =>
      match mapGet lsdi.specified name with
      | some _ => rangeInputs rest lsdi
      | none => rangeInputs rest (stopRunner name entry lsdi)

/-- The search of the inner loop, lines 171-172: the first running input with
the name of `newEntry` and another file name. -/
def findDuplicate (newEntry : HttpEntry) (inputs : EntryMap) : Option (String × HttpEntry) :=
  inputs.find? (fun p => decide (newEntry.ir.Name = p.2.ir.Name ∧ newEntry.fileName ≠ p.2.fileName))

/-- The state after a start the manager refused with the error text `msg`
(lines 194-195): the call is made and the error is logged. -/
def refusedRunner (name : String) (newEntry : HttpEntry) (msg : String)
    (lsdi : HttpDirectoryInput) : HttpDirectoryInput :=
  { lsdi with
      calls := lsdi.calls ++ [.AddInputRunner newEntry.ir]
      log := lsdi.log ++ [.LogError ("creating input \x27" ++ name ++ "\x27: " ++ msg)] }

/-- The state after a start the manager accepted (lines 194, 198-199): the
call is made, the entry is stored under `name` and the addition is logged. -/
def addedRunner (name : String) (newEntry : HttpEntry) (lsdi : HttpDirectoryInput) :
    HttpDirectoryInput :=
  { lsdi with
      calls := lsdi.calls ++ [.AddInputRunner newEntry.ir]
      inputs := mapSet name newEntry lsdi.inputs
      log := lsdi.log ++ [.LogMessage ("Added: " ++ name)] }

/-- Lines 193-199: ask the manager to start the runner of `newEntry`; store
the entry when it accepts, log the error when it refuses.  The answer is
assigned to `err`. -/
def startInput (pConfig : PipelineConfig) (name : String) (newEntry : HttpEntry)
    (lsdi : HttpDirectoryInput) : Flow :=
  match pConfig.AddInputRunner lsdi.calls newEntry.ir with
  | some msg => .next (refusedRunner name newEntry msg lsdi) (some (.host msg))
  | none => .next (addedRunner name newEntry lsdi) none

/-- The body of the loop over `specified`, lines 168-199, for the entry
`newEntry` stored under `name`.  `dups` is the local variable of line 146: its
only assignment, at line 174, is followed by the `return` of line 178, so the
body never hands a changed value to the next iteration; `loopBodyWithDups` is
the body with that assignment. -/
def loopBody (pConfig : PipelineConfig) (dups : Bool) (name : String) (newEntry : HttpEntry)
    (lsdi : HttpDirectoryInput) (err : Option GoError) : Flow :=
  match findDuplicate newEntry lsdi.inputs with
  | some (runningInputName, runningInput) =>
      .ret (stopRunner runningInputName runningInput lsdi)
        (some (.duplicateName runningInput.ir.Name name))
  | none =>
    match mapGet lsdi.inputs name with
    | some runningEntry =>
        if (Equals runningEntry.config newEntry.config
            && decide (runningEntry.ir.Name = newEntry.ir.Name)) && !dups then
          .next lsdi err
        else
          startInput pConfig name newEntry (stopRunner name runningEntry lsdi)
    | none => startInput pConfig name newEntry lsdi

/-- The loop of lines 167-200 over `specified` in the given order, followed by
the `return` of line 201. -/
def rangeSpecified (pConfig : PipelineConfig) (dups : Bool) :
    EntryMap → HttpDirectoryInput → Option GoError → HttpDirectoryInput × Option GoError
  | [], lsdi, err => (lsdi, err)
  | (name, newEntry) :: rest, lsdi, err =>
      match loopBody pConfig dups name newEntry lsdi err with
      | .ret lsdi1 err1 => (lsdi1, err1)
      | .next lsdi1 err1 => rangeSpecified pConfig dups rest lsdi1 err1

/-- The part of the loop over `specified` that runs before the entries after
`front` are reached: the state and the value of `err` with which the loop
leaves `front`, or `none` when it took the `return` of line 178 inside. -/
def rangeReach (pConfig : PipelineConfig) (dups : Bool) :
    EntryMap → HttpDirectoryInput → Option GoError → Option (HttpDirectoryInput × Option GoError)
  | [], lsdi, err => some (lsdi, err)
  | (name, newEntry) :: front, lsdi, err =>
      match loopBody pConfig dups name newEntry lsdi err with
      | .ret _ _ => none
      | .next lsdi1 err1 => rangeReach pConfig dups front lsdi1 err1

/-- The method `loadInputs`, given what the walk of line 151 produced. -/
def loadInputs (pConfig : PipelineConfig) (w : WalkResult) (lsdi : HttpDirectoryInput) :
    HttpDirectoryInput × Option GoError :=
  let dups := false
  let lsdi := { lsdi with specified := w.specified, log := lsdi.log ++ w.log }
  match w.err with
  | some err => (lsdi, some err)
  | none =>
      let lsdi := rangeInputs lsdi.inputs lsdi
      rangeSpecified pConfig dups lsdi.specified lsdi none

/-- The scan of lines 150-151 over the invocations `visits` of the callback,
from an empty `specified`: the map it fills, what it logs and what
`filepath.Walk` returns. -/
def scan (loadHttpFile : String → GoError ⊕ MutableMaker) (visits : List Visit)
    (lsdi : HttpDirectoryInput) : WalkResult :=
  let r := Walk (fun v s => logDirWalkFunc loadHttpFile v.path v.info v.err s) visits
    { lsdi with specified := [], log := [] }
  { specified := r.1.specified, log := r.1.log, err := r.2 }

/-! ## Predicates on maps and states -/

/-- The logical names of the entries of a map, in its order. -/
def mapNames (m : EntryMap) : List String := m.map (fun p => p.2.ir.Name)

/-- A map as the scan builds it: the keys are pairwise distinct (it is a map)
and every entry is stored under its own file name (lines 257-258). -/
structure Scanned (m : EntryMap) : Prop where
  nodupKeys : (mapKeys m).Nodup
  keyed : ∀ p ∈ m, p.2.fileName = p.1

/-- The running set is well formed: a map whose entries sit under their file
name and carry pairwise distinct logical names. -/
structure RunningInv (m : EntryMap) : Prop where
  nodupKeys : (mapKeys m).Nodup
  keyed : ∀ p ∈ m, p.2.fileName = p.1
  nodupNames : (mapNames m).Nodup

/-- The states of the plugin that can occur: the state left by `Init`, the
state after a pass of `loadInputs` over any scanned map, in any order, with
any answers of the manager and any outcome of the walk, and the same state
with `inputs` listed in another order (the order of a `range` is free). -/
inductive Reachable : HttpDirectoryInput → Prop where
  | init (logDir : String) : Reachable (Init logDir)
  | pass (pConfig : PipelineConfig) (w : WalkResult) (lsdi : HttpDirectoryInput) :
      Reachable lsdi → Scanned w.specified → Reachable (loadInputs pConfig w lsdi).1
  | reorder (lsdi : HttpDirectoryInput) (m : EntryMap) :
      Reachable lsdi → m.Perm lsdi.inputs → Reachable { lsdi with inputs := m }

/-- The runner a call of the manager is about. -/
def Call.runner : Call → InputRunner
  | .RemoveInputRunner ir => ir
  | .AddInputRunner ir => ir

/-- A manager that accepts every start. -/
def AcceptsAll (pConfig : PipelineConfig) : Prop :=
  ∀ (calls : List Call) (ir : InputRunner), pConfig.AddInputRunner calls ir = none

/-- The state an iteration of the loop leaves. -/
def Flow.state : Flow → HttpDirectoryInput
  | .next lsdi _ => lsdi
  | .ret lsdi _ => lsdi

/-- The error is the one of line 178. -/
def IsDuplicate (err : Option GoError) : Prop :=
  ∃ runningEntryInputName name, err = some (.duplicateName runningEntryInputName name)

/-! ## Stop and CleanupForRestart, lines 111-118 -/

/-- The method `Stop`: `close(lsdi.stopChan)`.  Closing a channel that is
already closed panics; `none` is that panic. -/
def Stop (lsdi : HttpDirectoryInput) : Option HttpDirectoryInput :=
  if lsdi.stopChan = true then none else some { lsdi with stopChan := true }

/-- The method `CleanupForRestart`: it calls `Stop`. -/
def CleanupForRestart (lsdi : HttpDirectoryInput) : Option HttpDirectoryInput :=
  Stop lsdi

/-! ## The scheduler loop: Run, lines 120-141 -/

/-- What the `select` of line 131 services in one iteration: a tick, with what
the walk of the pass it triggers produces, or the closed stop channel. -/
inductive Event where
  | tick (w : WalkResult)
  | stop
deriving DecidableEq

/-- How far `Run` got on the events it was given: it returned `err`, or it is
waiting in the `select` with no event left. -/
inductive Outcome where
  | returned (err : Option GoError)
  | waiting
deriving DecidableEq

/-- The loop of lines 130-138.  It is entered, and re-entered after a tick,
only with a nil `err`, which is what the `return` of line 140 hands back when
the closed channel sets `ok` to false. -/
def selectLoop (pConfig : PipelineConfig) :
    List Event → HttpDirectoryInput → HttpDirectoryInput × Outcome
  | [], lsdi => (lsdi, .waiting)
  | .stop :: _, lsdi => (lsdi, .returned none)
  | .tick w :: rest, lsdi =>
      match loadInputs pConfig w lsdi with
      | (lsdi1, some err) => (lsdi1, .returned (some err))
      | (lsdi1, none) => selectLoop pConfig rest lsdi1

/-- The method `Run`: the pass of line 123, over what its walk produces, then
the loop over the events. -/
def Run (pConfig : PipelineConfig) (w : WalkResult) (events : List Event)
    (lsdi : HttpDirectoryInput) : HttpDirectoryInput × Outcome :=
  match loadInputs pConfig w lsdi with
  | (lsdi1, some err) => (lsdi1, .returned (some err))
  | (lsdi1, none) => selectLoop pConfig events lsdi1

/-- The walks of the ticks that precede the first stop. -/
def ticksBeforeStop : List Event → List WalkResult
  | [] => []
  | .stop :: _ => []
  | .tick w :: rest => w :: ticksBeforeStop rest

/-- Whether a stop is among the events. -/
def hasStop : List Event → Bool
  | [] => false
  | .stop :: _ => true
  | .tick _ :: rest => hasStop rest

/-- The passes of `loadInputs` over the given walks, one after the other, up
to and including the first that returns an error. -/
def runPasses (pConfig : PipelineConfig) :
    List WalkResult → HttpDirectoryInput → HttpDirectoryInput × Option GoError
  | [], lsdi => (lsdi, none)
  | w :: ws, lsdi =>
      match loadInputs pConfig w lsdi with
      | (lsdi1, some err) => (lsdi1, some err)
      | (lsdi1, none) => runPasses pConfig ws lsdi1

/-- The scheduler loop in the words of its description: one pass at startup
and one pass per tick before the first stop; the error of the first pass that
fails is returned at once; otherwise nil is returned once the stop is
serviced, and the loop is waiting as long as there is none. -/
def describedRun (pConfig : PipelineConfig) (w : WalkResult) (events : List Event)
    (lsdi : HttpDirectoryInput) : HttpDirectoryInput × Outcome :=
  match runPasses pConfig (w :: ticksBeforeStop events) lsdi with
  | (lsdi1, some err) => (lsdi1, .returned (some err))
  | (lsdi1, none) => (lsdi1, if hasStop events = true then .returned none else .waiting)

/-! ## The declaration parser: loadHttpFile, lines 262-329 -/

/-- A section of a decoded file, a `toml.Primitive`, not yet decoded itself. -/
abbrev Primitive := String

/-- What the code reads of a maker built by `NewPluginMaker`: its name, type
(`Typ` is what `Type()` returns) and category, and the preparations and the
runner it gives as a `MutableMaker`. -/
structure PluginMaker where
  Name : String
  Typ : String
  Category : String
  mutable : MutableMaker
deriving DecidableEq

/-- The entry `loadHttpFile` returns: only its maker is set, and `SetName` has
given that maker the name `name`. -/
structure LoadedEntry where
  maker : MutableMaker
  name : String
deriving DecidableEq

/-- The method `getConfigFileInfo`.  `NewPluginMaker` is the function of the
host, for a name and a section: `.inl` is an error with a nil maker.  The
error is dropped at line 324 and `maker.Type()` is called on the maker; on a
nil maker that call panics, and `none` is that panic. -/
def getConfigFileInfo (NewPluginMaker : String → Primitive → GoError ⊕ PluginMaker)
    (name : String) (configFile : Primitive) : Option (String × String × String) :=
  match NewPluginMaker name configFile with
  | .inl _ => none
  | .inr maker =>
      if maker.Typ ≠ "" then some (maker.Name, maker.Typ, maker.Category)
      else some ("", "", "")

/-- The loop of lines 273-281 over the sections in the order of the range,
on the variables `ok`, `section` (here `sect`) and `path`; `none` when
`getConfigFileInfo` panics. -/
def rangeSections (NewPluginMaker : String → Primitive → GoError ⊕ PluginMaker) :
    List (String × Primitive) → Bool × Primitive × String → Option (Bool × Primitive × String)
  | [], vars => some vars
  | (name, conf) :: rest, vars =>
      match getConfigFileInfo NewPluginMaker name conf with
      | none => none
      | some (confName, confType, _) =>
          if confType = "HttpInput" then rangeSections NewPluginMaker rest (true, conf, confName)
          else rangeSections NewPluginMaker rest vars

/-- The method `loadHttpFile`.  `DecodeFile` is `toml.DecodeFile` on a path: an
error or the sections of the file in the order the loop ranges over them.
`none` is a panic. -/
def loadHttpFile (DecodeFile : String → GoError ⊕ List (String × Primitive))
    (NewPluginMaker : String → Primitive → GoError ⊕ PluginMaker) (path : String) :
    Option (GoError ⊕ LoadedEntry) :=
  match DecodeFile path with
  | .inl err => some (.inl err)
  | .inr unparsedConfig =>
      match rangeSections NewPluginMaker unparsedConfig (false, "", path) with
      | none => none
      | some (ok, sect, path1) =>
          if ok = false then some (.inl (.host "No \x60HttpInput\x60 section."))
          else
            match NewPluginMaker "HttpInput" sect with
            | .inl err => some (.inl (.host ("can\x27t create plugin maker: " ++ err.Error)))
            | .inr maker => some (.inr { maker := maker.mutable, name := path1 })

/-- The callback `logDirWalkFunc` with the method `loadHttpFile` of this file
in the place of its parameter: the branches are those of `logDirWalkFunc`,
the entry being the one `loadHttpFile` returns, and `none` is the panic of
`loadHttpFile`, which the callback does not recover from. -/
def logDirWalkFuncOnFile (DecodeFile : String → GoError ⊕ List (String × Primitive))
    (NewPluginMaker : String → Primitive → GoError ⊕ PluginMaker) (path : String)
    (info : Option FileInfo) (err : Option GoError) (lsdi : HttpDirectoryInput) :
    Option (HttpDirectoryInput × Option GoError) :=
  match err with
  | some e =>
      some ({ lsdi with
                log := lsdi.log ++ [.LogError ("walking \x27" ++ path ++ "\x27: " ++ e.Error)] },
        none)
  | none =>
    match info with
    | none => some (lsdi, none)
    | some info =>
      if info.IsDir || Ext path ≠ ".toml" then some (lsdi, none)
      else
        match loadHttpFile DecodeFile NewPluginMaker path with
        | none => none
        | some (.inl e) =>
            some ({ lsdi with
                      log := lsdi.log ++
                        [.LogError ("loading http file \x27" ++ path ++ "\x27: " ++ e.Error)] },
              none)
        | some (.inr entry) =>
          match entry.maker.OrigPrepConfig with
          | .inl e =>
              some ({ lsdi with
                        log := lsdi.log ++ [.LogError ("prepping config: " ++ e.Error)] }, none)
          | .inr config =>
            match entry.maker.MakeRunner with
            | .inl e =>
                some ({ lsdi with
                          log := lsdi.log ++ [.LogError ("making runner: " ++ e.Error)] }, none)
            | .inr runner =>
                some ({ lsdi with
                          specified :=
                            mapSet path
                              { ir := runner, maker := entry.maker, config := config,
                                fileName := path }
                              lsdi.specified }, none)

/-- The value `loadHttpFile` returns, as `logDirWalkFunc` reads it: the error,
or the maker of the entry. -/
def parseOutcome : GoError ⊕ LoadedEntry → GoError ⊕ MutableMaker
  | .inl e => .inl e
  | .inr entry => .inr entry.maker

/-! ## The common-config finalizer, lines 296-313 -/

/-- The struct `RetryOptions` of the host: the three fields the literal of
lines 302-306 names, and `others` for the fields it leaves at their zero
value. -/
structure RetryOptions (ρ : Type) where
  MaxDelay : String
  Delay : String
  MaxRetries : Int
  others : ρ

/-- The struct `CommonInputConfig` of the host: the two fields the finalizer
touches, and `others` for the rest. -/
structure CommonInputConfig (γ ρ : Type) where
  CanExit : Option Bool
  Retries : RetryOptions ρ
  others : γ

/-- The closure `prepCommonTypedConfig` of lines 296-312, on the outcome of
`OrigPrepCommonTypedConfig()`; `zero` is the zero value of the fields of
`RetryOptions` the literal does not name. -/
def prepCommonTypedConfig {γ ρ : Type} (zero : ρ)
    (OrigPrepCommonTypedConfig : GoError ⊕ CommonInputConfig γ ρ) :
    GoError ⊕ CommonInputConfig γ ρ :=
  match OrigPrepCommonTypedConfig with
  | .inl err => .inl err
  | .inr commonTypedConfig =>
      let commonInput : CommonInputConfig γ ρ :=
        { commonTypedConfig with
            Retries := { MaxDelay := "30s", Delay := "250ms", MaxRetries := -1, others := zero } }
      let commonInput : CommonInputConfig γ ρ :=
        if commonInput.CanExit = none then { commonInput with CanExit := some true }
        else commonInput
      .inr commonInput

/-! ## loadInputs without the flag `dups` -/

/-- The body of the loop as `loopBody`, with the unchanged check of line 183
written without the condition on `dups`. -/
def loopBodyUnchecked (pConfig : PipelineConfig) (name : String) (newEntry : HttpEntry)
    (lsdi : HttpDirectoryInput) (err : Option GoError) : Flow :=
  match findDuplicate newEntry lsdi.inputs with
  | some (runningInputName, runningInput) =>
      .ret (stopRunner runningInputName runningInput lsdi)
        (some (.duplicateName runningInput.ir.Name name))
  | none =>
    match mapGet lsdi.inputs name with
    | some runningEntry =>
        if Equals runningEntry.config newEntry.config
            && decide (runningEntry.ir.Name = newEntry.ir.Name) then
          .next lsdi err
        else
          startInput pConfig name newEntry (stopRunner name runningEntry lsdi)
    | none => startInput pConfig name newEntry lsdi

/-- The loop over `specified` with the body `loopBodyUnchecked`. -/
def rangeSpecifiedUnchecked (pConfig : PipelineConfig) :
    EntryMap → HttpDirectoryInput → Option GoError → HttpDirectoryInput × Option GoError
  | [], lsdi, err => (lsdi, err)
  | (name, newEntry) :: rest, lsdi, err =>
      match loopBodyUnchecked pConfig name newEntry lsdi err with
      | .ret lsdi1 err1 => (lsdi1, err1)
      | .next lsdi1 err1 => rangeSpecifiedUnchecked pConfig rest lsdi1 err1

/-- The method `loadInputs` with the unchanged check written without the
condition on `dups`. -/
def loadInputsUnchecked (pConfig : PipelineConfig) (w : WalkResult) (lsdi : HttpDirectoryInput) :
    HttpDirectoryInput × Option GoError :=
  let lsdi := { lsdi with specified := w.specified, log := lsdi.log ++ w.log }
  match w.err with
  | some err => (lsdi, some err)
  | none =>
      let lsdi := rangeInputs lsdi.inputs lsdi
      rangeSpecifiedUnchecked pConfig lsdi.specified lsdi none

/-! ## loadInputs with its local variables -/

/-- The local variables of `loadInputs` declared at lines 146-147, and a
record kept for the proofs: `reads` lists, in the order of the run, the value
`dups` holds each time the unchanged check of line 183 is reached. -/
structure Locals where
  dups : Bool
  runningEntryInputName : String
  reads : List Bool
deriving DecidableEq

/-- The body of the loop over `specified`, lines 168-199, on the state, the
named result `err` and the local variables: the duplicate branch assigns
`runningEntryInputName` (line 173) and `dups = true` (line 174) and then
returns (line 178); the unchanged check of line 183 reads `dups`. -/
def loopBodyWithDups (pConfig : PipelineConfig) (name : String) (newEntry : HttpEntry)
    (lsdi : HttpDirectoryInput) (err : Option GoError) (loc : Locals) : Flow × Locals :=
  match findDuplicate newEntry lsdi.inputs with
  | some (runningInputName, runningInput) =>
      let loc := { loc with runningEntryInputName := runningInput.ir.Name }
      let loc := { loc with dups := true }
      (.ret (stopRunner runningInputName runningInput lsdi)
        (some (.duplicateName loc.runningEntryInputName name)), loc)
  | none =>
    match mapGet lsdi.inputs name with
    | some runningEntry =>
        let loc := { loc with reads := loc.reads ++ [loc.dups] }
        if (Equals runningEntry.config newEntry.config
            && decide (runningEntry.ir.Name = newEntry.ir.Name)) && !loc.dups then
          (.next lsdi err, loc)
        else
          (startInput pConfig name newEntry (stopRunner name runningEntry lsdi), loc)
    | none => (startInput pConfig name newEntry lsdi, loc)

/-- The loop of lines 167-200 with the body `loopBodyWithDups`: every
iteration is handed the local variables as the one before left them. -/
def rangeSpecifiedWithDups (pConfig : PipelineConfig) :
    EntryMap → HttpDirectoryInput → Option GoError → Locals →
      (HttpDirectoryInput × Option GoError) × Locals
  | [], lsdi, err, loc => ((lsdi, err), loc)
  | (name, newEntry) :: rest, lsdi, err, loc =>
      match loopBodyWithDups pConfig name newEntry lsdi err loc with
      | (.ret lsdi1 err1, loc1) => ((lsdi1, err1), loc1)
      | (.next lsdi1 err1, loc1) => rangeSpecifiedWithDups pConfig rest lsdi1 err1 loc1

/-- The method `loadInputs` with its local variables: `dups := false` (line
146) and the zero value of `runningEntryInputName` (line 147) at the start;
the result is what the method returns together with the local variables at
that moment. -/
def loadInputsWithDups (pConfig : PipelineConfig) (w : WalkResult) (lsdi : HttpDirectoryInput) :
    (HttpDirectoryInput × Option GoError) × Locals :=
  let loc : Locals := { dups := false, runningEntryInputName := "", reads := [] }
  let lsdi := { lsdi with specified := w.specified, log := lsdi.log ++ w.log }
  match w.err with
  | some err => ((lsdi, some err), loc)
  | none =>
      let lsdi := rangeInputs lsdi.inputs lsdi
      rangeSpecifiedWithDups pConfig lsdi.specified lsdi none loc

/-! ## The outcome of a pass, entry by entry -/

/-- What runs under the path of a declared entry `newEntry` after the loop
has handled it with an accepted start: the running entry when there is one
with an `Equals` configuration and the same name, the declared entry
otherwise. -/
def keepOrNew (running : Option HttpEntry) (newEntry : HttpEntry) : Option HttpEntry :=
  match running with
  | some r =>
      if Equals r.config newEntry.config = true ∧ r.ir.Name = newEntry.ir.Name then some r
      else some newEntry
  | none => some newEntry

/-- The answer of the manager to the last `AddInputRunner` among the calls
`ext` it receives after the calls `before`, as an error value; `acc` when
`ext` has no `AddInputRunner`. -/
def lastStart (pConfig : PipelineConfig) : List Call → List Call → Option GoError → Option GoError
  | _, [], acc => acc
  | before, .AddInputRunner ir :: ext, _ =>
      lastStart pConfig (before ++ [.AddInputRunner ir]) ext
        ((pConfig.AddInputRunner before ir).map GoError.host)
  | before, .RemoveInputRunner ir :: ext, acc =>
      lastStart pConfig (before ++ [.RemoveInputRunner ir]) ext acc

/-! ## Example data -/

/-- A configuration used in the example runs. -/
def sampleConfig : HttpInputConfig :=
  { Url := "http://localhost:8080/status", Urls := [], Method := "GET",
    Headers := headerMap [("Accept", "text/plain"), ("X-Probe", "1")],
    Body := "", Username := "", Password := "",
    TickerInterval := 5, SuccessSeverity := 6, ErrorSeverity := 1 }

/-- The entry the scan stores for a file `file` whose section is called `name`
and carries `config`; `handle` tells the runner objects apart. -/
def sampleEntry (name : String) (handle : Nat) (file : String) (config : HttpInputConfig) :
    HttpEntry :=
  { ir := { Name := name, handle := handle }
    maker := { OrigPrepConfig := .inr config, MakeRunner := .inr { Name := name, handle := handle } }
    config := config
    fileName := file }

/-- A manager that accepts every start. -/
def acceptAll : PipelineConfig := { AddInputRunner := fun _ _ => none }

/-- The state after a first pass over a tree with the single fragment `a.toml`
that declares the input `A`. -/
def runningA : HttpDirectoryInput :=
  (loadInputs acceptAll ⟨[("a.toml", sampleEntry "A" 1 "a.toml" sampleConfig)], [], none⟩
    (Init "http.d")).1

/-- The tree after `a.toml` was edited to declare `B` and a new fragment
`b.toml` declares `A`, ranged over with `b.toml` first. -/
def renamedTree (handle : Nat) : EntryMap :=
  [("b.toml", sampleEntry "A" handle "b.toml" sampleConfig),
   ("a.toml", sampleEntry "B" (handle + 1) "a.toml" sampleConfig)]

/-- The tree after the poll interval of `a.toml` was edited and a fragment
`c.toml` declaring `C` was added. -/
def editedTree : EntryMap :=
  [("a.toml", sampleEntry "A" 2 "a.toml" { sampleConfig with TickerInterval := 10 }),
   ("c.toml", sampleEntry "C" 3 "c.toml" sampleConfig)]

/-- The tree with the fragment `a.toml` declaring `A`, parsed again. -/
def treeA : EntryMap := [("a.toml", sampleEntry "A" 2 "a.toml" sampleConfig)]

/-- The tree `treeA` after the fragment `c.toml` declaring `C` was added. -/
def treeAC : EntryMap := treeA ++ [("c.toml", sampleEntry "C" 3 "c.toml" sampleConfig)]

/-- The tree after `a.toml` was moved to `b.toml`, its section still `A`. -/
def movedTree : EntryMap := [("b.toml", sampleEntry "A" 2 "b.toml" sampleConfig)]

/-- The tree after `a.toml` was deleted; only `c.toml` declaring `C` is left. -/
def treeC : EntryMap := [("c.toml", sampleEntry "C" 3 "c.toml" sampleConfig)]

/-- The tree in which `a.toml` and `b.toml` both declare `A`, ranged over with
`a.toml` first. -/
def twinTree : EntryMap :=
  [("a.toml", sampleEntry "A" 1 "a.toml" sampleConfig),
   ("b.toml", sampleEntry "A" 2 "b.toml" sampleConfig)]

/-- The state in which the pass over `twinTree` from the initial state reaches
`b.toml`: `a.toml` has been started. -/
def runningTwin : HttpDirectoryInput := { runningA with specified := twinTree }

/-- The configuration `sampleConfig` with its two header lines written in the
other order. -/
def reorderedConfig : HttpInputConfig :=
  { sampleConfig with Headers := headerMap [("X-Probe", "1"), ("Accept", "text/plain")] }

/-- The tree after the two header lines of `a.toml` were exchanged: the same
path and the same name `A`, parsed again. -/
def reorderedTree : EntryMap := [("a.toml", sampleEntry "A" 2 "a.toml" reorderedConfig)]

/-- The configuration `sampleConfig` with the single header `key`, sent with an
empty value. -/
def blankHeaderConfig (key : String) : HttpInputConfig :=
  { sampleConfig with Headers := headerMap [(key, "")] }

/-- The declared entry `p` is the one running under its path in `m`, with an
`Equals` configuration and the same logical name, and no other running job
of `m` has its name from another file: the loop leaves such an entry alone. -/
def Kept (p : String × HttpEntry) (m : EntryMap) : Prop :=
  findDuplicate p.2 m = none ∧
    ∃ r, mapGet m p.1 = some r ∧ Equals r.config p.2.config = true ∧ r.ir.Name = p.2.ir.Name

/-- A manager that refuses every start. -/
def refuseAll : PipelineConfig := { AddInputRunner := fun _ _ => some "start refused" }

/-- A manager that refuses the start of a runner named `A` and accepts every
other start. -/
def refuseA : PipelineConfig :=
  { AddInputRunner := fun _ ir => if ir.Name = "A" then some "start refused" else none }

/-- The error `os.Lstat` gives for a root directory that does not exist. -/
def missingRoot : GoError := .host "lstat http.d: no such file or directory"

/-- A parse of fragments that is never reached in the example runs. -/
def noFile : String → GoError ⊕ MutableMaker := fun _ => .inl (.host "no such file")

/-- A host registry that knows the type `HttpInput` only: a section whose name
is its type is built when that name is `HttpInput`, and refused with a nil
maker otherwise. -/
def hostRegistry : String → Primitive → GoError ⊕ PluginMaker := fun name _ =>
  if name = "HttpInput" then
    .inr { Name := name, Typ := "HttpInput", Category := "Input",
           mutable := { OrigPrepConfig := .inr sampleConfig,
                        MakeRunner := .inr { Name := name, handle := 0 } } }
  else .inl (.host ("No registered plugin type: " ++ name))

/-- A decoder for a tree whose file `a.toml` holds the two sections `Foo` and
`HttpInput`, in the order the loop ranges over them. -/
def decodeTwoSections : String → GoError ⊕ List (String × Primitive) := fun path =>
  if path = "a.toml" then .inr [("Foo", "x = 1"), ("HttpInput", "url = \"http://localhost\"")]
  else .inl (.host "open: no such file or directory")

/-! ## Properties of Equals -/

theorem rangeCompare_eq_true (other : List String) (running : List String) (i : Nat) :
    rangeCompare other i running = true ↔ ∀ j, j < running.length → other[i + j]? = running[j]? := by
  induction running generalizing i with
  | nil => simp [rangeCompare]
  | cons v rest ih =>
    simp only [rangeCompare, ne_eq, ite_not, List.length_cons]
    constructor
    · intro h j hj
      by_cases hv : other[i]? = some v
      · rw [if_pos hv] at h
        cases j with
        | zero => simpa using hv
        | succ j =>
          have := (ih (i + 1)).1 h j (by omega)
          simpa [Nat.add_assoc, Nat.add_comm 1 j] using this
      · rw [if_neg hv] at h
        exact absurd h (by simp)
    · intro h
      have h0 : other[i]? = some v := by simpa using h 0 (by omega)
      rw [if_pos h0]
      refine (ih (i + 1)).2 ?_
      intro j hj
      have := h (j + 1) (by omega)
      simpa [Nat.add_assoc, Nat.add_comm 1 j] using this

theorem rangeCompare_zero_iff (running other : List String)
    (hlen : running.length = other.length) :
    rangeCompare other 0 running = true ↔ running = other := by
  rw [rangeCompare_eq_true]
  constructor
  · intro h
    apply List.ext_getElem?
    intro j
    by_cases hj : j < running.length
    · simpa using (h j hj).symm
    · have hj2 : ¬ j < other.length := by omega
      simp [List.getElem?_eq_none, Nat.le_of_not_lt hj, Nat.le_of_not_lt hj2]
  · intro h j _
    simp [h]

theorem ite_false_eq_true_iff (c : Prop) [Decidable c] (x : Bool) :
    (if c then false else x) = true ↔ ¬ c ∧ x = true := by
  by_cases h : c <;> simp [h]

theorem Equals_eq_true_unfold (a b : HttpInputConfig) :
    Equals a b = true ↔
      a.Url = b.Url ∧ a.Urls.length = b.Urls.length ∧ rangeCompare b.Urls 0 a.Urls = true ∧
      a.Method = b.Method ∧ a.Headers.keys.card = b.Headers.keys.card ∧
      rangeCompareMap b.Headers a.Headers = true ∧ a.Body = b.Body ∧ a.Username = b.Username ∧
      a.Password = b.Password ∧ a.TickerInterval = b.TickerInterval ∧
      a.SuccessSeverity = b.SuccessSeverity ∧ a.ErrorSeverity = b.ErrorSeverity := by
  unfold Equals
  simp only [ite_false_eq_true_iff, and_true, ne_eq, not_not, Bool.not_eq_false]

theorem rangeCompareMap_eq_true (other running : HeaderMap) :
    rangeCompareMap other running = true ↔
      ∀ k v, running.lookup k = some v → other.index k = v := by
  unfold rangeCompareMap
  rw [decide_eq_true_iff]
  constructor
  · intro h k v hk
    have hmem : k ∈ running.keys := by
      rw [Finmap.mem_keys, ← Finmap.lookup_isSome, hk]
      rfl
    rw [h k hmem, HeaderMap.index, hk]
    rfl
  · intro h k hmem
    rw [Finmap.mem_keys, ← Finmap.lookup_isSome, Option.isSome_iff_exists] at hmem
    obtain ⟨v, hv⟩ := hmem
    rw [h k v hv, HeaderMap.index, hv]
    rfl

theorem rangeCompareMap_self (m : HeaderMap) : rangeCompareMap m m = true := by
  rw [rangeCompareMap_eq_true]
  intro k v hk
  rw [HeaderMap.index, hk]
  rfl

theorem Equals_refl (a : HttpInputConfig) : Equals a a = true := by
  rw [Equals_eq_true_unfold]
  have hu := (rangeCompare_zero_iff a.Urls a.Urls rfl).2 rfl
  exact ⟨rfl, rfl, hu, rfl, rfl, rangeCompareMap_self _, rfl, rfl, rfl, rfl, rfl, rfl⟩

theorem list_eq_iff_index (a b : List String) :
    a = b ↔ a.length = b.length ∧ ∀ i, i < a.length → a[i]? = b[i]? := by
  constructor
  · rintro rfl
    exact ⟨rfl, fun _ _ => rfl⟩
  · rintro ⟨hlen, h⟩
    apply List.ext_getElem?
    intro j
    by_cases hj : j < a.length
    · exact h j hj
    · have hj2 : ¬ j < b.length := by omega
      simp [List.getElem?_eq_none, Nat.le_of_not_lt hj, Nat.le_of_not_lt hj2]

theorem lookup_eq_some_of_index (m : HeaderMap) (k v : String) (hv : v ≠ "")
    (h : m.index k = v) : m.lookup k = some v := by
  unfold HeaderMap.index at h
  cases hl : m.lookup k with
  | none =>
    rw [hl] at h
    exact absurd h.symm hv
  | some w =>
    rw [hl] at h
    exact congrArg some h

theorem mem_keys_iff_lookup (m : HeaderMap) (k : String) :
    k ∈ m.keys ↔ ∃ v, m.lookup k = some v := by
  rw [Finmap.mem_keys, ← Finmap.lookup_isSome, Option.isSome_iff_exists]

theorem headers_eq_of_agree (a b : HeaderMap) (hne : ∀ k, a.lookup k ≠ some "")
    (hcard : a.keys.card = b.keys.card) (hagree : rangeCompareMap b a = true) :
    ∀ k, a.lookup k = b.lookup k := by
  rw [rangeCompareMap_eq_true] at hagree
  have hsome : ∀ k v, a.lookup k = some v → b.lookup k = some v := by
    intro k v hk
    refine lookup_eq_some_of_index b k v ?_ (hagree k v hk)
    rintro rfl
    exact hne k hk
  have hsub : a.keys ⊆ b.keys := by
    intro k hk
    obtain ⟨v, hv⟩ := (mem_keys_iff_lookup a k).1 hk
    exact (mem_keys_iff_lookup b k).2 ⟨v, hsome k v hv⟩
  have hkeys : a.keys = b.keys := Finset.eq_of_subset_of_card_le hsub (le_of_eq hcard.symm)
  intro k
  cases hk : a.lookup k with
  | some v => exact (hsome k v hk).symm
  | none =>
    have hnot : k ∉ b.keys := by
      rw [← hkeys, mem_keys_iff_lookup]
      rintro ⟨v, hv⟩
      rw [hk] at hv
      cases hv
    rw [Finmap.mem_keys, ← Finmap.lookup_eq_none] at hnot
    exact hnot.symm

theorem headerMap_perm (lines other : List (String × String)) (hp : lines.Perm other)
    (hnd : (lines.map Prod.fst).Nodup) : headerMap lines = headerMap other := by
  unfold headerMap
  refine hp.foldl_eq' ?_ ∅
  intro x hx y hy m
  by_cases hxy : x.1 = y.1
  · have : x = y := List.inj_on_of_nodup_map hnd hx hy hxy
    rw [this]
  · exact Finmap.insert_insert_of_ne m hxy

theorem Equals_eq_true_iff_fields (a b : HttpInputConfig)
    (hne : ∀ k, a.Headers.lookup k ≠ some "") :
    Equals a b = true ↔
      a.Url = b.Url ∧ a.Method = b.Method ∧ a.Body = b.Body ∧ a.Username = b.Username ∧
      a.Password = b.Password ∧ a.TickerInterval = b.TickerInterval ∧
      a.SuccessSeverity = b.SuccessSeverity ∧ a.ErrorSeverity = b.ErrorSeverity ∧
      a.Urls = b.Urls ∧ a.Headers = b.Headers := by
  rw [Equals_eq_true_unfold]
  constructor
  · rintro ⟨h1, h2, h3, h4, h5, h6, h7, h8, h9, h10, h11, h12⟩
    have e3 : a.Urls = b.Urls := (rangeCompare_zero_iff a.Urls b.Urls h2).1 h3
    have e6 : a.Headers = b.Headers :=
      Finmap.ext_lookup (headers_eq_of_agree a.Headers b.Headers hne h5 h6)
    exact ⟨h1, h4, h7, h8, h9, h10, h11, h12, e3, e6⟩
  · rintro ⟨h1, h4, h7, h8, h9, h10, h11, h12, e3, e6⟩
    have hu := (rangeCompare_zero_iff a.Urls b.Urls (by rw [e3])).2 e3
    refine ⟨h1, by rw [e3], hu, h4, by rw [e6], ?_, h7, h8, h9, h10, h11, h12⟩
    rw [← e6]
    exact rangeCompareMap_self _

theorem Equals_eq_true_iff_eq (a b : HttpInputConfig)
    (hne : ∀ k, a.Headers.lookup k ≠ some "") : Equals a b = true ↔ a = b := by
  rw [Equals_eq_true_iff_fields a b hne]
  constructor
  · intro h
    cases a
    cases b
    simp_all
  · rintro rfl
    simp

theorem Equals_eq_false_of_differ (a b : HttpInputConfig)
    (h : a.Url ≠ b.Url ∨ a.Method ≠ b.Method ∨ a.Body ≠ b.Body ∨ a.Username ≠ b.Username ∨
      a.Password ≠ b.Password ∨ a.TickerInterval ≠ b.TickerInterval ∨
      a.SuccessSeverity ≠ b.SuccessSeverity ∨ a.ErrorSeverity ≠ b.ErrorSeverity ∨
      a.Urls ≠ b.Urls ∨
      (a.Headers ≠ b.Headers ∧ ∀ k, a.Headers.lookup k ≠ some "")) : Equals a b = false := by
  cases he : Equals a b with
  | false => rfl
  | true =>
    rw [Equals_eq_true_unfold] at he
    obtain ⟨h1, h2, h3, h4, h5, h6, h7, h8, h9, h10, h11, h12⟩ := he
    have e3 : a.Urls = b.Urls := (rangeCompare_zero_iff a.Urls b.Urls h2).1 h3
    rcases h with h | h | h | h | h | h | h | h | h | ⟨h, hne⟩
    · exact absurd h1 h
    · exact absurd h4 h
    · exact absurd h7 h
    · exact absurd h8 h
    · exact absurd h9 h
    · exact absurd h10 h
    · exact absurd h11 h
    · exact absurd h12 h
    · exact absurd e3 h
    · exact absurd (Finmap.ext_lookup (headers_eq_of_agree a.Headers b.Headers hne h5 h6)) h

/-- C4 as stated fails: `Headers` is a map.  The configuration with the one
header `X-A` of empty value and the configuration with the one header `X-B` of
empty value do not have the same headers, and `Equals` returns true on them
(the key the other map lacks reads as the empty string); and the
configurations whose two header lines are written in exchanged order are
`Equals`. -/
theorem Equals_counterexample :
    Equals (blankHeaderConfig "X-A") (blankHeaderConfig "X-B") = true ∧
      (blankHeaderConfig "X-A").Headers.lookup "X-A" = some "" ∧
      (blankHeaderConfig "X-B").Headers.lookup "X-A" = none ∧
      [("Accept", "text/plain"), ("X-Probe", "1")] ≠
        [("X-Probe", "1"), ("Accept", "text/plain")] ∧
      Equals sampleConfig reorderedConfig = true := by
  decide

/-- C4, amended: for configurations `a` and `b` such that no header of `a` has
the empty value, `Equals a b` returns true exactly when the eight scalar
fields are equal, the ordered list `Urls` has the same length and the same
element at every index, and the map `Headers` has the same value, or none,
under every key; `Headers` has no order: two configurations that differ only
in the order in which their headers, of pairwise different keys, are written
are `Equals`. -/
theorem Equals_decides_equality (a b : HttpInputConfig)
    (hne : ∀ k, a.Headers.lookup k ≠ some "") :
    (Equals a b = true ↔
      a.Url = b.Url ∧ a.Method = b.Method ∧ a.Body = b.Body ∧ a.Username = b.Username ∧
      a.Password = b.Password ∧ a.TickerInterval = b.TickerInterval ∧
      a.SuccessSeverity = b.SuccessSeverity ∧ a.ErrorSeverity = b.ErrorSeverity ∧
      (a.Urls.length = b.Urls.length ∧ ∀ i, i < a.Urls.length → a.Urls[i]? = b.Urls[i]?) ∧
      (∀ k, a.Headers.lookup k = b.Headers.lookup k)) ∧
    (∀ lines other : List (String × String), lines.Perm other →
      (lines.map Prod.fst).Nodup →
      Equals { a with Headers := headerMap lines } { a with Headers := headerMap other } =
        true) := by
  refine ⟨?_, ?_⟩
  · rw [Equals_eq_true_iff_fields a b hne, ← list_eq_iff_index]
    constructor
    · rintro ⟨h1, h4, h7, h8, h9, h10, h11, h12, e3, e6⟩
      exact ⟨h1, h4, h7, h8, h9, h10, h11, h12, e3, fun k => by rw [e6]⟩
    · rintro ⟨h1, h4, h7, h8, h9, h10, h11, h12, e3, e6⟩
      exact ⟨h1, h4, h7, h8, h9, h10, h11, h12, e3, Finmap.ext_lookup e6⟩
  · intro lines other hp hnd
    rw [headerMap_perm lines other hp hnd]
    exact Equals_refl _

/-- Witness of C4, amended: the sample configuration, none of whose two headers is
empty, against the same configuration with another poll interval. -/
theorem Equals_decides_equality_witness :
    (∀ k, sampleConfig.Headers.lookup k ≠ some "") ∧
      Equals sampleConfig { sampleConfig with TickerInterval := 10 } = false ∧
      Equals sampleConfig sampleConfig = true := by
  have hne : ∀ k, sampleConfig.Headers.lookup k ≠ some "" := by
    intro k hk
    have hmem : k ∈ sampleConfig.Headers.keys :=
      (mem_keys_iff_lookup _ k).2 ⟨_, hk⟩
    have hall : ∀ i ∈ sampleConfig.Headers.keys, sampleConfig.Headers.lookup i ≠ some "" := by
      decide
    exact hall k hmem hk
  refine ⟨hne, ?_, ?_⟩
  · have h := (Equals_decides_equality sampleConfig { sampleConfig with TickerInterval := 10 }
      hne).1
    cases he : Equals sampleConfig { sampleConfig with TickerInterval := 10 } with
    | false => rfl
    | true =>
      have := (h.1 he).2.2.2.2.2.1
      exact absurd this (by decide)
  · exact (Equals_decides_equality sampleConfig sampleConfig hne).1.2
      ⟨rfl, rfl, rfl, rfl, rfl, rfl, rfl, rfl, ⟨rfl, fun _ _ => rfl⟩, fun _ => rfl⟩

/-! ## Maps -/

theorem mem_mapDelete (k : String) (m : EntryMap) (p : String × HttpEntry) :
    p ∈ mapDelete k m ↔ p ∈ m ∧ p.1 ≠ k := by
  simp [mapDelete]

theorem mapDelete_sublist (k : String) (m : EntryMap) : (mapDelete k m).Sublist m :=
  List.filter_sublist m

theorem mapGet_eq_none_iff (m : EntryMap) (k : String) :
    mapGet m k = none ↔ k ∉ mapKeys m := by
  induction m with
  | nil => simp [mapGet, mapKeys]
  | cons p m ih =>
    obtain ⟨a, v⟩ := p
    by_cases h : a = k
    · simp [mapGet, mapKeys, h]
    · have h2 : ¬ k = a := fun e => h e.symm
      simpa [mapGet, mapKeys, h, h2] using ih

theorem mem_of_mapGet (m : EntryMap) (k : String) (v : HttpEntry) (h : mapGet m k = some v) :
    (k, v) ∈ m := by
  induction m with
  | nil => simp [mapGet] at h
  | cons p m ih =>
    obtain ⟨a, w⟩ := p
    by_cases hk : a = k
    · simp only [mapGet, hk, if_true, Option.some.injEq] at h
      simp [hk, h]
    · simp only [mapGet, hk, if_false] at h
      exact List.mem_cons_of_mem _ (ih h)

theorem mapGet_of_mem (m : EntryMap) (hnd : (mapKeys m).Nodup) (k : String) (v : HttpEntry)
    (h : (k, v) ∈ m) : mapGet m k = some v := by
  induction m with
  | nil => simp at h
  | cons p m ih =>
    obtain ⟨a, w⟩ := p
    simp only [mapKeys, List.map_cons, List.nodup_cons, List.mem_map, not_exists, not_and] at hnd
    rcases List.mem_cons.1 h with h1 | h1
    · cases h1
      simp [mapGet]
    · have hne : a ≠ k := fun e => hnd.1 (k, v) h1 e.symm
      simp only [mapGet, hne, if_false]
      exact ih hnd.2 h1

theorem mapGet_filter_key (f : String → Bool) (m : EntryMap) (k : String) :
    mapGet (m.filter (fun p => f p.1)) k = if f k = true then mapGet m k else none := by
  induction m with
  | nil => simp [mapGet]
  | cons p m ih =>
    obtain ⟨a, w⟩ := p
    by_cases hf : f a = true
    · simp only [List.filter_cons, hf, if_true, mapGet]
      by_cases hk : a = k
      · subst hk
        simp [hf]
      · simp only [hk, if_false]
        exact ih
    · simp only [List.filter_cons, hf, if_false, mapGet, Bool.false_eq_true]
      by_cases hk : a = k
      · subst hk
        simp only [if_true]
        rw [ih]
        simp [hf]
      · simp only [hk, if_false]
        exact ih

theorem mapGet_mapDelete (k : String) (m : EntryMap) (x : String) :
    mapGet (mapDelete k m) x = if x = k then none else mapGet m x := by
  unfold mapDelete
  rw [mapGet_filter_key (fun a => decide (a ≠ k)) m x]
  by_cases h : x = k <;> simp [h]

theorem mapGet_append_single (m : EntryMap) (k : String) (v : HttpEntry) (x : String) :
    mapGet (m ++ [(k, v)]) x =
      match mapGet m x with
      | some r => some r
      | none => if k = x then some v else none := by
  induction m with
  | nil => simp [mapGet]
  | cons p m ih =>
    obtain ⟨a, w⟩ := p
    by_cases hk : a = x
    · simp [mapGet, hk]
    · simp only [List.cons_append, mapGet, hk, if_false]
      exact ih

theorem mapGet_mapSet (k : String) (v : HttpEntry) (m : EntryMap) (x : String) :
    mapGet (mapSet k v m) x = if x = k then some v else mapGet m x := by
  unfold mapSet
  rw [mapGet_append_single, mapGet_mapDelete]
  by_cases h : x = k
  · simp [h]
  · have h2 : ¬ k = x := fun e => h e.symm
    simp only [h, if_false, h2]
    cases mapGet m x <;> rfl

theorem mapDelete_of_not_mem (k : String) (m : EntryMap) (h : k ∉ mapKeys m) :
    mapDelete k m = m := by
  unfold mapDelete
  rw [List.filter_eq_self]
  intro p hp
  have : p.1 ≠ k := fun e => h (by rw [← e]; exact List.mem_map_of_mem Prod.fst hp)
  simpa using this

theorem mapDelete_idem (k : String) (m : EntryMap) : mapDelete k (mapDelete k m) = mapDelete k m := by
  simp [mapDelete, List.filter_filter]

theorem mapSet_of_not_mem (k : String) (v : HttpEntry) (m : EntryMap) (h : k ∉ mapKeys m) :
    mapSet k v m = m ++ [(k, v)] := by
  unfold mapSet
  rw [mapDelete_of_not_mem k m h]

theorem mapKeys_mapDelete_nodup (k : String) (m : EntryMap) (h : (mapKeys m).Nodup) :
    (mapKeys (mapDelete k m)).Nodup :=
  List.Nodup.sublist (List.Sublist.map Prod.fst (mapDelete_sublist k m)) h

theorem not_mem_mapKeys_mapDelete (k : String) (m : EntryMap) : k ∉ mapKeys (mapDelete k m) := by
  rw [← mapGet_eq_none_iff, mapGet_mapDelete]
  simp

theorem mem_mapKeys_of_mem (m : EntryMap) (p : String × HttpEntry) (h : p ∈ m) :
    p.1 ∈ mapKeys m :=
  List.mem_map_of_mem Prod.fst h

theorem mem_mapKeys_iff (m : EntryMap) (k : String) :
    k ∈ mapKeys m ↔ ∃ v, mapGet m k = some v := by
  have := mapGet_eq_none_iff m k
  cases h : mapGet m k with
  | none => simp [this.1 h]
  | some v =>
    have h2 : k ∈ mapKeys m := by
      by_contra hc
      rw [this.2 hc] at h
      cases h
    simp [h2]

/-! ## The invariant of the running set -/

theorem findDuplicate_eq_none_iff (e : HttpEntry) (m : EntryMap) :
    findDuplicate e m = none ↔
      ∀ p ∈ m, e.ir.Name = p.2.ir.Name → e.fileName = p.2.fileName := by
  unfold findDuplicate
  rw [List.find?_eq_none]
  constructor
  · intro h p hp hn
    have := h p hp
    simp only [decide_eq_true_eq, not_and, not_not] at this
    exact this hn
  · intro h p hp
    simp only [decide_eq_true_eq, not_and, not_not]
    exact h p hp

theorem findDuplicate_some (e : HttpEntry) (m : EntryMap) (p : String × HttpEntry)
    (h : findDuplicate e m = some p) :
    p ∈ m ∧ e.ir.Name = p.2.ir.Name ∧ e.fileName ≠ p.2.fileName := by
  unfold findDuplicate at h
  refine ⟨List.mem_of_find?_eq_some h, ?_⟩
  have := List.find?_some h
  simpa using this

theorem findDuplicate_perm (e : HttpEntry) (m m1 : EntryMap) (h : (mapNames m).Nodup)
    (hp : m1.Perm m) : findDuplicate e m1 = findDuplicate e m := by
  cases hd : findDuplicate e m with
  | none =>
    rw [findDuplicate_eq_none_iff] at hd ⊢
    exact fun p hm => hd p (hp.subset hm)
  | some d =>
    obtain ⟨hd1, hd2, hd3⟩ := findDuplicate_some e m d hd
    cases hd4 : findDuplicate e m1 with
    | none =>
      rw [findDuplicate_eq_none_iff] at hd4
      exact absurd (hd4 d (hp.mem_iff.2 hd1) hd2) hd3
    | some d1 =>
      obtain ⟨h1, h2, _⟩ := findDuplicate_some e m1 d1 hd4
      rw [List.inj_on_of_nodup_map h (hp.subset h1) hd1 (by rw [← h2, hd2])]

theorem RunningInv.nil : RunningInv [] :=
  ⟨by simp [mapKeys], by simp, by simp [mapNames]⟩

theorem RunningInv.sublist {m m1 : EntryMap} (h : RunningInv m) (hs : m1.Sublist m) :
    RunningInv m1 :=
  ⟨List.Nodup.sublist (List.Sublist.map Prod.fst hs) h.nodupKeys,
    fun p hp => h.keyed p (hs.subset hp),
    List.Nodup.sublist (List.Sublist.map _ hs) h.nodupNames⟩

theorem RunningInv.perm {m m1 : EntryMap} (h : RunningInv m) (hp : m1.Perm m) :
    RunningInv m1 :=
  ⟨((hp.map Prod.fst).nodup_iff).2 h.nodupKeys,
    fun p hm => h.keyed p (hp.subset hm),
    ((hp.map _).nodup_iff).2 h.nodupNames⟩

theorem RunningInv.mapDelete {m : EntryMap} (h : RunningInv m) (k : String) :
    RunningInv (mapDelete k m) :=
  h.sublist (mapDelete_sublist k m)

theorem RunningInv.mapSet {m : EntryMap} (h : RunningInv m) (k : String) (e : HttpEntry)
    (hd : findDuplicate e m = none) (hk : e.fileName = k) : RunningInv (mapSet k e m) := by
  have hdel := h.mapDelete k
  rw [findDuplicate_eq_none_iff] at hd
  refine ⟨?_, ?_, ?_⟩
  · unfold HttpDirectory.mapSet mapKeys
    rw [List.map_append, List.nodup_append]
    refine ⟨hdel.nodupKeys, by simp, ?_⟩
    intro a ha hb
    simp only [List.map_cons, List.map_nil, List.mem_singleton] at hb
    subst hb
    exact not_mem_mapKeys_mapDelete a m ha
  · intro p hp
    unfold HttpDirectory.mapSet at hp
    rcases List.mem_append.1 hp with h1 | h1
    · exact hdel.keyed p h1
    · simp only [List.mem_singleton] at h1
      subst h1
      exact hk
  · unfold HttpDirectory.mapSet mapNames
    rw [List.map_append, List.nodup_append]
    refine ⟨hdel.nodupNames, by simp, ?_⟩
    intro a ha hb
    simp only [List.map_cons, List.map_nil, List.mem_singleton] at hb
    subst hb
    obtain ⟨p, hp, hpn⟩ := List.mem_map.1 ha
    have hp2 := (mem_mapDelete k m p).1 hp
    have hf := hd p hp2.1 hpn.symm
    have := h.keyed p hp2.1
    exact hp2.2 (by rw [← this, ← hf, hk])

theorem startInput_inv (pConfig : PipelineConfig) (name : String) (newEntry : HttpEntry)
    (lsdi : HttpDirectoryInput) (h : RunningInv lsdi.inputs)
    (hd : findDuplicate newEntry lsdi.inputs = none) (hk : newEntry.fileName = name) :
    RunningInv (startInput pConfig name newEntry lsdi).state.inputs := by
  unfold startInput
  cases pConfig.AddInputRunner lsdi.calls newEntry.ir with
  | some e => exact h
  | none => exact h.mapSet name newEntry hd hk

theorem findDuplicate_mapDelete (e : HttpEntry) (m : EntryMap) (k : String)
    (hd : findDuplicate e m = none) : findDuplicate e (mapDelete k m) = none := by
  rw [findDuplicate_eq_none_iff] at hd ⊢
  intro p hp
  exact hd p ((mem_mapDelete k m p).1 hp).1

theorem loopBody_inv (pConfig : PipelineConfig) (dups : Bool) (name : String)
    (newEntry : HttpEntry) (lsdi : HttpDirectoryInput) (err : Option GoError)
    (h : RunningInv lsdi.inputs) (hk : newEntry.fileName = name) :
    RunningInv (loopBody pConfig dups name newEntry lsdi err).state.inputs := by
  unfold loopBody
  cases hd : findDuplicate newEntry lsdi.inputs with
  | some p => exact h.mapDelete p.1
  | none =>
    cases hg : mapGet lsdi.inputs name with
    | none => exact startInput_inv pConfig name newEntry lsdi h hd hk
    | some runningEntry =>
      simp only
      split_ifs
      · exact h
      · exact startInput_inv pConfig name newEntry _ (h.mapDelete name)
          (findDuplicate_mapDelete newEntry lsdi.inputs name hd) hk

theorem rangeSpecified_inv (pConfig : PipelineConfig) (dups : Bool) (rest : EntryMap)
    (lsdi : HttpDirectoryInput) (err : Option GoError)
    (hk : ∀ p ∈ rest, p.2.fileName = p.1) (h : RunningInv lsdi.inputs) :
    RunningInv (rangeSpecified pConfig dups rest lsdi err).1.inputs := by
  induction rest generalizing lsdi err with
  | nil => exact h
  | cons p rest ih =>
    obtain ⟨name, newEntry⟩ := p
    have hb := loopBody_inv pConfig dups name newEntry lsdi err h
      (hk (name, newEntry) (List.mem_cons_self _ _))
    unfold rangeSpecified
    cases hf : loopBody pConfig dups name newEntry lsdi err with
    | ret s e =>
      rw [hf] at hb
      exact hb
    | next s e =>
      rw [hf] at hb
      exact ih s e (fun q hq => hk q (List.mem_cons_of_mem _ hq)) hb

theorem rangeInputs_inputs (snap : EntryMap) (lsdi : HttpDirectoryInput) :
    (rangeInputs snap lsdi).inputs =
      lsdi.inputs.filter
        (fun p => !(decide (p.1 ∈ mapKeys snap) && (mapGet lsdi.specified p.1).isNone)) ∧
    (rangeInputs snap lsdi).specified = lsdi.specified := by
  induction snap generalizing lsdi with
  | nil => simp [rangeInputs, mapKeys]
  | cons p snap ih =>
    obtain ⟨name, entry⟩ := p
    unfold rangeInputs
    cases hg : mapGet lsdi.specified name with
    | some v =>
      simp only
      refine ⟨?_, (ih lsdi).2⟩
      rw [(ih lsdi).1]
      apply List.filter_congr
      intro q _
      by_cases hq : q.1 = name
      · simp [mapKeys, hq, hg]
      · have hq2 : (q.1 == name) = false := by simpa using hq
        simp [mapKeys, hq, hq2]
    | none =>
      simp only
      refine ⟨?_, (ih _).2⟩
      rw [(ih _).1]
      simp only [stopRunner, mapDelete, List.filter_filter]
      apply List.filter_congr
      intro q _
      by_cases hq : q.1 = name
      · simp [mapKeys, hq, hg]
      · have hq2 : (q.1 == name) = false := by simpa using hq
        simp [mapKeys, hq, hq2]

theorem rangeInputs_sublist (snap : EntryMap) (lsdi : HttpDirectoryInput) :
    (rangeInputs snap lsdi).inputs.Sublist lsdi.inputs := by
  rw [(rangeInputs_inputs snap lsdi).1]
  exact List.filter_sublist _

theorem loadInputs_inv (pConfig : PipelineConfig) (w : WalkResult) (lsdi : HttpDirectoryInput)
    (hw : Scanned w.specified) (h : RunningInv lsdi.inputs) :
    RunningInv (loadInputs pConfig w lsdi).1.inputs := by
  unfold loadInputs
  cases w.err with
  | some e => exact h
  | none =>
    simp only
    apply rangeSpecified_inv
    · rw [(rangeInputs_inputs _ _).2]
      exact hw.keyed
    · exact h.sublist (rangeInputs_sublist _ _)

theorem Reachable.inv {lsdi : HttpDirectoryInput} (h : Reachable lsdi) :
    RunningInv lsdi.inputs := by
  induction h with
  | init logDir => exact RunningInv.nil
  | pass pConfig w lsdi _ hw ih => exact loadInputs_inv pConfig w lsdi hw ih
  | reorder lsdi m _ hp ih => exact ih.perm hp

/-- C3: in every state reachable from the empty running set by passes of
`loadInputs` (any scanned map, any order of iteration, any answers of the
manager, passes that end with a duplicate error included), no two running
jobs of `inputs` have the same logical name. -/
theorem unique_logical_name (lsdi : HttpDirectoryInput) (h : Reachable lsdi) :
    (lsdi.inputs.map (fun p => p.2.ir.Name)).Nodup :=
  h.inv.nodupNames

/-- Witness of C3: the state after two passes, the second over the tree in
which `a.toml` was edited to declare `B` and `b.toml` declares `A`, reached
with `b.toml` first: that pass stops the job of `a.toml` and ends with the
duplicate error. -/
theorem unique_logical_name_witness :
    ((loadInputs acceptAll ⟨renamedTree 2, [], none⟩ runningA).1.inputs.map
      (fun p => p.2.ir.Name)).Nodup :=
  unique_logical_name _
    (Reachable.pass acceptAll ⟨renamedTree 2, [], none⟩ runningA
      (Reachable.pass acceptAll _ (Init "http.d") (Reachable.init "http.d")
        ⟨by decide, by decide⟩)
      ⟨by decide, by decide⟩)

/-! ## One iteration of the loop over `specified` -/

theorem startInput_cases (pConfig : PipelineConfig) (name : String) (newEntry : HttpEntry)
    (lsdi : HttpDirectoryInput) :
    (∃ msg, pConfig.AddInputRunner lsdi.calls newEntry.ir = some msg ∧
      startInput pConfig name newEntry lsdi =
        .next (refusedRunner name newEntry msg lsdi) (some (.host msg))) ∨
    (pConfig.AddInputRunner lsdi.calls newEntry.ir = none ∧
      startInput pConfig name newEntry lsdi = .next (addedRunner name newEntry lsdi) none) := by
  unfold startInput
  cases h : pConfig.AddInputRunner lsdi.calls newEntry.ir with
  | some msg => exact Or.inl ⟨msg, rfl, rfl⟩
  | none => exact Or.inr ⟨rfl, rfl⟩

theorem loopBody_of_duplicate (pConfig : PipelineConfig) (dups : Bool) (name : String)
    (newEntry : HttpEntry) (lsdi : HttpDirectoryInput) (err : Option GoError)
    (q : String × HttpEntry) (hd : findDuplicate newEntry lsdi.inputs = some q) :
    loopBody pConfig dups name newEntry lsdi err =
      .ret (stopRunner q.1 q.2 lsdi) (some (.duplicateName q.2.ir.Name name)) := by
  unfold loopBody
  rw [hd]

theorem loopBody_keep (pConfig : PipelineConfig) (name : String)
    (newEntry : HttpEntry) (lsdi : HttpDirectoryInput) (err : Option GoError) (r : HttpEntry)
    (hd : findDuplicate newEntry lsdi.inputs = none) (hg : mapGet lsdi.inputs name = some r)
    (he : Equals r.config newEntry.config = true) (hn : r.ir.Name = newEntry.ir.Name) :
    loopBody pConfig false name newEntry lsdi err = .next lsdi err := by
  unfold loopBody
  rw [hd]
  simp only [hg, he, hn, decide_True, Bool.and_self, Bool.not_false, if_true]

theorem loopBody_restart (pConfig : PipelineConfig) (dups : Bool) (name : String)
    (newEntry : HttpEntry) (lsdi : HttpDirectoryInput) (err : Option GoError) (r : HttpEntry)
    (hd : findDuplicate newEntry lsdi.inputs = none) (hg : mapGet lsdi.inputs name = some r)
    (hc : ¬ (Equals r.config newEntry.config = true ∧ r.ir.Name = newEntry.ir.Name ∧
      dups = false)) :
    loopBody pConfig dups name newEntry lsdi err =
      startInput pConfig name newEntry (stopRunner name r lsdi) := by
  unfold loopBody
  rw [hd]
  simp only [hg]
  rw [if_neg]
  intro h
  apply hc
  simpa [and_assoc] using h

theorem loopBody_new (pConfig : PipelineConfig) (dups : Bool) (name : String)
    (newEntry : HttpEntry) (lsdi : HttpDirectoryInput) (err : Option GoError)
    (hd : findDuplicate newEntry lsdi.inputs = none) (hg : mapGet lsdi.inputs name = none) :
    loopBody pConfig dups name newEntry lsdi err = startInput pConfig name newEntry lsdi := by
  unfold loopBody
  rw [hd]
  simp only [hg]

theorem loopBody_cases (pConfig : PipelineConfig) (dups : Bool) (name : String)
    (newEntry : HttpEntry) (lsdi : HttpDirectoryInput) (err : Option GoError) :
    (∃ q, findDuplicate newEntry lsdi.inputs = some q ∧
      loopBody pConfig dups name newEntry lsdi err =
        .ret (stopRunner q.1 q.2 lsdi) (some (.duplicateName q.2.ir.Name name))) ∨
    (findDuplicate newEntry lsdi.inputs = none ∧
      ∃ r, mapGet lsdi.inputs name = some r ∧ Equals r.config newEntry.config = true ∧
        r.ir.Name = newEntry.ir.Name ∧ dups = false ∧
        loopBody pConfig dups name newEntry lsdi err = .next lsdi err) ∨
    (findDuplicate newEntry lsdi.inputs = none ∧
      ∃ r, mapGet lsdi.inputs name = some r ∧
        ¬ (Equals r.config newEntry.config = true ∧ r.ir.Name = newEntry.ir.Name ∧
          dups = false) ∧
        loopBody pConfig dups name newEntry lsdi err =
          startInput pConfig name newEntry (stopRunner name r lsdi)) ∨
    (findDuplicate newEntry lsdi.inputs = none ∧ mapGet lsdi.inputs name = none ∧
      loopBody pConfig dups name newEntry lsdi err = startInput pConfig name newEntry lsdi) := by
  cases hd : findDuplicate newEntry lsdi.inputs with
  | some q => exact Or.inl ⟨q, rfl, loopBody_of_duplicate pConfig dups name newEntry lsdi err q hd⟩
  | none =>
    right
    cases hg : mapGet lsdi.inputs name with
    | none => exact Or.inr (Or.inr ⟨rfl, rfl, loopBody_new pConfig dups name newEntry lsdi err hd hg⟩)
    | some r =>
      by_cases hc : Equals r.config newEntry.config = true ∧ r.ir.Name = newEntry.ir.Name ∧
          dups = false
      · refine Or.inl ⟨rfl, r, rfl, hc.1, hc.2.1, hc.2.2, ?_⟩
        obtain ⟨h1, h2, h3⟩ := hc
        subst h3
        exact loopBody_keep pConfig name newEntry lsdi err r hd hg h1 h2
      · exact Or.inr (Or.inl ⟨rfl, r, rfl, hc,
          loopBody_restart pConfig dups name newEntry lsdi err r hd hg hc⟩)


theorem not_isDuplicate_none : ¬ IsDuplicate none := by
  rintro ⟨a, b, h⟩
  cases h

theorem not_isDuplicate_host (msg : String) : ¬ IsDuplicate (some (.host msg)) := by
  rintro ⟨a, b, h⟩
  cases h

theorem isDuplicate_duplicateName (a b : String) : IsDuplicate (some (.duplicateName a b)) :=
  ⟨a, b, rfl⟩

theorem loopBody_next_find (pConfig : PipelineConfig) (dups : Bool) (name : String)
    (newEntry : HttpEntry) (lsdi s : HttpDirectoryInput) (err e : Option GoError)
    (h : loopBody pConfig dups name newEntry lsdi err = .next s e) :
    findDuplicate newEntry lsdi.inputs = none := by
  rcases loopBody_cases pConfig dups name newEntry lsdi err with
    ⟨q, _, hb⟩ | ⟨hd, _⟩ | ⟨hd, _⟩ | ⟨hd, _⟩
  · rw [hb] at h
    cases h
  · exact hd
  · exact hd
  · exact hd

theorem startInput_next_frame (pConfig : PipelineConfig) (name : String)
    (newEntry : HttpEntry) (lsdi s : HttpDirectoryInput) (e : Option GoError)
    (h : startInput pConfig name newEntry lsdi = .next s e) (k : String) (hk : k ≠ name) :
    mapGet s.inputs k = mapGet lsdi.inputs k := by
  rcases startInput_cases pConfig name newEntry lsdi with ⟨msg, _, hs⟩ | ⟨_, hs⟩
  · rw [hs] at h
    cases h
    rfl
  · rw [hs] at h
    cases h
    simp [addedRunner, mapGet_mapSet, hk]

theorem loopBody_next_frame (pConfig : PipelineConfig) (dups : Bool) (name : String)
    (newEntry : HttpEntry) (lsdi s : HttpDirectoryInput) (err e : Option GoError)
    (h : loopBody pConfig dups name newEntry lsdi err = .next s e) (k : String) (hk : k ≠ name) :
    mapGet s.inputs k = mapGet lsdi.inputs k := by
  rcases loopBody_cases pConfig dups name newEntry lsdi err with
    ⟨q, _, hb⟩ | ⟨_, r, _, _, _, _, hb⟩ | ⟨_, r, _, _, hb⟩ | ⟨_, _, hb⟩
  · rw [hb] at h
    cases h
  · rw [hb] at h
    cases h
    rfl
  · rw [hb] at h
    rw [startInput_next_frame pConfig name newEntry _ s e h k hk]
    simp [stopRunner, mapGet_mapDelete, hk]
  · rw [hb] at h
    exact startInput_next_frame pConfig name newEntry _ s e h k hk

theorem startInput_next_err (pConfig : PipelineConfig) (name : String)
    (newEntry : HttpEntry) (lsdi s : HttpDirectoryInput) (e : Option GoError)
    (h : startInput pConfig name newEntry lsdi = .next s e) : ¬ IsDuplicate e := by
  rcases startInput_cases pConfig name newEntry lsdi with ⟨msg, _, hs⟩ | ⟨_, hs⟩
  · rw [hs] at h
    cases h
    exact not_isDuplicate_host msg
  · rw [hs] at h
    cases h
    exact not_isDuplicate_none

theorem loopBody_next_err (pConfig : PipelineConfig) (dups : Bool) (name : String)
    (newEntry : HttpEntry) (lsdi s : HttpDirectoryInput) (err e : Option GoError)
    (h : loopBody pConfig dups name newEntry lsdi err = .next s e) (hn : ¬ IsDuplicate err) :
    ¬ IsDuplicate e := by
  rcases loopBody_cases pConfig dups name newEntry lsdi err with
    ⟨q, _, hb⟩ | ⟨_, r, _, _, _, _, hb⟩ | ⟨_, r, _, _, hb⟩ | ⟨_, _, hb⟩
  · rw [hb] at h
    cases h
  · rw [hb] at h
    cases h
    exact hn
  · rw [hb] at h
    exact startInput_next_err pConfig name newEntry _ s e h
  · rw [hb] at h
    exact startInput_next_err pConfig name newEntry _ s e h

theorem loopBody_ret_err (pConfig : PipelineConfig) (dups : Bool) (name : String)
    (newEntry : HttpEntry) (lsdi s : HttpDirectoryInput) (err e : Option GoError)
    (h : loopBody pConfig dups name newEntry lsdi err = .ret s e) : IsDuplicate e := by
  rcases loopBody_cases pConfig dups name newEntry lsdi err with
    ⟨q, _, hb⟩ | ⟨_, r, _, _, _, _, hb⟩ | ⟨_, r, _, _, hb⟩ | ⟨_, _, hb⟩
  · rw [hb] at h
    cases h
    exact isDuplicate_duplicateName _ _
  · rw [hb] at h
    cases h
  · rw [hb] at h
    rcases startInput_cases pConfig name newEntry (stopRunner name r lsdi) with
      ⟨msg, _, hs⟩ | ⟨_, hs⟩ <;> rw [hs] at h <;> cases h
  · rw [hb] at h
    rcases startInput_cases pConfig name newEntry lsdi with
      ⟨msg, _, hs⟩ | ⟨_, hs⟩ <;> rw [hs] at h <;> cases h

/-! ## The loop over `specified` -/

theorem rangeSpecified_cons (pConfig : PipelineConfig) (dups : Bool) (name : String)
    (newEntry : HttpEntry) (rest : EntryMap) (lsdi : HttpDirectoryInput) (err : Option GoError) :
    rangeSpecified pConfig dups ((name, newEntry) :: rest) lsdi err =
      match loopBody pConfig dups name newEntry lsdi err with
      | .ret lsdi1 err1 => (lsdi1, err1)
      | .next lsdi1 err1 => rangeSpecified pConfig dups rest lsdi1 err1 := rfl

theorem rangeReach_eq (pConfig : PipelineConfig) (dups : Bool) (front : EntryMap)
    (lsdi : HttpDirectoryInput) (err : Option GoError) (r : HttpDirectoryInput × Option GoError)
    (h : rangeReach pConfig dups front lsdi err = some r) :
    rangeSpecified pConfig dups front lsdi err = r := by
  induction front generalizing lsdi err with
  | nil =>
    simp only [rangeReach, Option.some.injEq] at h
    simp [rangeSpecified, h]
  | cons p front ih =>
    obtain ⟨name, newEntry⟩ := p
    unfold rangeReach at h
    unfold rangeSpecified
    cases hb : loopBody pConfig dups name newEntry lsdi err with
    | ret s e =>
      rw [hb] at h
      cases h
    | next s e =>
      rw [hb] at h
      exact ih s e h

theorem rangeSpecified_append (pConfig : PipelineConfig) (dups : Bool) (front rest : EntryMap)
    (lsdi s : HttpDirectoryInput) (err e : Option GoError)
    (h : rangeReach pConfig dups front lsdi err = some (s, e)) :
    rangeSpecified pConfig dups (front ++ rest) lsdi err = rangeSpecified pConfig dups rest s e := by
  induction front generalizing lsdi err with
  | nil =>
    simp only [rangeReach, Option.some.injEq, Prod.mk.injEq] at h
    simp [h.1, h.2]
  | cons p front ih =>
    obtain ⟨name, newEntry⟩ := p
    unfold rangeReach at h
    simp only [List.cons_append]
    rw [rangeSpecified_cons]
    cases hb : loopBody pConfig dups name newEntry lsdi err with
    | ret s1 e1 =>
      rw [hb] at h
      cases h
    | next s1 e1 =>
      rw [hb] at h
      exact ih s1 e1 h

theorem rangeReach_of_not_duplicate (pConfig : PipelineConfig) (dups : Bool) (rest : EntryMap)
    (lsdi : HttpDirectoryInput) (err : Option GoError) (hn : ¬ IsDuplicate err)
    (h : ¬ IsDuplicate (rangeSpecified pConfig dups rest lsdi err).2) :
    rangeReach pConfig dups rest lsdi err = some (rangeSpecified pConfig dups rest lsdi err) := by
  induction rest generalizing lsdi err with
  | nil => simp [rangeReach, rangeSpecified]
  | cons p rest ih =>
    obtain ⟨name, newEntry⟩ := p
    unfold rangeSpecified at h ⊢
    unfold rangeReach
    cases hb : loopBody pConfig dups name newEntry lsdi err with
    | ret s e =>
      rw [hb] at h
      exact absurd (loopBody_ret_err pConfig dups name newEntry lsdi s err e hb) h
    | next s e =>
      rw [hb] at h
      exact ih s e (loopBody_next_err pConfig dups name newEntry lsdi s err e hb hn) h

theorem rangeReach_not_duplicate (pConfig : PipelineConfig) (dups : Bool) (rest : EntryMap)
    (lsdi s : HttpDirectoryInput) (err e : Option GoError) (hn : ¬ IsDuplicate err)
    (h : rangeReach pConfig dups rest lsdi err = some (s, e)) : ¬ IsDuplicate e := by
  induction rest generalizing lsdi err with
  | nil =>
    simp only [rangeReach, Option.some.injEq, Prod.mk.injEq] at h
    rw [← h.2]
    exact hn
  | cons p rest ih =>
    obtain ⟨name, newEntry⟩ := p
    unfold rangeReach at h
    cases hb : loopBody pConfig dups name newEntry lsdi err with
    | ret s1 e1 =>
      rw [hb] at h
      cases h
    | next s1 e1 =>
      rw [hb] at h
      exact ih s1 e1 (loopBody_next_err pConfig dups name newEntry lsdi s1 err e1 hb hn) h

theorem rangeReach_frame (pConfig : PipelineConfig) (dups : Bool) (rest : EntryMap)
    (lsdi s : HttpDirectoryInput) (err e : Option GoError)
    (h : rangeReach pConfig dups rest lsdi err = some (s, e)) (k : String)
    (hk : k ∉ mapKeys rest) : mapGet s.inputs k = mapGet lsdi.inputs k := by
  induction rest generalizing lsdi err with
  | nil =>
    simp only [rangeReach, Option.some.injEq, Prod.mk.injEq] at h
    rw [h.1]
  | cons p rest ih =>
    obtain ⟨name, newEntry⟩ := p
    unfold rangeReach at h
    simp only [mapKeys, List.map_cons, List.mem_cons, not_or] at hk
    cases hb : loopBody pConfig dups name newEntry lsdi err with
    | ret s1 e1 =>
      rw [hb] at h
      cases h
    | next s1 e1 =>
      rw [hb] at h
      rw [ih s1 e1 h hk.2]
      exact loopBody_next_frame pConfig dups name newEntry lsdi s1 err e1 hb k hk.1


theorem startInput_inputs_mem (pConfig : PipelineConfig) (name : String) (newEntry : HttpEntry)
    (lsdi : HttpDirectoryInput) (q : String × HttpEntry)
    (hq : q ∈ (startInput pConfig name newEntry lsdi).state.inputs) :
    q ∈ lsdi.inputs ∨ q = (name, newEntry) := by
  rcases startInput_cases pConfig name newEntry lsdi with ⟨msg, _, hs⟩ | ⟨_, hs⟩
  · rw [hs] at hq
    exact Or.inl hq
  · rw [hs] at hq
    simp only [Flow.state, addedRunner, mapSet, List.mem_append, List.mem_singleton] at hq
    rcases hq with h | h
    · exact Or.inl ((mem_mapDelete name lsdi.inputs q).1 h).1
    · exact Or.inr h

theorem loopBody_inputs_mem (pConfig : PipelineConfig) (dups : Bool) (name : String)
    (newEntry : HttpEntry) (lsdi : HttpDirectoryInput) (err : Option GoError)
    (q : String × HttpEntry)
    (hq : q ∈ (loopBody pConfig dups name newEntry lsdi err).state.inputs) :
    q ∈ lsdi.inputs ∨ q = (name, newEntry) := by
  rcases loopBody_cases pConfig dups name newEntry lsdi err with
    ⟨d, _, hb⟩ | ⟨_, r, _, _, _, _, hb⟩ | ⟨_, r, _, _, hb⟩ | ⟨_, _, hb⟩
  · rw [hb] at hq
    exact Or.inl ((mem_mapDelete d.1 lsdi.inputs q).1 hq).1
  · rw [hb] at hq
    exact Or.inl hq
  · rw [hb] at hq
    rcases startInput_inputs_mem pConfig name newEntry _ q hq with h | h
    · exact Or.inl ((mem_mapDelete name lsdi.inputs q).1 h).1
    · exact Or.inr h
  · rw [hb] at hq
    exact startInput_inputs_mem pConfig name newEntry _ q hq

theorem loopBody_next_conv (pConfig : PipelineConfig) (dups : Bool) (name : String)
    (newEntry : HttpEntry) (lsdi s : HttpDirectoryInput) (err e : Option GoError)
    (ha : AcceptsAll pConfig)
    (h : loopBody pConfig dups name newEntry lsdi err = .next s e) :
    (∃ r, mapGet s.inputs name = some r ∧ r.ir.Name = newEntry.ir.Name ∧
      Equals r.config newEntry.config = true) ∧ (err = none → e = none) := by
  have hstart : ∀ l : HttpDirectoryInput, startInput pConfig name newEntry l = .next s e →
      (∃ r, mapGet s.inputs name = some r ∧ r.ir.Name = newEntry.ir.Name ∧
        Equals r.config newEntry.config = true) ∧ (err = none → e = none) := by
    intro l hl
    rcases startInput_cases pConfig name newEntry l with ⟨msg, hm, _⟩ | ⟨_, hs⟩
    · rw [ha l.calls newEntry.ir] at hm
      cases hm
    · rw [hs] at hl
      cases hl
      refine ⟨⟨newEntry, ?_, rfl, Equals_refl _⟩, fun _ => rfl⟩
      simp [addedRunner, mapGet_mapSet]
  rcases loopBody_cases pConfig dups name newEntry lsdi err with
    ⟨d, _, hb⟩ | ⟨_, r, hg, he, hn, _, hb⟩ | ⟨_, r, _, _, hb⟩ | ⟨_, _, hb⟩
  · rw [hb] at h
    cases h
  · rw [hb] at h
    cases h
    exact ⟨⟨r, hg, hn, he⟩, fun x => x⟩
  · rw [hb] at h
    exact hstart _ h
  · rw [hb] at h
    exact hstart _ h

theorem rangeReach_conv (pConfig : PipelineConfig) (dups : Bool) (rest : EntryMap)
    (lsdi s : HttpDirectoryInput) (err e : Option GoError) (ha : AcceptsAll pConfig)
    (hnd : (mapKeys rest).Nodup)
    (h : rangeReach pConfig dups rest lsdi err = some (s, e)) :
    (∀ p ∈ rest, ∃ r, mapGet s.inputs p.1 = some r ∧ r.ir.Name = p.2.ir.Name ∧
      Equals r.config p.2.config = true) ∧ (err = none → e = none) := by
  induction rest generalizing lsdi err with
  | nil =>
    simp only [rangeReach, Option.some.injEq, Prod.mk.injEq] at h
    refine ⟨by simp, fun x => ?_⟩
    rw [← h.2]
    exact x
  | cons p rest ih =>
    obtain ⟨name, newEntry⟩ := p
    unfold rangeReach at h
    simp only [mapKeys, List.map_cons, List.nodup_cons] at hnd
    cases hb : loopBody pConfig dups name newEntry lsdi err with
    | ret s1 e1 =>
      rw [hb] at h
      cases h
    | next s1 e1 =>
      rw [hb] at h
      have hbody := loopBody_next_conv pConfig dups name newEntry lsdi s1 err e1 ha hb
      have hrest := ih s1 e1 hnd.2 h
      refine ⟨?_, fun x => hrest.2 (hbody.2 x)⟩
      intro p hp
      rcases List.mem_cons.1 hp with h1 | h1
      · subst h1
        rw [rangeReach_frame pConfig dups rest s1 s e1 e h name hnd.1]
        exact hbody.1
      · exact hrest.1 p h1

theorem rangeReach_of_noConflict (pConfig : PipelineConfig) (dups : Bool) (rest : EntryMap)
    (lsdi : HttpDirectoryInput) (err : Option GoError) (hinv : RunningInv lsdi.inputs)
    (hk : ∀ p ∈ rest, p.2.fileName = p.1) (hnames : (mapNames rest).Nodup)
    (hc : ∀ p ∈ rest, ∀ q ∈ lsdi.inputs, q.2.ir.Name = p.2.ir.Name → q.1 = p.1) :
    ∃ r, rangeReach pConfig dups rest lsdi err = some r := by
  induction rest generalizing lsdi err with
  | nil => exact ⟨(lsdi, err), rfl⟩
  | cons p rest ih =>
    obtain ⟨name, newEntry⟩ := p
    have hfile : newEntry.fileName = name := hk (name, newEntry) (List.mem_cons_self _ _)
    have hd : findDuplicate newEntry lsdi.inputs = none := by
      rw [findDuplicate_eq_none_iff]
      intro q hq hn
      have h1 := hc (name, newEntry) (List.mem_cons_self _ _) q hq hn.symm
      rw [hinv.keyed q hq, h1]
      exact hfile
    simp only [mapNames, List.map_cons, List.nodup_cons, List.mem_map, not_exists, not_and]
      at hnames
    unfold rangeReach
    have hinv1 := loopBody_inv pConfig dups name newEntry lsdi err hinv hfile
    cases hb : loopBody pConfig dups name newEntry lsdi err with
    | ret s1 e1 =>
      rcases loopBody_cases pConfig dups name newEntry lsdi err with
        ⟨d, hd2, _⟩ | ⟨_, r, _, _, _, _, hb2⟩ | ⟨_, r, _, _, hb2⟩ | ⟨_, _, hb2⟩
      · rw [hd] at hd2
        cases hd2
      · rw [hb] at hb2
        cases hb2
      · rw [hb] at hb2
        rcases startInput_cases pConfig name newEntry (stopRunner name r lsdi) with
          ⟨msg, _, hs⟩ | ⟨_, hs⟩ <;> rw [hs] at hb2 <;> cases hb2
      · rw [hb] at hb2
        rcases startInput_cases pConfig name newEntry lsdi with
          ⟨msg, _, hs⟩ | ⟨_, hs⟩ <;> rw [hs] at hb2 <;> cases hb2
    | next s1 e1 =>
      rw [hb] at hinv1
      apply ih s1 e1 hinv1 (fun q hq => hk q (List.mem_cons_of_mem _ hq)) hnames.2
      intro p hp q hq hn
      have hmem := loopBody_inputs_mem pConfig dups name newEntry lsdi err q (by rw [hb]; exact hq)
      rcases hmem with h1 | h1
      · exact hc p (List.mem_cons_of_mem _ hp) q h1 hn
      · subst h1
        exact absurd hn.symm (hnames.1 p hp)

theorem rangeInputs_self (lsdi : HttpDirectoryInput) :
    (rangeInputs lsdi.inputs lsdi).inputs =
      lsdi.inputs.filter (fun p => (mapGet lsdi.specified p.1).isSome) := by
  rw [(rangeInputs_inputs lsdi.inputs lsdi).1]
  apply List.filter_congr
  intro q hq
  have : q.1 ∈ mapKeys lsdi.inputs := mem_mapKeys_of_mem _ q hq
  cases mapGet lsdi.specified q.1 <;> simp [this]


/-! ## Convergence of a pass -/

theorem loadInputs_eq (pConfig : PipelineConfig) (declared : EntryMap) (walkLog : List LogLine)
    (lsdi : HttpDirectoryInput) :
    loadInputs pConfig ⟨declared, walkLog, none⟩ lsdi =
      rangeSpecified pConfig false declared
        (rangeInputs lsdi.inputs { lsdi with specified := declared, log := lsdi.log ++ walkLog })
        none := by
  unfold loadInputs
  simp only
  rw [(rangeInputs_inputs _ _).2]

theorem stepA_get (declared : EntryMap) (walkLog : List LogLine) (lsdi : HttpDirectoryInput)
    (k : String) :
    mapGet (rangeInputs lsdi.inputs
        { lsdi with specified := declared, log := lsdi.log ++ walkLog }).inputs k =
      if (mapGet declared k).isSome = true then mapGet lsdi.inputs k else none := by
  have h := rangeInputs_self { lsdi with specified := declared, log := lsdi.log ++ walkLog }
  simp only at h
  rw [h]
  exact mapGet_filter_key (fun a => (mapGet declared a).isSome) lsdi.inputs k

theorem stepA_mem (declared : EntryMap) (walkLog : List LogLine) (lsdi : HttpDirectoryInput)
    (q : String × HttpEntry) :
    q ∈ (rangeInputs lsdi.inputs
        { lsdi with specified := declared, log := lsdi.log ++ walkLog }).inputs ↔
      q ∈ lsdi.inputs ∧ q.1 ∈ mapKeys declared := by
  have h := rangeInputs_self { lsdi with specified := declared, log := lsdi.log ++ walkLog }
  simp only at h
  rw [h, List.mem_filter, mem_mapKeys_iff]
  cases mapGet declared q.1 <;> simp

theorem stepA_inv (declared : EntryMap) (walkLog : List LogLine) (lsdi : HttpDirectoryInput)
    (h : RunningInv lsdi.inputs) :
    RunningInv (rangeInputs lsdi.inputs
        { lsdi with specified := declared, log := lsdi.log ++ walkLog }).inputs :=
  h.sublist (rangeInputs_sublist _ _)

/-- C1: from a reachable running set, over a declared set with pairwise
distinct logical names none of which is the name of a running job of another,
still declared file, with a manager that accepts every start, a pass returns
no error, leaves `inputs` with exactly the declared file paths as keys, and
under each path runs an entry with the declared logical name and a
configuration `Equals` to the declared one. -/
theorem loadInputs_converges (pConfig : PipelineConfig) (lsdi : HttpDirectoryInput)
    (declared : EntryMap) (walkLog : List LogLine)
    (hr : Reachable lsdi) (hs : Scanned declared) (hnames : (mapNames declared).Nodup)
    (hc : ∀ p ∈ declared, ∀ q ∈ lsdi.inputs, q.2.ir.Name = p.2.ir.Name →
      q.2.fileName ≠ p.2.fileName → q.2.fileName ∉ mapKeys declared)
    (ha : AcceptsAll pConfig) :
    (loadInputs pConfig ⟨declared, walkLog, none⟩ lsdi).2 = none ∧
    (mapKeys (loadInputs pConfig ⟨declared, walkLog, none⟩ lsdi).1.inputs).Perm
      (mapKeys declared) ∧
    ∀ p ∈ declared, ∃ r,
      mapGet (loadInputs pConfig ⟨declared, walkLog, none⟩ lsdi).1.inputs p.1 = some r ∧
      r.ir.Name = p.2.ir.Name ∧ Equals r.config p.2.config = true := by
  have hinv := hr.inv
  have hinv1 := stepA_inv declared walkLog lsdi hinv
  have hc1 : ∀ p ∈ declared, ∀ q ∈ (rangeInputs lsdi.inputs
      { lsdi with specified := declared, log := lsdi.log ++ walkLog }).inputs,
      q.2.ir.Name = p.2.ir.Name → q.1 = p.1 := by
    intro p hp q hq hn
    obtain ⟨hq1, hq2⟩ := (stepA_mem declared walkLog lsdi q).1 hq
    by_contra hne
    have hf : q.2.fileName ≠ p.2.fileName := by
      rw [hinv.keyed q hq1, hs.keyed p hp]
      exact hne
    have := hc p hp q hq1 hn hf
    rw [hinv.keyed q hq1] at this
    exact this hq2
  obtain ⟨⟨s, e⟩, hreach⟩ := rangeReach_of_noConflict pConfig false declared _ none hinv1
    hs.keyed hnames hc1
  have heq := rangeReach_eq pConfig false declared _ none (s, e) hreach
  have hconv := rangeReach_conv pConfig false declared _ s none e ha hs.nodupKeys hreach
  have hres : loadInputs pConfig ⟨declared, walkLog, none⟩ lsdi = (s, e) := by
    rw [loadInputs_eq, heq]
  have hinvs : RunningInv s.inputs := by
    have := rangeSpecified_inv pConfig false declared _ none hs.keyed hinv1
    rw [heq] at this
    exact this
  rw [hres]
  refine ⟨hconv.2 rfl, ?_, hconv.1⟩
  rw [List.perm_ext_iff_of_nodup hinvs.nodupKeys hs.nodupKeys]
  intro k
  constructor
  · intro hk
    by_contra hnot
    have h1 := rangeReach_frame pConfig false declared _ s none e hreach k hnot
    rw [stepA_get, (mapGet_eq_none_iff declared k).2 hnot] at h1
    simp only [Option.isSome_none, Bool.false_eq_true, if_false] at h1
    exact ((mapGet_eq_none_iff s.inputs k).1 h1) hk
  · intro hk
    obtain ⟨p, hp, hpk⟩ := List.mem_map.1 hk
    obtain ⟨r, hr1, _⟩ := hconv.1 p hp
    rw [hpk] at hr1
    exact (mem_mapKeys_iff s.inputs k).2 ⟨r, hr1⟩


/-- Witness of C1: from the state that runs `A` from `a.toml`, a pass over the
tree in which `a.toml` has a new poll interval and `c.toml` declares `C`. -/
theorem loadInputs_converges_witness :
    (loadInputs acceptAll ⟨editedTree, [], none⟩ runningA).2 = none ∧
    (mapKeys (loadInputs acceptAll ⟨editedTree, [], none⟩ runningA).1.inputs).Perm
      (mapKeys editedTree) ∧
    ∀ p ∈ editedTree, ∃ r,
      mapGet (loadInputs acceptAll ⟨editedTree, [], none⟩ runningA).1.inputs p.1 = some r ∧
      r.ir.Name = p.2.ir.Name ∧ Equals r.config p.2.config = true :=
  loadInputs_converges acceptAll runningA editedTree []
    (Reachable.pass acceptAll _ (Init "http.d") (Reachable.init "http.d")
      ⟨by decide, by decide⟩)
    ⟨by decide, by decide⟩ (by decide) (by decide) (fun _ _ => rfl)

/-! ## A second pass over an unchanged tree -/

theorem rangeInputs_noop (snap : EntryMap) (lsdi : HttpDirectoryInput)
    (h : ∀ q ∈ snap, q.1 ∈ mapKeys lsdi.specified) : rangeInputs snap lsdi = lsdi := by
  induction snap with
  | nil => rfl
  | cons p snap ih =>
    obtain ⟨name, entry⟩ := p
    unfold rangeInputs
    obtain ⟨v, hv⟩ := (mem_mapKeys_iff _ _).1 (h (name, entry) (List.mem_cons_self _ _))
    rw [hv]
    exact ih (fun q hq => h q (List.mem_cons_of_mem _ hq))

theorem rangeSpecified_unchanged (pConfig : PipelineConfig) (rest : EntryMap)
    (lsdi : HttpDirectoryInput) (err : Option GoError)
    (h : ∀ p ∈ rest, findDuplicate p.2 lsdi.inputs = none ∧
      ∃ r, mapGet lsdi.inputs p.1 = some r ∧ Equals r.config p.2.config = true ∧
        r.ir.Name = p.2.ir.Name) :
    rangeSpecified pConfig false rest lsdi err = (lsdi, err) := by
  induction rest with
  | nil => rfl
  | cons p rest ih =>
    obtain ⟨name, newEntry⟩ := p
    obtain ⟨hd, r, hg, he, hn⟩ := h (name, newEntry) (List.mem_cons_self _ _)
    rw [rangeSpecified_cons, loopBody_keep pConfig name newEntry lsdi err r hd hg he hn]
    exact ih (fun q hq => h q (List.mem_cons_of_mem _ hq))

theorem names_injective (m : EntryMap) (h : (mapNames m).Nodup) (p q : String × HttpEntry)
    (hp : p ∈ m) (hq : q ∈ m) (hn : p.2.ir.Name = q.2.ir.Name) : p = q :=
  List.inj_on_of_nodup_map h hp hq hn

/-- C2, amended: from a reachable running set, over a declared set with
pairwise distinct logical names and with a manager that accepts every start,
when a first pass has returned no error, a second pass over a fresh parse of
the unchanged tree (same paths, same logical names, identical configurations,
any order, any manager) makes no call to the manager, leaves `inputs` as it
was, the old running entries included, and returns no error. -/
theorem second_pass_is_noop (pConfig pConfig2 : PipelineConfig) (lsdi : HttpDirectoryInput)
    (declared fresh : EntryMap) (walkLog freshLog : List LogLine)
    (hr : Reachable lsdi) (hs : Scanned declared) (hnames : (mapNames declared).Nodup)
    (ha : AcceptsAll pConfig) (hfs : Scanned fresh)
    (hsame : ∀ k, (mapGet fresh k).map (fun e => (e.ir.Name, e.config)) =
      (mapGet declared k).map (fun e => (e.ir.Name, e.config)))
    (hfirst : (loadInputs pConfig ⟨declared, walkLog, none⟩ lsdi).2 = none) :
    (loadInputs pConfig2 ⟨fresh, freshLog, none⟩
        (loadInputs pConfig ⟨declared, walkLog, none⟩ lsdi).1).1.calls =
      (loadInputs pConfig ⟨declared, walkLog, none⟩ lsdi).1.calls ∧
    (loadInputs pConfig2 ⟨fresh, freshLog, none⟩
        (loadInputs pConfig ⟨declared, walkLog, none⟩ lsdi).1).1.inputs =
      (loadInputs pConfig ⟨declared, walkLog, none⟩ lsdi).1.inputs ∧
    (loadInputs pConfig2 ⟨fresh, freshLog, none⟩
        (loadInputs pConfig ⟨declared, walkLog, none⟩ lsdi).1).2 = none := by
  have hinv1 := stepA_inv declared walkLog lsdi hr.inv
  have hnd : ¬ IsDuplicate (rangeSpecified pConfig false declared
      (rangeInputs lsdi.inputs { lsdi with specified := declared, log := lsdi.log ++ walkLog })
      none).2 := by
    rw [← loadInputs_eq, hfirst]
    exact not_isDuplicate_none
  have hreach := rangeReach_of_not_duplicate pConfig false declared _ none
    not_isDuplicate_none hnd
  rw [← loadInputs_eq] at hreach
  generalize hres : loadInputs pConfig ⟨declared, walkLog, none⟩ lsdi = res at hreach hfirst ⊢
  obtain ⟨s, e⟩ := res
  have hinvs : RunningInv s.inputs := by
    have := loadInputs_inv pConfig ⟨declared, walkLog, none⟩ lsdi hs hr.inv
    rw [hres] at this
    exact this
  have hconv := (rangeReach_conv pConfig false declared _ s none e ha hs.nodupKeys hreach).1
  have hkeys : ∀ q ∈ s.inputs, q.1 ∈ mapKeys declared := by
    intro q hq
    by_contra hnot
    have h1 := rangeReach_frame pConfig false declared _ s none e hreach q.1 hnot
    rw [stepA_get, (mapGet_eq_none_iff declared q.1).2 hnot] at h1
    simp only [Option.isSome_none, Bool.false_eq_true, if_false] at h1
    rw [mapGet_of_mem s.inputs hinvs.nodupKeys q.1 q.2 hq] at h1
    cases h1
  have hfreshKeys : ∀ k, k ∈ mapKeys declared → k ∈ mapKeys fresh := by
    intro k hk
    obtain ⟨v, hv⟩ := (mem_mapKeys_iff declared k).1 hk
    have h1 := hsame k
    rw [hv] at h1
    cases hf : mapGet fresh k with
    | none =>
      rw [hf] at h1
      cases h1
    | some w => exact (mem_mapKeys_iff fresh k).2 ⟨w, hf⟩
  have hdecl : ∀ p ∈ fresh, ∃ d, (p.1, d) ∈ declared ∧ d.ir.Name = p.2.ir.Name ∧
      d.config = p.2.config := by
    intro p hp
    have h1 := hsame p.1
    rw [mapGet_of_mem fresh hfs.nodupKeys p.1 p.2 hp] at h1
    cases hd : mapGet declared p.1 with
    | none =>
      rw [hd] at h1
      cases h1
    | some d =>
      rw [hd] at h1
      simp only [Option.map_some', Option.some.injEq, Prod.mk.injEq] at h1
      exact ⟨d, mem_of_mapGet declared p.1 d hd, h1.1.symm, h1.2.symm⟩
  have hrunning : ∀ q ∈ s.inputs, ∃ d, (q.1, d) ∈ declared ∧ d.ir.Name = q.2.ir.Name := by
    intro q hq
    obtain ⟨d, hd⟩ := (mem_mapKeys_iff declared q.1).1 (hkeys q hq)
    have hmem := mem_of_mapGet declared q.1 d hd
    obtain ⟨r, hr1, hr2, _⟩ := hconv (q.1, d) hmem
    rw [mapGet_of_mem s.inputs hinvs.nodupKeys q.1 q.2 hq] at hr1
    cases hr1
    exact ⟨d, hmem, hr2.symm⟩
  have hstepA : rangeInputs s.inputs { s with specified := fresh, log := s.log ++ freshLog } =
      { s with specified := fresh, log := s.log ++ freshLog } :=
    rangeInputs_noop _ _ (fun q hq => hfreshKeys q.1 (hkeys q hq))
  have hloop := rangeSpecified_unchanged pConfig2 fresh
    { s with specified := fresh, log := s.log ++ freshLog } none (by
      intro p hp
      obtain ⟨d, hd1, hd2, hd3⟩ := hdecl p hp
      refine ⟨?_, ?_⟩
      · rw [findDuplicate_eq_none_iff]
        intro q hq hn
        obtain ⟨d2, hd21, hd22⟩ := hrunning q hq
        have := names_injective declared hnames (p.1, d) (q.1, d2) hd1 hd21
          (by rw [hd2, hd22]; exact hn)
        rw [hfs.keyed p hp, hinvs.keyed q hq]
        exact (Prod.mk.inj this).1
      · obtain ⟨r, hr1, hr2, hr3⟩ := hconv (p.1, d) hd1
        refine ⟨r, hr1, ?_, by rw [hr2]; exact hd2⟩
        rw [← hd3]
        exact hr3)
  have hsecond : loadInputs pConfig2 ⟨fresh, freshLog, none⟩ s =
      ({ s with specified := fresh, log := s.log ++ freshLog }, none) := by
    rw [loadInputs_eq, hstepA, hloop]
  rw [hsecond]
  exact ⟨rfl, rfl, rfl⟩

/-- Witness of C2, amended: the second pass over the tree that holds the one
fragment `a.toml`, after the first pass from the initial state. -/
theorem second_pass_is_noop_witness :
    (loadInputs acceptAll ⟨[("a.toml", sampleEntry "A" 2 "a.toml" sampleConfig)], [], none⟩
        runningA).1.calls = runningA.calls ∧
    (loadInputs acceptAll ⟨[("a.toml", sampleEntry "A" 2 "a.toml" sampleConfig)], [], none⟩
        runningA).1.inputs = runningA.inputs ∧
    (loadInputs acceptAll ⟨[("a.toml", sampleEntry "A" 2 "a.toml" sampleConfig)], [], none⟩
        runningA).2 = none :=
  second_pass_is_noop acceptAll acceptAll (Init "http.d")
    [("a.toml", sampleEntry "A" 1 "a.toml" sampleConfig)]
    [("a.toml", sampleEntry "A" 2 "a.toml" sampleConfig)] [] []
    (Reachable.init "http.d") ⟨by decide, by decide⟩ (by decide) (fun _ _ => rfl)
    ⟨by decide, by decide⟩
    (by
      intro k
      by_cases h : "a.toml" = k <;> simp [mapGet, h, sampleEntry])
    (by decide)

/-- C2 as stated fails: `runningA` is reachable and runs `A` from `a.toml`;
the tree `renamedTree` has pairwise distinct logical names and the manager
accepts every start, yet the first pass over it ends with the duplicate
error, and the second pass over a fresh parse of the same tree makes two
`AddInputRunner` calls. -/
theorem second_pass_counterexample :
    Reachable runningA ∧ Scanned (renamedTree 2) ∧ (mapNames (renamedTree 2)).Nodup ∧
    AcceptsAll acceptAll ∧
    (loadInputs acceptAll ⟨renamedTree 2, [], none⟩ runningA).2 =
      some (.duplicateName "A" "b.toml") ∧
    (loadInputs acceptAll ⟨renamedTree 4, [], none⟩
        (loadInputs acceptAll ⟨renamedTree 2, [], none⟩ runningA).1).1.calls =
      (loadInputs acceptAll ⟨renamedTree 2, [], none⟩ runningA).1.calls ++
        [.AddInputRunner ⟨"A", 4⟩, .AddInputRunner ⟨"B", 5⟩] := by
  refine ⟨?_, ⟨by decide, by decide⟩, by decide, fun _ _ => rfl, by decide, by decide⟩
  exact Reachable.pass acceptAll _ (Init "http.d") (Reachable.init "http.d")
    ⟨by decide, by decide⟩


/-! ## The calls of a pass -/

theorem startInput_calls (pConfig : PipelineConfig) (name : String) (newEntry : HttpEntry)
    (lsdi : HttpDirectoryInput) :
    (startInput pConfig name newEntry lsdi).state.calls =
      lsdi.calls ++ [.AddInputRunner newEntry.ir] := by
  rcases startInput_cases pConfig name newEntry lsdi with ⟨msg, _, hs⟩ | ⟨_, hs⟩ <;>
    rw [hs] <;> rfl

theorem loopBody_calls (pConfig : PipelineConfig) (dups : Bool) (name : String)
    (newEntry : HttpEntry) (lsdi : HttpDirectoryInput) (err : Option GoError) :
    ∃ ext, (loopBody pConfig dups name newEntry lsdi err).state.calls = lsdi.calls ++ ext ∧
      ∀ c ∈ ext, c = .AddInputRunner newEntry.ir ∨
        ∃ q ∈ lsdi.inputs, c = .RemoveInputRunner q.2.ir := by
  rcases loopBody_cases pConfig dups name newEntry lsdi err with
    ⟨d, hd, hb⟩ | ⟨_, r, _, _, _, _, hb⟩ | ⟨_, r, hg, _, hb⟩ | ⟨_, _, hb⟩
  · refine ⟨[.RemoveInputRunner d.2.ir], by rw [hb]; rfl, ?_⟩
    intro c hc
    rw [List.mem_singleton] at hc
    exact Or.inr ⟨d, (findDuplicate_some newEntry lsdi.inputs d hd).1, hc⟩
  · exact ⟨[], by rw [hb]; simp [Flow.state], by simp⟩
  · refine ⟨[.RemoveInputRunner r.ir, .AddInputRunner newEntry.ir], ?_, ?_⟩
    · rw [hb, startInput_calls]
      simp [stopRunner]
    · intro c hc
      simp only [List.mem_cons, List.mem_singleton, List.mem_nil_iff, or_false] at hc
      rcases hc with h | h
      · exact Or.inr ⟨(name, r), mem_of_mapGet lsdi.inputs name r hg, h⟩
      · exact Or.inl h
  · refine ⟨[.AddInputRunner newEntry.ir], by rw [hb, startInput_calls], ?_⟩
    intro c hc
    rw [List.mem_singleton] at hc
    exact Or.inl hc

theorem rangeSpecified_calls (pConfig : PipelineConfig) (dups : Bool) (rest : EntryMap)
    (lsdi : HttpDirectoryInput) (err : Option GoError) :
    (∃ ext, (rangeSpecified pConfig dups rest lsdi err).1.calls = lsdi.calls ++ ext ∧
      ∀ c ∈ ext, c.runner.Name ∈ mapNames rest ∨ c.runner.Name ∈ mapNames lsdi.inputs) ∧
    ∀ q ∈ (rangeSpecified pConfig dups rest lsdi err).1.inputs,
      q.2.ir.Name ∈ mapNames rest ∨ q.2.ir.Name ∈ mapNames lsdi.inputs := by
  induction rest generalizing lsdi err with
  | nil =>
    refine ⟨⟨[], by simp [rangeSpecified], by simp⟩, ?_⟩
    intro q hq
    exact Or.inr (List.mem_map_of_mem (fun p => p.2.ir.Name) hq)
  | cons p rest ih =>
    obtain ⟨name, newEntry⟩ := p
    obtain ⟨ext1, hext1, hc1⟩ := loopBody_calls pConfig dups name newEntry lsdi err
    have hm1 := loopBody_inputs_mem pConfig dups name newEntry lsdi err
    have hcall : ∀ c ∈ ext1, c.runner.Name ∈ mapNames ((name, newEntry) :: rest) ∨
        c.runner.Name ∈ mapNames lsdi.inputs := by
      intro c hc
      rcases hc1 c hc with h | ⟨q, hq, h⟩
      · subst h
        exact Or.inl (by simp [mapNames, Call.runner])
      · subst h
        exact Or.inr (List.mem_map_of_mem (fun p => p.2.ir.Name) hq)
    have hname : ∀ q ∈ (loopBody pConfig dups name newEntry lsdi err).state.inputs,
        q.2.ir.Name ∈ mapNames ((name, newEntry) :: rest) ∨
          q.2.ir.Name ∈ mapNames lsdi.inputs := by
      intro q hq
      rcases hm1 q hq with h | h
      · exact Or.inr (List.mem_map_of_mem (fun p => p.2.ir.Name) h)
      · subst h
        exact Or.inl (by simp [mapNames])
    rw [rangeSpecified_cons]
    cases hb : loopBody pConfig dups name newEntry lsdi err with
    | ret s e =>
      rw [hb] at hext1 hname
      exact ⟨⟨ext1, hext1, hcall⟩, hname⟩
    | next s e =>
      rw [hb] at hext1 hname
      simp only [Flow.state] at hext1 hname
      obtain ⟨⟨ext2, hext2, hc2⟩, hq2⟩ := ih s e
      have hlift : ∀ n : String, n ∈ mapNames rest ∨ n ∈ mapNames s.inputs →
          n ∈ mapNames ((name, newEntry) :: rest) ∨ n ∈ mapNames lsdi.inputs := by
        intro n hn
        rcases hn with h | h
        · exact Or.inl (by simp only [mapNames, List.map_cons, List.mem_cons]; exact Or.inr h)
        · obtain ⟨q, hq, hqn⟩ := List.mem_map.1 h
          rw [← hqn]
          exact hname q hq
      refine ⟨⟨ext1 ++ ext2, by rw [hext2, hext1, List.append_assoc], ?_⟩, ?_⟩
      · intro c hc
        rcases List.mem_append.1 hc with h | h
        · exact hcall c h
        · exact hlift _ (hc2 c h)
      · intro q hq
        exact hlift _ (hq2 q hq)

theorem rangeInputs_calls (snap : EntryMap) (lsdi : HttpDirectoryInput) :
    (rangeInputs snap lsdi).calls =
      lsdi.calls ++ (snap.filter (fun p => (mapGet lsdi.specified p.1).isNone)).map
        (fun p => Call.RemoveInputRunner p.2.ir) := by
  induction snap generalizing lsdi with
  | nil => simp [rangeInputs]
  | cons p snap ih =>
    obtain ⟨name, entry⟩ := p
    unfold rangeInputs
    cases hg : mapGet lsdi.specified name with
    | some v =>
      simp only
      rw [ih lsdi]
      simp [List.filter_cons, hg]
    | none =>
      simp only
      rw [ih (stopRunner name entry lsdi)]
      simp [List.filter_cons, hg, stopRunner]


/-! ## A changed declaration restarts its job -/

theorem rangeReach_calls (pConfig : PipelineConfig) (dups : Bool) (rest : EntryMap)
    (lsdi s : HttpDirectoryInput) (err e : Option GoError)
    (h : rangeReach pConfig dups rest lsdi err = some (s, e)) :
    ∃ ext, s.calls = lsdi.calls ++ ext := by
  obtain ⟨ext, h1, _⟩ := (rangeSpecified_calls pConfig dups rest lsdi err).1
  rw [rangeReach_eq pConfig dups rest lsdi err (s, e) h] at h1
  exact ⟨ext, h1⟩

theorem rangeReach_restart (pConfig : PipelineConfig) (dups : Bool) (rest : EntryMap)
    (lsdi s : HttpDirectoryInput) (err e : Option GoError) (name : String)
    (old new : HttpEntry)
    (h : rangeReach pConfig dups rest lsdi err = some (s, e)) (hnd : (mapKeys rest).Nodup)
    (hmem : (name, new) ∈ rest) (hg : mapGet lsdi.inputs name = some old)
    (hne : Equals old.config new.config = false) :
    ∃ front after,
      s.calls = front ++ [.RemoveInputRunner old.ir, .AddInputRunner new.ir] ++ after ∧
      (∃ ext, front = lsdi.calls ++ ext) ∧
      (pConfig.AddInputRunner (front ++ [.RemoveInputRunner old.ir]) new.ir = none →
        mapGet s.inputs name = some new) ∧
      (pConfig.AddInputRunner (front ++ [.RemoveInputRunner old.ir]) new.ir ≠ none →
        mapGet s.inputs name = none) := by
  induction rest generalizing lsdi err with
  | nil => simp at hmem
  | cons p rest ih =>
    obtain ⟨k, e1⟩ := p
    unfold rangeReach at h
    simp only [mapKeys, List.map_cons, List.nodup_cons] at hnd
    cases hb : loopBody pConfig dups k e1 lsdi err with
    | ret s1 e2 =>
      rw [hb] at h
      cases h
    | next s1 e2 =>
      rw [hb] at h
      rcases List.mem_cons.1 hmem with heq | hin
      · cases heq
        have hframe := rangeReach_frame pConfig dups rest s1 s e2 e h name hnd.1
        obtain ⟨after, hafter⟩ := rangeReach_calls pConfig dups rest s1 s e2 e h
        rcases loopBody_cases pConfig dups name new lsdi err with
          ⟨d, _, hbx⟩ | ⟨_, r, hg2, he, _, _, _⟩ | ⟨_, r, hg2, _, hbx⟩ | ⟨_, hg2, _⟩
        · rw [hb] at hbx
          cases hbx
        · rw [hg] at hg2
          cases hg2
          rw [hne] at he
          cases he
        · rw [hg] at hg2
          cases hg2
          rw [hb] at hbx
          rcases startInput_cases pConfig name new (stopRunner name old lsdi) with
            ⟨msg, hm, hs⟩ | ⟨hm, hs⟩
          · rw [hs] at hbx
            cases hbx
            refine ⟨lsdi.calls, after, ?_, ⟨[], by simp⟩, ?_, ?_⟩
            · rw [hafter]
              simp [refusedRunner, stopRunner]
            · intro hacc
              have hm2 : pConfig.AddInputRunner (lsdi.calls ++ [.RemoveInputRunner old.ir])
                  new.ir = some msg := hm
              rw [hm2] at hacc
              cases hacc
            · intro _
              rw [hframe]
              simp [refusedRunner, stopRunner, mapGet_mapDelete]
          · rw [hs] at hbx
            cases hbx
            refine ⟨lsdi.calls, after, ?_, ⟨[], by simp⟩, ?_, ?_⟩
            · rw [hafter]
              simp [addedRunner, stopRunner]
            · intro _
              rw [hframe]
              simp [addedRunner, mapGet_mapSet]
            · intro hacc
              exact absurd hm hacc
        · rw [hg] at hg2
          cases hg2
      · have hkn : name ≠ k := by
          intro hkk
          subst hkk
          exact hnd.1 (List.mem_map_of_mem Prod.fst hin)
        have hg1 : mapGet s1.inputs name = some old := by
          rw [loopBody_next_frame pConfig dups k e1 lsdi s1 err e2 hb name hkn]
          exact hg
        obtain ⟨front, after, h1, ⟨ext, h2⟩, h3, h4⟩ := ih s1 e2 h hnd.2 hin hg1
        obtain ⟨ext1, hext1, _⟩ := loopBody_calls pConfig dups k e1 lsdi err
        rw [hb] at hext1
        simp only [Flow.state] at hext1
        exact ⟨front, after, h1, ⟨ext1 ++ ext, by rw [h2, hext1, List.append_assoc]⟩, h3, h4⟩

/-- C5 as stated fails: `a.toml` runs `A`; its two header lines are
exchanged and the file is parsed again, under the same path and the same
name.  The lines as written differ in their order, the pass ends without an
error, and it calls neither `RemoveInputRunner` nor `AddInputRunner`: the old
runner is kept under the path. -/
theorem change_counterexample :
    [("Accept", "text/plain"), ("X-Probe", "1")] ≠
        [("X-Probe", "1"), ("Accept", "text/plain")] ∧
      mapGet runningA.inputs "a.toml" = some (sampleEntry "A" 1 "a.toml" sampleConfig) ∧
      (loadInputs acceptAll ⟨reorderedTree, [], none⟩ runningA).2 = none ∧
      (loadInputs acceptAll ⟨reorderedTree, [], none⟩ runningA).1.calls = runningA.calls ∧
      mapGet (loadInputs acceptAll ⟨reorderedTree, [], none⟩ runningA).1.inputs "a.toml" =
        some (sampleEntry "A" 1 "a.toml" sampleConfig) := by
  decide

/-- C5, amended: when the configuration of a running job under `name` and that
of the declared entry under the same path differ in a scalar field, in the
ordered list `Urls` (an element, the length or the order of the elements), or
in the map `Headers` while no header of the running job has the empty value,
whatever their logical names, and the pass does not end with the duplicate
error, `loadInputs` calls `RemoveInputRunner` on the old runner and directly
after it `AddInputRunner` on the new one; if the manager accepts that start
the new entry is stored under the path, if it refuses the path is left without
an entry; the old entry is not kept in either case. -/
theorem change_triggers_restart (pConfig : PipelineConfig) (lsdi : HttpDirectoryInput)
    (declared : EntryMap) (walkLog : List LogLine) (name : String) (old new : HttpEntry)
    (hs : Scanned declared) (hg : mapGet lsdi.inputs name = some old)
    (hmem : (name, new) ∈ declared)
    (hne : old.config.Url ≠ new.config.Url ∨ old.config.Method ≠ new.config.Method ∨
      old.config.Body ≠ new.config.Body ∨ old.config.Username ≠ new.config.Username ∨
      old.config.Password ≠ new.config.Password ∨
      old.config.TickerInterval ≠ new.config.TickerInterval ∨
      old.config.SuccessSeverity ≠ new.config.SuccessSeverity ∨
      old.config.ErrorSeverity ≠ new.config.ErrorSeverity ∨
      old.config.Urls ≠ new.config.Urls ∨
      (old.config.Headers ≠ new.config.Headers ∧
        ∀ k, old.config.Headers.lookup k ≠ some ""))
    (hno : ¬ IsDuplicate (loadInputs pConfig ⟨declared, walkLog, none⟩ lsdi).2) :
    ∃ front after,
      (loadInputs pConfig ⟨declared, walkLog, none⟩ lsdi).1.calls =
        front ++ [.RemoveInputRunner old.ir, .AddInputRunner new.ir] ++ after ∧
      (∃ ext, front = lsdi.calls ++ ext) ∧
      (pConfig.AddInputRunner (front ++ [.RemoveInputRunner old.ir]) new.ir = none →
        mapGet (loadInputs pConfig ⟨declared, walkLog, none⟩ lsdi).1.inputs name = some new) ∧
      (pConfig.AddInputRunner (front ++ [.RemoveInputRunner old.ir]) new.ir ≠ none →
        mapGet (loadInputs pConfig ⟨declared, walkLog, none⟩ lsdi).1.inputs name = none) ∧
      mapGet (loadInputs pConfig ⟨declared, walkLog, none⟩ lsdi).1.inputs name ≠ some old := by
  have hfalse : Equals old.config new.config = false :=
    Equals_eq_false_of_differ old.config new.config hne
  rw [loadInputs_eq] at hno ⊢
  have hreach := rangeReach_of_not_duplicate pConfig false declared _ none
    not_isDuplicate_none hno
  generalize hres : rangeSpecified pConfig false declared
    (rangeInputs lsdi.inputs { lsdi with specified := declared, log := lsdi.log ++ walkLog })
    none = res at hreach ⊢
  obtain ⟨s, e⟩ := res
  have hg1 : mapGet (rangeInputs lsdi.inputs
      { lsdi with specified := declared, log := lsdi.log ++ walkLog }).inputs name = some old := by
    rw [stepA_get, mapGet_of_mem declared hs.nodupKeys name new hmem]
    simpa using hg
  obtain ⟨front, after, h1, ⟨ext, h2⟩, h3, h4⟩ := rangeReach_restart pConfig false declared _ s
    none e name old new hreach hs.nodupKeys hmem hg1 hfalse
  rw [rangeInputs_calls] at h2
  refine ⟨front, after, h1, ⟨_, h2.trans (List.append_assoc _ _ _)⟩, h3, h4, ?_⟩
  · intro hold
    by_cases hacc : pConfig.AddInputRunner (front ++ [.RemoveInputRunner old.ir]) new.ir = none
    · rw [h3 hacc] at hold
      simp only [Option.some.injEq] at hold
      rw [hold, Equals_refl] at hfalse
      cases hfalse
    · rw [h4 hacc] at hold
      cases hold

/-- Witness of C5, amended: `a.toml` runs `A` and is declared again with another poll
interval. -/
theorem change_triggers_restart_witness :
    ∃ front after,
      (loadInputs acceptAll ⟨editedTree, [], none⟩ runningA).1.calls =
        front ++ [.RemoveInputRunner (sampleEntry "A" 1 "a.toml" sampleConfig).ir,
          .AddInputRunner (sampleEntry "A" 2 "a.toml"
            { sampleConfig with TickerInterval := 10 }).ir] ++ after ∧
      (∃ ext, front = runningA.calls ++ ext) ∧
      (acceptAll.AddInputRunner
          (front ++ [.RemoveInputRunner (sampleEntry "A" 1 "a.toml" sampleConfig).ir])
          (sampleEntry "A" 2 "a.toml" { sampleConfig with TickerInterval := 10 }).ir = none →
        mapGet (loadInputs acceptAll ⟨editedTree, [], none⟩ runningA).1.inputs "a.toml" =
          some (sampleEntry "A" 2 "a.toml" { sampleConfig with TickerInterval := 10 })) ∧
      (acceptAll.AddInputRunner
          (front ++ [.RemoveInputRunner (sampleEntry "A" 1 "a.toml" sampleConfig).ir])
          (sampleEntry "A" 2 "a.toml" { sampleConfig with TickerInterval := 10 }).ir ≠ none →
        mapGet (loadInputs acceptAll ⟨editedTree, [], none⟩ runningA).1.inputs "a.toml" = none) ∧
      mapGet (loadInputs acceptAll ⟨editedTree, [], none⟩ runningA).1.inputs "a.toml" ≠
        some (sampleEntry "A" 1 "a.toml" sampleConfig) :=
  change_triggers_restart acceptAll runningA editedTree [] "a.toml"
    (sampleEntry "A" 1 "a.toml" sampleConfig)
    (sampleEntry "A" 2 "a.toml" { sampleConfig with TickerInterval := 10 })
    ⟨by decide, by decide⟩ (by decide) (by decide)
    (Or.inr (Or.inr (Or.inr (Or.inr (Or.inr (Or.inl (by decide)))))))
    (by
      rw [show (loadInputs acceptAll ⟨editedTree, [], none⟩ runningA).2 = none from by decide]
      exact not_isDuplicate_none)

/-! ## Addition of a fragment -/

theorem rangeSpecified_kept (pConfig : PipelineConfig) (rest : EntryMap)
    (lsdi : HttpDirectoryInput) (err : Option GoError) (h : ∀ p ∈ rest, Kept p lsdi.inputs) :
    rangeSpecified pConfig false rest lsdi err = (lsdi, err) :=
  rangeSpecified_unchanged pConfig rest lsdi err h

theorem rangeSpecified_addition (pConfig : PipelineConfig) (rest : EntryMap)
    (lsdi : HttpDirectoryInput) (err : Option GoError) (path : String) (added : HttpEntry)
    (hnd : (mapKeys rest).Nodup) (hmem : (path, added) ∈ rest)
    (hk : ∀ p ∈ rest, p ≠ (path, added) →
      Kept p lsdi.inputs ∧ Kept p (lsdi.inputs ++ [(path, added)]))
    (hd : findDuplicate added lsdi.inputs = none) (hg : mapGet lsdi.inputs path = none) :
    (rangeSpecified pConfig false rest lsdi err).1.calls =
      lsdi.calls ++ [.AddInputRunner added.ir] ∧
    (pConfig.AddInputRunner lsdi.calls added.ir = none →
      (rangeSpecified pConfig false rest lsdi err).1.inputs = lsdi.inputs ++ [(path, added)]) := by
  induction rest generalizing err with
  | nil => simp at hmem
  | cons p rest ih =>
    obtain ⟨k, e1⟩ := p
    simp only [mapKeys, List.map_cons, List.nodup_cons] at hnd
    rw [rangeSpecified_cons]
    by_cases hp : (k, e1) = (path, added)
    · cases hp
      have hrest : ∀ p ∈ rest, p ≠ (path, added) := by
        intro p hp1 hp2
        subst hp2
        exact hnd.1 (List.mem_map_of_mem Prod.fst hp1)
      rw [loopBody_new pConfig false path added lsdi err hd hg]
      rcases startInput_cases pConfig path added lsdi with ⟨msg, hm, hs⟩ | ⟨hm, hs⟩
      · rw [hs]
        simp only
        rw [rangeSpecified_kept pConfig rest (refusedRunner path added msg lsdi) _
          (fun p hp1 => (hk p (List.mem_cons_of_mem _ hp1) (hrest p hp1)).1)]
        refine ⟨rfl, ?_⟩
        intro hacc
        rw [hm] at hacc
        cases hacc
      · have hset : (addedRunner path added lsdi).inputs = lsdi.inputs ++ [(path, added)] :=
          mapSet_of_not_mem path added lsdi.inputs ((mapGet_eq_none_iff _ _).1 hg)
        rw [hs]
        simp only
        rw [rangeSpecified_kept pConfig rest (addedRunner path added lsdi) _
          (fun p hp1 => by
            rw [hset]
            exact (hk p (List.mem_cons_of_mem _ hp1) (hrest p hp1)).2)]
        exact ⟨rfl, fun _ => hset⟩
    · obtain ⟨hd1, r, hg1, he1, hn1⟩ := (hk (k, e1) (List.mem_cons_self _ _) hp).1
      rw [loopBody_keep pConfig k e1 lsdi err r hd1 hg1 he1 hn1]
      simp only
      rcases List.mem_cons.1 hmem with h1 | h1
      · exact absurd h1.symm hp
      · exact ih err hnd.2 h1 (fun p hp1 => hk p (List.mem_cons_of_mem _ hp1))

/-- C6: when the running set is converged to the declared set `declared`
(every declared entry runs under its path with its name and an `Equals`
configuration, nothing else runs, the declared names are pairwise distinct),
a pass over `declared` extended by one fragment whose path and logical name
are new, in any order, makes exactly one call to the manager, the
`AddInputRunner` of the new runner; when that start succeeds `inputs` is the
old map with the new entry added under its path. -/
theorem loadInputs_addition (pConfig : PipelineConfig) (lsdi : HttpDirectoryInput)
    (declared extended : EntryMap) (walkLog : List LogLine) (path : String) (added : HttpEntry)
    (hkeys : (mapKeys lsdi.inputs).Nodup) (hs : Scanned declared)
    (hnames : (mapNames declared).Nodup)
    (honly : ∀ q ∈ lsdi.inputs, q.1 ∈ mapKeys declared)
    (hrun : ∀ p ∈ declared, ∃ r, mapGet lsdi.inputs p.1 = some r ∧ r.ir.Name = p.2.ir.Name ∧
      Equals r.config p.2.config = true ∧ r.fileName = p.1)
    (hpath : path ∉ mapKeys declared) (hname : added.ir.Name ∉ mapNames declared)
    (hext : extended.Perm ((path, added) :: declared)) :
    (loadInputs pConfig ⟨extended, walkLog, none⟩ lsdi).1.calls =
      lsdi.calls ++ [.AddInputRunner added.ir] ∧
    (pConfig.AddInputRunner lsdi.calls added.ir = none →
      (loadInputs pConfig ⟨extended, walkLog, none⟩ lsdi).1.inputs =
        lsdi.inputs ++ [(path, added)]) := by
  have hrunning : ∀ q ∈ lsdi.inputs, ∃ d, (q.1, d) ∈ declared ∧ d.ir.Name = q.2.ir.Name ∧
      q.2.fileName = q.1 := by
    intro q hq
    obtain ⟨d, hd⟩ := (mem_mapKeys_iff declared q.1).1 (honly q hq)
    have hmem := mem_of_mapGet declared q.1 d hd
    obtain ⟨r, hr1, hr2, _, hr4⟩ := hrun (q.1, d) hmem
    rw [mapGet_of_mem lsdi.inputs hkeys q.1 q.2 hq] at hr1
    cases hr1
    exact ⟨d, hmem, hr2.symm, hr4⟩
  have hextKeys : ∀ k, k ∈ mapKeys declared → k ∈ mapKeys extended := by
    intro k hk
    have : k ∈ mapKeys ((path, added) :: declared) := by
      simp only [mapKeys, List.map_cons, List.mem_cons]
      exact Or.inr hk
    exact ((hext.map Prod.fst).mem_iff).2 this
  have hstepA : rangeInputs lsdi.inputs
      { lsdi with specified := extended, log := lsdi.log ++ walkLog } =
      { lsdi with specified := extended, log := lsdi.log ++ walkLog } :=
    rangeInputs_noop _ _ (fun q hq => hextKeys q.1 (honly q hq))
  have hnd : (mapKeys extended).Nodup := by
    rw [mapKeys, (hext.map Prod.fst).nodup_iff]
    simp only [List.map_cons, List.nodup_cons]
    exact ⟨hpath, hs.nodupKeys⟩
  have hd : findDuplicate added lsdi.inputs = none := by
    rw [findDuplicate_eq_none_iff]
    intro q hq hn
    obtain ⟨d, hd1, hd2, _⟩ := hrunning q hq
    exact absurd (by rw [hn, ← hd2]; exact List.mem_map_of_mem (fun p => p.2.ir.Name) hd1) hname
  have hg : mapGet lsdi.inputs path = none := by
    rw [mapGet_eq_none_iff]
    intro hp
    obtain ⟨q, hq, hqk⟩ := List.mem_map.1 hp
    exact hpath (by rw [← hqk]; exact honly q hq)
  have hk : ∀ p ∈ extended, p ≠ (path, added) →
      Kept p lsdi.inputs ∧ Kept p (lsdi.inputs ++ [(path, added)]) := by
    intro p hp hpne
    have hpd : p ∈ declared := by
      rcases List.mem_cons.1 (hext.mem_iff.1 hp) with h | h
      · exact absurd h hpne
      · exact h
    obtain ⟨r, hr1, hr2, hr3, _⟩ := hrun p hpd
    have hfind : findDuplicate p.2 lsdi.inputs = none := by
      rw [findDuplicate_eq_none_iff]
      intro q hq hn
      obtain ⟨d, hd1, hd2, hd3⟩ := hrunning q hq
      have := names_injective declared hnames p (q.1, d) hpd hd1 (by rw [hn, hd2])
      rw [hs.keyed p hpd, hd3, this]
    refine ⟨⟨hfind, r, hr1, hr3, hr2⟩, ?_, r, ?_, hr3, hr2⟩
    · rw [findDuplicate_eq_none_iff] at hfind ⊢
      intro q hq hn
      rcases List.mem_append.1 hq with h | h
      · exact hfind q h hn
      · rw [List.mem_singleton] at h
        subst h
        exact absurd (by rw [← hn]; exact List.mem_map_of_mem (fun p => p.2.ir.Name) hpd) hname
    · rw [mapGet_append_single, hr1]
  have hmem : (path, added) ∈ extended := hext.mem_iff.2 (List.mem_cons_self _ _)
  rw [loadInputs_eq, hstepA]
  exact rangeSpecified_addition pConfig extended
    { lsdi with specified := extended, log := lsdi.log ++ walkLog } none path added hnd hmem hk
    hd hg


/-- Witness of C6: `a.toml` runs `A`; the fragment `c.toml` declaring `C` is
added to the tree. -/
theorem loadInputs_addition_witness :
    (loadInputs acceptAll ⟨treeAC, [], none⟩ runningA).1.calls =
      runningA.calls ++ [.AddInputRunner (sampleEntry "C" 3 "c.toml" sampleConfig).ir] ∧
    (acceptAll.AddInputRunner runningA.calls (sampleEntry "C" 3 "c.toml" sampleConfig).ir = none →
      (loadInputs acceptAll ⟨treeAC, [], none⟩ runningA).1.inputs =
        runningA.inputs ++ [("c.toml", sampleEntry "C" 3 "c.toml" sampleConfig)]) :=
  loadInputs_addition acceptAll runningA treeA treeAC [] "c.toml" (sampleEntry "C" 3 "c.toml" sampleConfig)
    (by decide) ⟨by decide, by decide⟩ (by decide) (by decide)
    (by
      intro p hp
      have hp2 : p = ("a.toml", sampleEntry "A" 2 "a.toml" sampleConfig) := by
        simpa [treeA] using hp
      subst hp2
      exact ⟨sampleEntry "A" 1 "a.toml" sampleConfig, by decide, by decide, by decide, by decide⟩)
    (by decide) (by decide) (List.perm_append_singleton _ _)

/-! ## Removal of a fragment -/

theorem filter_calls_eq_nil (l : List Call) (n : String)
    (h : ∀ c ∈ l, c.runner.Name ≠ n) :
    l.filter (fun c => decide (c.runner.Name = n)) = [] := by
  rw [List.filter_eq_nil_iff]
  intro c hc
  simpa using h c hc

theorem filter_removes_of_mem (l : EntryMap) (hnd : (mapNames l).Nodup) (x : String × HttpEntry)
    (hx : x ∈ l) :
    (l.map (fun p => Call.RemoveInputRunner p.2.ir)).filter
      (fun c => decide (c.runner.Name = x.2.ir.Name)) = [.RemoveInputRunner x.2.ir] := by
  induction l with
  | nil => simp at hx
  | cons y l ih =>
    simp only [mapNames, List.map_cons, List.nodup_cons, List.mem_map, not_exists, not_and] at hnd
    rcases List.mem_cons.1 hx with h | h
    · subst h
      have hrest : (l.map (fun p => Call.RemoveInputRunner p.2.ir)).filter
          (fun c => decide (c.runner.Name = x.2.ir.Name)) = [] := by
        apply filter_calls_eq_nil
        intro c hc
        obtain ⟨q, hq, hqc⟩ := List.mem_map.1 hc
        subst hqc
        exact hnd.1 q hq
      rw [List.map_cons, List.filter_cons, hrest]
      simp [Call.runner]
    · have hne : ¬ y.2.ir.Name = x.2.ir.Name := fun hyx => hnd.1 x h hyx.symm
      rw [List.map_cons, List.filter_cons, ih hnd.2 h]
      simp [Call.runner, hne]

/-- C7: from a reachable running set in which `job` runs under the path
`file`, a pass over a declared set with no entry under `file` and no entry
with the logical name of `job` makes, among its calls about a runner of that
name, exactly one, the `RemoveInputRunner` of the runner of `job`, and leaves
`inputs` without a job of that name. -/
theorem loadInputs_removal (pConfig : PipelineConfig) (lsdi : HttpDirectoryInput) (declared : EntryMap)
    (walkLog : List LogLine) (file : String) (job : HttpEntry)
    (hr : Reachable lsdi) (hg : mapGet lsdi.inputs file = some job)
    (hfile : file ∉ mapKeys declared) (hname : job.ir.Name ∉ mapNames declared) :
    ∃ ext, (loadInputs pConfig ⟨declared, walkLog, none⟩ lsdi).1.calls = lsdi.calls ++ ext ∧
      ext.filter (fun c => decide (c.runner.Name = job.ir.Name)) =
        [.RemoveInputRunner job.ir] ∧
      job.ir.Name ∉ mapNames (loadInputs pConfig ⟨declared, walkLog, none⟩ lsdi).1.inputs := by
  have hinv := hr.inv
  have hmem : (file, job) ∈ lsdi.inputs := mem_of_mapGet lsdi.inputs file job hg
  have hgone : job.ir.Name ∉ mapNames (rangeInputs lsdi.inputs
      { lsdi with specified := declared, log := lsdi.log ++ walkLog }).inputs := by
    intro hin
    obtain ⟨q, hq, hqn⟩ := List.mem_map.1 hin
    obtain ⟨hq1, hq2⟩ := (stepA_mem declared walkLog lsdi q).1 hq
    have := names_injective lsdi.inputs hinv.nodupNames q (file, job) hq1 hmem hqn
    subst this
    exact hfile hq2
  obtain ⟨⟨ext2, hext2, hc2⟩, hq2⟩ := rangeSpecified_calls pConfig false declared
    (rangeInputs lsdi.inputs { lsdi with specified := declared, log := lsdi.log ++ walkLog }) none
  rw [loadInputs_eq]
  rw [rangeInputs_calls] at hext2
  refine ⟨_, hext2.trans (List.append_assoc _ _ _), ?_, ?_⟩
  · rw [List.filter_append, filter_calls_eq_nil ext2 job.ir.Name, List.append_nil]
    · have hsub : (lsdi.inputs.filter (fun p => (mapGet declared p.1).isNone)).Sublist
          lsdi.inputs := List.filter_sublist _
      have hin : (file, job) ∈ lsdi.inputs.filter (fun p => (mapGet declared p.1).isNone) := by
        rw [List.mem_filter]
        exact ⟨hmem, by simp [(mapGet_eq_none_iff declared file).2 hfile]⟩
      exact filter_removes_of_mem _
        (List.Nodup.sublist (List.Sublist.map _ hsub) hinv.nodupNames) (file, job) hin
    · intro c hc heq
      rcases hc2 c hc with h | h
      · exact hname (by rw [← heq]; exact h)
      · exact hgone (by rw [← heq]; exact h)
  · intro hin
    obtain ⟨q, hq, hqn⟩ := List.mem_map.1 hin
    rcases hq2 q hq with h | h
    · exact hname (by rw [← hqn]; exact h)
    · exact hgone (by rw [← hqn]; exact h)

/-- Witness of C7: `a.toml` runs `A`; the fragment is deleted and only
`c.toml` declaring `C` is left in the tree. -/
theorem loadInputs_removal_witness :
    ∃ ext, (loadInputs acceptAll ⟨treeC, [], none⟩ runningA).1.calls = runningA.calls ++ ext ∧
      ext.filter (fun c => decide (c.runner.Name = (sampleEntry "A" 1 "a.toml" sampleConfig).ir.Name)) =
        [.RemoveInputRunner (sampleEntry "A" 1 "a.toml" sampleConfig).ir] ∧
      (sampleEntry "A" 1 "a.toml" sampleConfig).ir.Name ∉
        mapNames (loadInputs acceptAll ⟨treeC, [], none⟩ runningA).1.inputs :=
  loadInputs_removal acceptAll runningA treeC [] "a.toml" (sampleEntry "A" 1 "a.toml" sampleConfig)
    (Reachable.pass acceptAll _ (Init "http.d") (Reachable.init "http.d")
      ⟨by decide, by decide⟩)
    (by decide) (by decide) (by decide)


/-! ## Step A: removal of the entries that are no longer specified -/

/-- C8, amended: Step A decides by file path.  The loop of lines 156-162
keeps exactly the running entries whose key, the file path, is a key of the
freshly scanned `specified`, and calls `RemoveInputRunner` exactly on the
others, in the order of the range; so a running job whose path is no longer
declared is stopped and deleted, even when its logical name is declared under
another path. -/
theorem stale_removal_by_path (lsdi : HttpDirectoryInput) :
    (rangeInputs lsdi.inputs lsdi).inputs =
      lsdi.inputs.filter (fun p => decide (p.1 ∈ mapKeys lsdi.specified)) ∧
    (rangeInputs lsdi.inputs lsdi).calls =
      lsdi.calls ++ (lsdi.inputs.filter (fun p => decide (p.1 ∉ mapKeys lsdi.specified))).map
        (fun p => Call.RemoveInputRunner p.2.ir) ∧
    (∀ q ∈ lsdi.inputs, q.1 ∉ mapKeys lsdi.specified →
      q ∉ (rangeInputs lsdi.inputs lsdi).inputs ∧
      Call.RemoveInputRunner q.2.ir ∈ (lsdi.inputs.filter
        (fun p => decide (p.1 ∉ mapKeys lsdi.specified))).map
          (fun p => Call.RemoveInputRunner p.2.ir)) := by
  have h1 : (rangeInputs lsdi.inputs lsdi).inputs =
      lsdi.inputs.filter (fun p => decide (p.1 ∈ mapKeys lsdi.specified)) := by
    rw [rangeInputs_self]
    apply List.filter_congr
    intro q _
    by_cases hq : q.1 ∈ mapKeys lsdi.specified
    · obtain ⟨v, hv⟩ := (mem_mapKeys_iff _ _).1 hq
      simp [hq, hv]
    · simp [hq, (mapGet_eq_none_iff _ _).2 hq]
  refine ⟨h1, ?_, ?_⟩
  · rw [rangeInputs_calls]
    congr 2
    apply List.filter_congr
    intro q _
    by_cases hq : q.1 ∈ mapKeys lsdi.specified
    · obtain ⟨v, hv⟩ := (mem_mapKeys_iff _ _).1 hq
      simp [hq, hv]
    · simp [hq, (mapGet_eq_none_iff _ _).2 hq]
  · intro q hq hk
    refine ⟨?_, ?_⟩
    · rw [h1, List.mem_filter]
      simp [hk]
    · apply List.mem_map_of_mem (fun p : String × HttpEntry => Call.RemoveInputRunner p.2.ir)
      rw [List.mem_filter]
      exact ⟨hq, by simpa using hk⟩

/-- C8 as stated fails: `a.toml` runs `A` and the file was moved to `b.toml`
with the same section; the scanned tree has an entry with the logical name
`A`, yet Step A stops the running job and deletes it. -/
theorem stale_removal_counterexample :
    mapNames runningA.inputs = ["A"] ∧ mapNames movedTree = ["A"] ∧
    (rangeInputs runningA.inputs { runningA with specified := movedTree }).inputs = [] ∧
    (rangeInputs runningA.inputs { runningA with specified := movedTree }).calls =
      runningA.calls ++ [.RemoveInputRunner ⟨"A", 1⟩] := by
  decide

/-! ## The duplicate name -/

/-- C9: when the loop of a pass from a reachable state reaches, after the
entries `front`, a declared entry `newEntry` stored under `name` while a
running job `q` has its logical name and another file name, the pass ends
there, whatever entries `rest` follow: its only further call is one
`RemoveInputRunner` on the runner of `q`, `q` is deleted from `inputs`, and
the returned error is the duplicate error, whose text names the logical name
of `q` and the path `name`. -/
theorem duplicate_policy (pConfig : PipelineConfig) (lsdi s : HttpDirectoryInput)
    (front rest : EntryMap) (walkLog : List LogLine) (name : String) (newEntry : HttpEntry)
    (e : Option GoError) (q : String × HttpEntry)
    (hr : Reachable lsdi) (hs : Scanned (front ++ (name, newEntry) :: rest))
    (hreach : rangeReach pConfig false front
      (rangeInputs lsdi.inputs
        { lsdi with specified := front ++ (name, newEntry) :: rest, log := lsdi.log ++ walkLog })
      none = some (s, e))
    (hq : q ∈ s.inputs) (hn : q.2.ir.Name = newEntry.ir.Name)
    (hf : q.2.fileName ≠ newEntry.fileName) :
    loadInputs pConfig ⟨front ++ (name, newEntry) :: rest, walkLog, none⟩ lsdi =
      (stopRunner q.1 q.2 s, some (.duplicateName q.2.ir.Name name)) ∧
    (stopRunner q.1 q.2 s).calls = s.calls ++ [.RemoveInputRunner q.2.ir] ∧
    q ∉ (stopRunner q.1 q.2 s).inputs ∧
    (GoError.duplicateName q.2.ir.Name name).Error =
      "Duplicate Name: Input with name [" ++ q.2.ir.Name ++
        "] already exists. Not loading input file: " ++ name := by
  have hinv1 := stepA_inv (front ++ (name, newEntry) :: rest) walkLog lsdi hr.inv
  have hinvs : RunningInv s.inputs := by
    have := rangeSpecified_inv pConfig false front _ none
      (fun p hp => hs.keyed p (List.mem_append_left _ hp)) hinv1
    rw [rangeReach_eq pConfig false front _ none (s, e) hreach] at this
    exact this
  have hfind : findDuplicate newEntry s.inputs = some q := by
    cases hd : findDuplicate newEntry s.inputs with
    | none =>
      rw [findDuplicate_eq_none_iff] at hd
      exact absurd (hd q hq hn.symm).symm hf
    | some d =>
      obtain ⟨hd1, hd2, _⟩ := findDuplicate_some newEntry s.inputs d hd
      rw [names_injective s.inputs hinvs.nodupNames d q hd1 hq (by rw [← hd2, hn])]
  refine ⟨?_, rfl, ?_, rfl⟩
  · rw [loadInputs_eq, rangeSpecified_append pConfig false front _ _ s none e hreach,
      rangeSpecified_cons, loopBody_of_duplicate pConfig false name newEntry s e q hfind]
  · intro hmem
    exact ((mem_mapDelete q.1 s.inputs q).1 hmem).2 rfl

/-- Witness of C9: the pass over `twinTree` from the initial state reaches
`b.toml` while the job started for `a.toml` runs under the same name. -/
theorem duplicate_policy_witness :
    loadInputs acceptAll ⟨twinTree, [], none⟩ (Init "http.d") =
      (stopRunner "a.toml" (sampleEntry "A" 1 "a.toml" sampleConfig) runningTwin,
        some (.duplicateName "A" "b.toml")) ∧
    (stopRunner "a.toml" (sampleEntry "A" 1 "a.toml" sampleConfig) runningTwin).calls =
      runningTwin.calls ++ [.RemoveInputRunner (sampleEntry "A" 1 "a.toml" sampleConfig).ir] ∧
    ("a.toml", sampleEntry "A" 1 "a.toml" sampleConfig) ∉
      (stopRunner "a.toml" (sampleEntry "A" 1 "a.toml" sampleConfig) runningTwin).inputs ∧
    (GoError.duplicateName "A" "b.toml").Error =
      "Duplicate Name: Input with name [" ++ "A" ++
        "] already exists. Not loading input file: " ++ "b.toml" :=
  duplicate_policy acceptAll (Init "http.d") runningTwin
    [("a.toml", sampleEntry "A" 1 "a.toml" sampleConfig)] [] [] "b.toml"
    (sampleEntry "A" 2 "b.toml" sampleConfig) none
    ("a.toml", sampleEntry "A" 1 "a.toml" sampleConfig)
    (Reachable.init "http.d") ⟨by decide, by decide⟩ (by decide) (by decide) (by decide)
    (by decide)

/-- C10, amended: a pass from the empty running set over two files that both
declare the same logical name, the manager accepting the first start, starts
the declaration it meets first, then at the second one stops that instance
and returns the duplicate error naming it and the second file; neither
declaration is running when the pass ends. -/
theorem duplicate_in_one_pass (pConfig : PipelineConfig) (logDir : String)
    (walkLog : List LogLine) (first second : String) (e1 e2 : HttpEntry)
    (hacc : pConfig.AddInputRunner [] e1.ir = none) (hne : first ≠ second)
    (h1 : e1.fileName = first) (h2 : e2.fileName = second) (hn : e1.ir.Name = e2.ir.Name) :
    (loadInputs pConfig ⟨[(first, e1), (second, e2)], walkLog, none⟩ (Init logDir)).1.inputs = [] ∧
    (loadInputs pConfig ⟨[(first, e1), (second, e2)], walkLog, none⟩ (Init logDir)).1.calls =
      [.AddInputRunner e1.ir, .RemoveInputRunner e1.ir] ∧
    (loadInputs pConfig ⟨[(first, e1), (second, e2)], walkLog, none⟩ (Init logDir)).2 =
      some (.duplicateName e1.ir.Name second) := by
  have hfile : ¬ e2.fileName = e1.fileName := by
    rw [h1, h2]
    exact fun h => hne h.symm
  simp [loadInputs, rangeInputs, rangeSpecified, loopBody, findDuplicate, mapGet, startInput,
    addedRunner, stopRunner, mapSet, mapDelete, Init, hacc, hn, hfile]

/-- Witness of C10, amended: the pass over `twinTree` from the initial
state. -/
theorem duplicate_in_one_pass_witness :
    (loadInputs acceptAll ⟨twinTree, [], none⟩ (Init "http.d")).1.inputs = [] ∧
    (loadInputs acceptAll ⟨twinTree, [], none⟩ (Init "http.d")).1.calls =
      [.AddInputRunner (sampleEntry "A" 1 "a.toml" sampleConfig).ir,
        .RemoveInputRunner (sampleEntry "A" 1 "a.toml" sampleConfig).ir] ∧
    (loadInputs acceptAll ⟨twinTree, [], none⟩ (Init "http.d")).2 =
      some (.duplicateName (sampleEntry "A" 1 "a.toml" sampleConfig).ir.Name "b.toml") :=
  duplicate_in_one_pass acceptAll "http.d" [] "a.toml" "b.toml"
    (sampleEntry "A" 1 "a.toml" sampleConfig) (sampleEntry "A" 2 "b.toml" sampleConfig)
    rfl (by decide) rfl rfl rfl

/-- C10 as stated fails: after the pass over `twinTree` from the empty running
set, with every start accepted, the declaration met later (`b.toml`) is not
running, no job named `A` is in `inputs`, and `AddInputRunner` was called only
for the runner of `a.toml`. -/
theorem later_wins_counterexample :
    AcceptsAll acceptAll ∧
    mapGet (loadInputs acceptAll ⟨twinTree, [], none⟩ (Init "http.d")).1.inputs "b.toml" = none ∧
    "A" ∉ mapNames (loadInputs acceptAll ⟨twinTree, [], none⟩ (Init "http.d")).1.inputs ∧
    (loadInputs acceptAll ⟨twinTree, [], none⟩ (Init "http.d")).1.calls =
      [.AddInputRunner ⟨"A", 1⟩, .RemoveInputRunner ⟨"A", 1⟩] ∧
    (loadInputs acceptAll ⟨twinTree, [], none⟩ (Init "http.d")).2 =
      some (.duplicateName "A" "b.toml") :=
  ⟨fun _ _ => rfl, by decide, by decide, by decide, by decide⟩


/-! ## What the scan produces -/

theorem scanned_nil : Scanned [] :=
  ⟨by simp [mapKeys], by simp⟩

theorem scanned_mapSet {m : EntryMap} (h : Scanned m) (k : String) (e : HttpEntry)
    (hk : e.fileName = k) : Scanned (mapSet k e m) := by
  refine ⟨?_, ?_⟩
  · unfold HttpDirectory.mapSet mapKeys
    rw [List.map_append, List.nodup_append]
    refine ⟨mapKeys_mapDelete_nodup k m h.nodupKeys, by simp, ?_⟩
    intro a ha hb
    simp only [List.map_cons, List.map_nil, List.mem_singleton] at hb
    subst hb
    exact not_mem_mapKeys_mapDelete a m ha
  · intro p hp
    unfold HttpDirectory.mapSet at hp
    rcases List.mem_append.1 hp with h1 | h1
    · exact h.keyed p ((mem_mapDelete k m p).1 h1).1
    · simp only [List.mem_singleton] at h1
      subst h1
      exact hk

theorem scanned_perm {m m1 : EntryMap} (h : Scanned m) (hp : m1.Perm m) : Scanned m1 :=
  ⟨((hp.map Prod.fst).nodup_iff).2 h.nodupKeys, fun p hm => h.keyed p (hp.subset hm)⟩

theorem logDirWalkFunc_scanned (loadHttpFile : String → GoError ⊕ MutableMaker) (path : String)
    (info : Option FileInfo) (err : Option GoError) (lsdi : HttpDirectoryInput)
    (h : Scanned lsdi.specified) :
    Scanned (logDirWalkFunc loadHttpFile path info err lsdi).1.specified ∧
    (logDirWalkFunc loadHttpFile path info err lsdi).2 = none := by
  unfold logDirWalkFunc
  cases err with
  | some e => exact ⟨h, rfl⟩
  | none =>
    cases info with
    | none => exact ⟨h, rfl⟩
    | some info =>
      simp only
      split_ifs
      · exact ⟨h, rfl⟩
      · cases loadHttpFile path with
        | inl e => exact ⟨h, rfl⟩
        | inr maker =>
          simp only
          cases maker.OrigPrepConfig with
          | inl e => exact ⟨h, rfl⟩
          | inr config =>
            simp only
            cases maker.MakeRunner with
            | inl e => exact ⟨h, rfl⟩
            | inr runner => exact ⟨scanned_mapSet h path _ rfl, rfl⟩

theorem Walk_logDirWalkFunc_scanned (loadHttpFile : String → GoError ⊕ MutableMaker)
    (visits : List Visit) (lsdi : HttpDirectoryInput) (h : Scanned lsdi.specified) :
    Scanned (Walk (fun v s => logDirWalkFunc loadHttpFile v.path v.info v.err s)
      visits lsdi).1.specified := by
  induction visits generalizing lsdi with
  | nil => exact h
  | cons v visits ih =>
    have hstep := logDirWalkFunc_scanned loadHttpFile v.path v.info v.err lsdi h
    unfold Walk
    generalize logDirWalkFunc loadHttpFile v.path v.info v.err lsdi = r at hstep
    obtain ⟨s, e⟩ := r
    simp only at hstep
    rw [hstep.2]
    exact ih s hstep.1

theorem scan_scanned (loadHttpFile : String → GoError ⊕ MutableMaker) (visits : List Visit)
    (lsdi : HttpDirectoryInput) : Scanned (scan loadHttpFile visits lsdi).specified :=
  Walk_logDirWalkFunc_scanned loadHttpFile visits _ scanned_nil


/-! ## The root directory does not exist -/

theorem scan_missing_root (loadHttpFile : String → GoError ⊕ MutableMaker) (root : String)
    (e : GoError) (lsdi : HttpDirectoryInput) :
    scan loadHttpFile [⟨root, none, some e⟩] lsdi =
      ⟨[], [.LogError ("walking \x27" ++ root ++ "\x27: " ++ e.Error)], none⟩ := by
  simp [scan, Walk, logDirWalkFunc]

theorem rangeInputs_nothing_specified (lsdi : HttpDirectoryInput) (h : lsdi.specified = []) :
    (rangeInputs lsdi.inputs lsdi).inputs = [] ∧
    (rangeInputs lsdi.inputs lsdi).calls =
      lsdi.calls ++ lsdi.inputs.map (fun p => Call.RemoveInputRunner p.2.ir) := by
  rw [rangeInputs_self, rangeInputs_calls, h]
  simp [mapGet]

/-- C11, amended: when the root directory does not exist, so that the walk
hands the error of the root to `logDirWalkFunc` with a nil file info and
returns what the callback returns, the callback logs the error and returns
nil, and `loadInputs` returns no error, makes no `AddInputRunner` call, calls
`RemoveInputRunner` once for every running job, in the order of the range, and
leaves `inputs` empty, for every prior running set. -/
theorem missing_root_stops_every_job (pConfig : PipelineConfig)
    (loadHttpFile : String → GoError ⊕ MutableMaker) (root : String) (e : GoError)
    (lsdi : HttpDirectoryInput) :
    (loadInputs pConfig (scan loadHttpFile [⟨root, none, some e⟩] lsdi) lsdi).2 = none ∧
    (loadInputs pConfig (scan loadHttpFile [⟨root, none, some e⟩] lsdi) lsdi).1.calls =
      lsdi.calls ++ lsdi.inputs.map (fun p => Call.RemoveInputRunner p.2.ir) ∧
    (loadInputs pConfig (scan loadHttpFile [⟨root, none, some e⟩] lsdi) lsdi).1.inputs = [] ∧
    (loadInputs pConfig (scan loadHttpFile [⟨root, none, some e⟩] lsdi) lsdi).1.log =
      lsdi.log ++ [.LogError ("walking \x27" ++ root ++ "\x27: " ++ e.Error)] ++
        lsdi.inputs.map (fun p => LogLine.LogMessage ("Removed: " ++ p.1)) := by
  rw [scan_missing_root, loadInputs_eq]
  have hA := rangeInputs_nothing_specified
    { lsdi with specified := [],
                log := lsdi.log ++ [.LogError ("walking \x27" ++ root ++ "\x27: " ++ e.Error)] } rfl
  have hlog : ∀ (snap : EntryMap) (l : HttpDirectoryInput), l.specified = [] →
      (rangeInputs snap l).log =
        l.log ++ snap.map (fun p => LogLine.LogMessage ("Removed: " ++ p.1)) := by
    intro snap
    induction snap with
    | nil => intro l _; simp [rangeInputs]
    | cons p snap ih =>
      intro l hl
      obtain ⟨name, entry⟩ := p
      unfold rangeInputs
      rw [hl]
      simp only [mapGet]
      rw [ih (stopRunner name entry l) hl]
      simp [stopRunner]
  have hnil : ∀ (l : HttpDirectoryInput) (e1 : Option GoError),
      rangeSpecified pConfig false [] l e1 = (l, e1) := fun _ _ => rfl
  rw [hnil]
  exact ⟨rfl, hA.2, hA.1, hlog _ _ rfl⟩

/-- C11 as stated fails: `a.toml` runs `A` and the root directory does not
exist; the pass returns no error, calls `RemoveInputRunner` on the runner of
`A` and leaves `inputs` empty. -/
theorem missing_root_counterexample :
    runningA.inputs = [("a.toml", sampleEntry "A" 1 "a.toml" sampleConfig)] ∧
    (loadInputs acceptAll (scan noFile [⟨"http.d", none, some missingRoot⟩] runningA)
      runningA).2 = none ∧
    (loadInputs acceptAll (scan noFile [⟨"http.d", none, some missingRoot⟩] runningA)
      runningA).1.inputs = [] ∧
    (loadInputs acceptAll (scan noFile [⟨"http.d", none, some missingRoot⟩] runningA)
      runningA).1.calls = runningA.calls ++ [.RemoveInputRunner ⟨"A", 1⟩] := by
  decide

/-! ## Stop and CleanupForRestart -/

/-- C13, amended: on an initialised plugin, whose stop channel is open, the
first stop signal (`Stop` or `CleanupForRestart`) completes and closes the
channel; a second stop signal on the same channel, by either method, does
not complete: it is the close of a closed channel. -/
theorem stop_once_only (lsdi : HttpDirectoryInput) (hopen : lsdi.stopChan = false) :
    Stop lsdi = some { lsdi with stopChan := true } ∧
    CleanupForRestart lsdi = some { lsdi with stopChan := true } ∧
    (Stop lsdi).bind Stop = none ∧
    (CleanupForRestart lsdi).bind Stop = none ∧
    (CleanupForRestart lsdi).bind CleanupForRestart = none ∧
    (Stop lsdi).bind CleanupForRestart = none := by
  simp [Stop, CleanupForRestart, hopen]

/-- Witness of C13, amended: the plugin as `Init` leaves it. -/
theorem stop_once_only_witness :
    Stop (Init "http.d") = some { Init "http.d" with stopChan := true } ∧
    CleanupForRestart (Init "http.d") = some { Init "http.d" with stopChan := true } ∧
    (Stop (Init "http.d")).bind Stop = none ∧
    (CleanupForRestart (Init "http.d")).bind Stop = none ∧
    (CleanupForRestart (Init "http.d")).bind CleanupForRestart = none ∧
    (Stop (Init "http.d")).bind CleanupForRestart = none :=
  stop_once_only (Init "http.d") rfl

/-- C13 as stated fails: on the plugin as `Init` leaves it, `Stop` followed by
`Stop`, and `CleanupForRestart` followed by `Stop` or by `CleanupForRestart`,
end in the close of a closed channel. -/
theorem stop_twice_counterexample :
    (Init "http.d").stopChan = false ∧
    (Stop (Init "http.d")).bind Stop = none ∧
    (CleanupForRestart (Init "http.d")).bind Stop = none ∧
    (CleanupForRestart (Init "http.d")).bind CleanupForRestart = none := by
  decide

/-! ## The declaration parser -/

theorem getConfigFileInfo_of_maker (NewPluginMaker : String → Primitive → GoError ⊕ PluginMaker)
    (name : String) (configFile : Primitive) (maker : PluginMaker)
    (h : NewPluginMaker name configFile = .inr maker) :
    ∃ info, getConfigFileInfo NewPluginMaker name configFile = some info := by
  unfold getConfigFileInfo
  rw [h]
  simp only
  split_ifs
  · exact ⟨_, rfl⟩
  · exact ⟨_, rfl⟩

theorem getConfigFileInfo_of_error (NewPluginMaker : String → Primitive → GoError ⊕ PluginMaker)
    (name : String) (configFile : Primitive) (err : GoError)
    (h : NewPluginMaker name configFile = .inl err) :
    getConfigFileInfo NewPluginMaker name configFile = none := by
  unfold getConfigFileInfo
  rw [h]

theorem rangeSections_returns (NewPluginMaker : String → Primitive → GoError ⊕ PluginMaker)
    (sections : List (String × Primitive)) (vars : Bool × Primitive × String)
    (h : ∀ p ∈ sections, ∃ maker, NewPluginMaker p.1 p.2 = .inr maker) :
    ∃ out, rangeSections NewPluginMaker sections vars = some out := by
  induction sections generalizing vars with
  | nil => exact ⟨vars, rfl⟩
  | cons p rest ih =>
    obtain ⟨name, conf⟩ := p
    obtain ⟨maker, hm⟩ := h (name, conf) (List.mem_cons_self _ _)
    obtain ⟨info, hinfo⟩ := getConfigFileInfo_of_maker NewPluginMaker name conf maker hm
    obtain ⟨confName, confType, cat⟩ := info
    unfold rangeSections
    rw [hinfo]
    simp only
    split_ifs
    · exact ih _ (fun q hq => h q (List.mem_cons_of_mem _ hq))
    · exact ih _ (fun q hq => h q (List.mem_cons_of_mem _ hq))

theorem loadHttpFile_returns (DecodeFile : String → GoError ⊕ List (String × Primitive))
    (NewPluginMaker : String → Primitive → GoError ⊕ PluginMaker) (path : String)
    (h : ∀ sections, DecodeFile path = .inr sections →
      ∀ p ∈ sections, ∃ maker, NewPluginMaker p.1 p.2 = .inr maker) :
    ∃ out, loadHttpFile DecodeFile NewPluginMaker path = some out := by
  unfold loadHttpFile
  cases hd : DecodeFile path with
  | inl err => exact ⟨_, rfl⟩
  | inr sections =>
    obtain ⟨out, hout⟩ := rangeSections_returns NewPluginMaker sections (false, "", path)
      (h sections hd)
    obtain ⟨ok, sect, path1⟩ := out
    simp only [hout]
    split_ifs
    · exact ⟨_, rfl⟩
    · cases NewPluginMaker "HttpInput" sect with
      | inl err => exact ⟨_, rfl⟩
      | inr maker => exact ⟨_, rfl⟩

/-- C14, the code at the failing input: the file `a.toml` decodes into the
sections `Foo` and `HttpInput`; the host has no plugin type `Foo`, so
`NewPluginMaker` gives an error and a nil maker for that section,
`getConfigFileInfo` panics at `maker.Type()`, `loadHttpFile` returns neither
an entry nor an error, and the callback of the walk, handed that file, does
not return either. -/
theorem loadHttpFile_panics_on_unregistered_section :
    decodeTwoSections "a.toml" =
      .inr [("Foo", "x = 1"), ("HttpInput", "url = \"http://localhost\"")] ∧
    hostRegistry "Foo" "x = 1" = .inl (.host "No registered plugin type: Foo") ∧
    getConfigFileInfo hostRegistry "Foo" "x = 1" = none ∧
    loadHttpFile decodeTwoSections hostRegistry "a.toml" = none ∧
    logDirWalkFuncOnFile decodeTwoSections hostRegistry "a.toml" (some ⟨false⟩) none
      (Init "http.d") = none := by
  decide


/-! ## The common-config finalizer -/

/-- C18: on a common configuration `c` given by the original preparation the
finalizer returns `c` with `Retries` replaced by the literal of lines 302-306
(`MaxDelay` "30s", `Delay` "250ms", `MaxRetries` -1, every other field of it
zero) whatever `c.Retries` was, with `CanExit` true when `c.CanExit` is unset
and as it was when set, and every other field unchanged; on an error of the
original preparation it returns that error and no configuration. -/
theorem prepCommonTypedConfig_injects_defaults {γ ρ : Type} (zero : ρ) :
    (∀ c : CommonInputConfig γ ρ,
      prepCommonTypedConfig zero (.inr c) =
        .inr { CanExit := some (c.CanExit.getD true),
               Retries := { MaxDelay := "30s", Delay := "250ms", MaxRetries := -1,
                            others := zero },
               others := c.others }) ∧
    (∀ (c : CommonInputConfig γ ρ) (out : CommonInputConfig γ ρ),
      prepCommonTypedConfig zero (.inr c) = .inr out →
        (c.CanExit = none → out.CanExit = some true) ∧
        (∀ b, c.CanExit = some b → out.CanExit = some b) ∧
        out.others = c.others) ∧
    (∀ err : GoError,
      prepCommonTypedConfig zero (.inl err : GoError ⊕ CommonInputConfig γ ρ) = .inl err) := by
  have h1 : ∀ c : CommonInputConfig γ ρ,
      prepCommonTypedConfig zero (.inr c) =
        .inr { CanExit := some (c.CanExit.getD true),
               Retries := { MaxDelay := "30s", Delay := "250ms", MaxRetries := -1,
                            others := zero },
               others := c.others } := by
    intro c
    obtain ⟨canExit, retries, others⟩ := c
    cases canExit with
    | none => simp [prepCommonTypedConfig]
    | some b => simp [prepCommonTypedConfig]
  refine ⟨h1, ?_, fun _ => rfl⟩
  intro c out hout
  rw [h1 c] at hout
  simp only [Sum.inr.injEq] at hout
  subst hout
  refine ⟨fun h => by simp [h], fun b h => by simp [h], rfl⟩

/-! ## The flag `dups` -/

theorem loopBody_false_eq_unchecked (pConfig : PipelineConfig) (name : String)
    (newEntry : HttpEntry) (lsdi : HttpDirectoryInput) (err : Option GoError) :
    loopBody pConfig false name newEntry lsdi err =
      loopBodyUnchecked pConfig name newEntry lsdi err := by
  unfold loopBody loopBodyUnchecked
  simp only [Bool.not_false, Bool.and_true]

theorem rangeSpecified_false_eq_unchecked (pConfig : PipelineConfig) (rest : EntryMap)
    (lsdi : HttpDirectoryInput) (err : Option GoError) :
    rangeSpecified pConfig false rest lsdi err =
      rangeSpecifiedUnchecked pConfig rest lsdi err := by
  induction rest generalizing lsdi err with
  | nil => rfl
  | cons p rest ih =>
    obtain ⟨name, newEntry⟩ := p
    rw [rangeSpecified_cons, loopBody_false_eq_unchecked]
    unfold rangeSpecifiedUnchecked
    cases loopBodyUnchecked pConfig name newEntry lsdi err with
    | ret s e => rfl
    | next s e => exact ih s e

theorem loadInputs_eq_unchecked (pConfig : PipelineConfig) (w : WalkResult)
    (lsdi : HttpDirectoryInput) :
    loadInputs pConfig w lsdi = loadInputsUnchecked pConfig w lsdi := by
  unfold loadInputs loadInputsUnchecked
  cases w.err with
  | some e => rfl
  | none =>
    simp only
    exact rangeSpecified_false_eq_unchecked pConfig _ _ none

theorem loopBodyWithDups_spec (pConfig : PipelineConfig) (name : String) (newEntry : HttpEntry)
    (lsdi : HttpDirectoryInput) (err : Option GoError) (loc : Locals) (hd : loc.dups = false) :
    (loopBodyWithDups pConfig name newEntry lsdi err loc).1 =
        loopBodyUnchecked pConfig name newEntry lsdi err ∧
      ((∃ s e, (loopBodyWithDups pConfig name newEntry lsdi err loc).1 = .next s e) →
        (loopBodyWithDups pConfig name newEntry lsdi err loc).2.dups = false) ∧
      ((loopBodyWithDups pConfig name newEntry lsdi err loc).2.dups = true →
        ∃ s runningEntryInputName,
          (loopBodyWithDups pConfig name newEntry lsdi err loc).1 =
            .ret s (some (.duplicateName runningEntryInputName name))) ∧
      ((loopBodyWithDups pConfig name newEntry lsdi err loc).2.reads = loc.reads ∨
        (loopBodyWithDups pConfig name newEntry lsdi err loc).2.reads = loc.reads ++ [false]) := by
  unfold loopBodyWithDups loopBodyUnchecked
  cases findDuplicate newEntry lsdi.inputs with
  | some d =>
    obtain ⟨runningInputName, runningInput⟩ := d
    refine ⟨rfl, ?_, fun _ => ⟨_, _, rfl⟩, Or.inl rfl⟩
    rintro ⟨s, e, h⟩
    cases h
  | none =>
    cases mapGet lsdi.inputs name with
    | none =>
      refine ⟨rfl, fun _ => hd, ?_, Or.inl rfl⟩
      intro h
      simp only [hd] at h
      cases h
    | some runningEntry =>
      simp only [hd, Bool.not_false, Bool.and_true]
      by_cases hc : (Equals runningEntry.config newEntry.config
          && decide (runningEntry.ir.Name = newEntry.ir.Name)) = true
      · rw [if_pos hc, if_pos hc]
        refine ⟨rfl, fun _ => rfl, ?_, Or.inr rfl⟩
        intro h
        cases h
      · rw [if_neg hc, if_neg hc]
        refine ⟨rfl, fun _ => rfl, ?_, Or.inr rfl⟩
        intro h
        cases h

theorem rangeSpecifiedWithDups_spec (pConfig : PipelineConfig) (rest : EntryMap)
    (lsdi : HttpDirectoryInput) (err : Option GoError) (loc : Locals) (hd : loc.dups = false)
    (hr : ∀ b ∈ loc.reads, b = false) :
    (rangeSpecifiedWithDups pConfig rest lsdi err loc).1 =
        rangeSpecifiedUnchecked pConfig rest lsdi err ∧
      (∀ b ∈ (rangeSpecifiedWithDups pConfig rest lsdi err loc).2.reads, b = false) ∧
      ((rangeSpecifiedWithDups pConfig rest lsdi err loc).2.dups = true →
        IsDuplicate (rangeSpecifiedWithDups pConfig rest lsdi err loc).1.2) := by
  induction rest generalizing lsdi err loc with
  | nil =>
    refine ⟨rfl, hr, ?_⟩
    intro h
    simp only [rangeSpecifiedWithDups, hd] at h
    cases h
  | cons p rest ih =>
    obtain ⟨name, newEntry⟩ := p
    obtain ⟨hflow, hnext, hdup, hreads⟩ :=
      loopBodyWithDups_spec pConfig name newEntry lsdi err loc hd
    have hr1 : ∀ b ∈ (loopBodyWithDups pConfig name newEntry lsdi err loc).2.reads,
        b = false := by
      intro b hb
      rcases hreads with h | h
      · rw [h] at hb
        exact hr b hb
      · rw [h, List.mem_append, List.mem_singleton] at hb
        rcases hb with hb | hb
        · exact hr b hb
        · exact hb
    unfold rangeSpecifiedWithDups rangeSpecifiedUnchecked
    rw [← hflow]
    generalize loopBodyWithDups pConfig name newEntry lsdi err loc = r at hnext hdup hr1
    obtain ⟨flow, loc1⟩ := r
    cases flow with
    | ret s e =>
      refine ⟨rfl, hr1, ?_⟩
      intro h
      obtain ⟨s1, n1, h1⟩ := hdup h
      cases h1
      exact ⟨n1, name, rfl⟩
    | next s e => exact ih s e loc1 (hnext ⟨s, e, rfl⟩) hr1

/-- C19: `loadInputs` run with its local variables, `dups` starting false and
the duplicate branch assigning it true before its `return`, gives the same
result as the variant whose unchanged check omits the condition on `dups`,
for every manager, every outcome of the walk (every declared set in every
order) and every state: the same state afterwards, so the same calls of the
manager in the same order, the same log and the same `inputs`, and the same
returned error.  Every time the unchanged check is reached `dups` holds
false; when `dups` holds true as the method returns, the method returns the
duplicate error of line 178.  That result is also the one of `loadInputs`
with the flag fixed to false. -/
theorem dups_never_influences (pConfig : PipelineConfig) (w : WalkResult)
    (lsdi : HttpDirectoryInput) :
    (loadInputsWithDups pConfig w lsdi).1 = loadInputsUnchecked pConfig w lsdi ∧
      (∀ b ∈ (loadInputsWithDups pConfig w lsdi).2.reads, b = false) ∧
      ((loadInputsWithDups pConfig w lsdi).2.dups = true →
        IsDuplicate (loadInputsWithDups pConfig w lsdi).1.2) ∧
      (loadInputsWithDups pConfig w lsdi).1 = loadInputs pConfig w lsdi := by
  have key : (loadInputsWithDups pConfig w lsdi).1 = loadInputsUnchecked pConfig w lsdi ∧
      (∀ b ∈ (loadInputsWithDups pConfig w lsdi).2.reads, b = false) ∧
      ((loadInputsWithDups pConfig w lsdi).2.dups = true →
        IsDuplicate (loadInputsWithDups pConfig w lsdi).1.2) := by
    unfold loadInputsWithDups loadInputsUnchecked
    cases w.err with
    | some e =>
      refine ⟨rfl, ?_, ?_⟩
      · intro b hb
        cases hb
      · intro h
        cases h
    | none =>
      simp only
      refine rangeSpecifiedWithDups_spec pConfig _ _ none _ rfl ?_
      intro b hb
      cases hb
  exact ⟨key.1, key.2.1, key.2.2, key.1.trans (loadInputs_eq_unchecked pConfig w lsdi).symm⟩

/-- Witness of C19: the pass over the twin tree, `a.toml` running `A`, reaches
the unchanged check once, at `a.toml`, with `dups` false, and takes the
duplicate branch at `b.toml`: it returns with `dups` true and the duplicate
error, as the variant without the condition does. -/
theorem dups_never_influences_witness :
    (loadInputsWithDups acceptAll ⟨twinTree, [], none⟩ runningA).2.dups = true ∧
      (loadInputsWithDups acceptAll ⟨twinTree, [], none⟩ runningA).2.reads = [false] ∧
      (loadInputsWithDups acceptAll ⟨twinTree, [], none⟩ runningA).1.2 =
        some (.duplicateName "A" "b.toml") ∧
      IsDuplicate (loadInputsWithDups acceptAll ⟨twinTree, [], none⟩ runningA).1.2 ∧
      (loadInputsWithDups acceptAll ⟨twinTree, [], none⟩ runningA).1 =
        loadInputsUnchecked acceptAll ⟨twinTree, [], none⟩ runningA :=
  ⟨by decide, by decide, by decide,
    (dups_never_influences acceptAll ⟨twinTree, [], none⟩ runningA).2.2.1 (by decide),
    (dups_never_influences acceptAll ⟨twinTree, [], none⟩ runningA).1⟩

/-! ## The scheduler loop -/

theorem selectLoop_eq (pConfig : PipelineConfig) (events : List Event)
    (lsdi : HttpDirectoryInput) :
    selectLoop pConfig events lsdi =
      match runPasses pConfig (ticksBeforeStop events) lsdi with
      | (lsdi1, some err) => (lsdi1, .returned (some err))
      | (lsdi1, none) =>
          (lsdi1, if hasStop events = true then .returned none else .waiting) := by
  induction events generalizing lsdi with
  | nil => rfl
  | cons ev events ih =>
    cases ev with
    | stop => rfl
    | tick w =>
      simp only [selectLoop, ticksBeforeStop, runPasses, hasStop]
      generalize loadInputs pConfig w lsdi = r
      obtain ⟨s, e⟩ := r
      cases e with
      | some err => rfl
      | none => exact ih s

theorem runPasses_no_error (pConfig : PipelineConfig) (ws : List WalkResult)
    (lsdi : HttpDirectoryInput) (h : (runPasses pConfig ws lsdi).2 = none) :
    (runPasses pConfig ws lsdi).1 = ws.foldl (fun s w => (loadInputs pConfig w s).1) lsdi := by
  induction ws generalizing lsdi with
  | nil => rfl
  | cons w ws ih =>
    simp only [runPasses, List.foldl_cons] at h ⊢
    generalize hr : loadInputs pConfig w lsdi = r at h ⊢
    obtain ⟨s, e⟩ := r
    cases e with
    | some err => simp at h
    | none => exact ih s h

/-- C15: for every sequence of ticks and stops serviced one at a time, `Run`
does what its description says: one pass at startup, then one pass per tick
that precedes the first stop, in that order, and nothing after that stop; it
returns the error of the first pass that returns one, with no further pass;
when no pass returns an error the state it leaves is the state after those
passes, and servicing the stop returns nil with the state, so also the calls
of the manager and `inputs`, unchanged. -/
theorem Run_scheduler_loop (pConfig : PipelineConfig) (w : WalkResult) (events : List Event)
    (lsdi : HttpDirectoryInput) :
    Run pConfig w events lsdi = describedRun pConfig w events lsdi ∧
    ((runPasses pConfig (w :: ticksBeforeStop events) lsdi).2 = none →
      (Run pConfig w events lsdi).1 =
        (w :: ticksBeforeStop events).foldl (fun s w1 => (loadInputs pConfig w1 s).1) lsdi ∧
      (Run pConfig w events lsdi).2 =
        if hasStop events = true then .returned none else .waiting) ∧
    (∀ (rest : List Event) (s : HttpDirectoryInput),
      selectLoop pConfig (.stop :: rest) s = (s, .returned none)) := by
  have hrun : Run pConfig w events lsdi = describedRun pConfig w events lsdi := by
    unfold Run describedRun
    simp only [runPasses]
    generalize loadInputs pConfig w lsdi = r
    obtain ⟨s, e⟩ := r
    cases e with
    | some err => rfl
    | none => exact selectLoop_eq pConfig events s
  refine ⟨hrun, ?_, fun _ _ => rfl⟩
  intro h
  have hfold := runPasses_no_error pConfig (w :: ticksBeforeStop events) lsdi h
  rw [hrun]
  unfold describedRun
  generalize hr : runPasses pConfig (w :: ticksBeforeStop events) lsdi = r at h hfold ⊢
  obtain ⟨s, e⟩ := r
  simp only at h
  subst h
  exact ⟨hfold, rfl⟩

/-- Witness of C15: a first pass over `treeA`, a tick over `treeAC`, the stop,
and a tick that comes after it. -/
theorem Run_scheduler_loop_witness :
    Run acceptAll ⟨treeA, [], none⟩ [.tick ⟨treeAC, [], none⟩, .stop, .tick ⟨treeC, [], none⟩]
        (Init "http.d") =
      describedRun acceptAll ⟨treeA, [], none⟩
        [.tick ⟨treeAC, [], none⟩, .stop, .tick ⟨treeC, [], none⟩] (Init "http.d") ∧
    ((runPasses acceptAll
        (⟨treeA, [], none⟩ ::
          ticksBeforeStop [.tick ⟨treeAC, [], none⟩, .stop, .tick ⟨treeC, [], none⟩])
        (Init "http.d")).2 = none →
      (Run acceptAll ⟨treeA, [], none⟩ [.tick ⟨treeAC, [], none⟩, .stop, .tick ⟨treeC, [], none⟩]
          (Init "http.d")).1 =
        (⟨treeA, [], none⟩ ::
          ticksBeforeStop [.tick ⟨treeAC, [], none⟩, .stop, .tick ⟨treeC, [], none⟩]).foldl
          (fun s w1 => (loadInputs acceptAll w1 s).1) (Init "http.d") ∧
      (Run acceptAll ⟨treeA, [], none⟩ [.tick ⟨treeAC, [], none⟩, .stop, .tick ⟨treeC, [], none⟩]
          (Init "http.d")).2 =
        if hasStop [.tick ⟨treeAC, [], none⟩, .stop, .tick ⟨treeC, [], none⟩] = true then
          .returned none
        else .waiting) ∧
    (∀ (rest : List Event) (s : HttpDirectoryInput),
      selectLoop acceptAll (.stop :: rest) s = (s, .returned none)) :=
  Run_scheduler_loop acceptAll ⟨treeA, [], none⟩
    [.tick ⟨treeAC, [], none⟩, .stop, .tick ⟨treeC, [], none⟩] (Init "http.d")

/-- C12, the code at the failing input: the tree holds the one fragment
`a.toml` and the manager refuses its start.  The first pass of `Run` leaves
`inputs` without the job and returns the error of the start, `Run` returns
that error, and the tick that follows is not serviced: `AddInputRunner` is
called once in all. -/
theorem refused_start_ends_run :
    (loadInputs refuseAll ⟨treeA, [], none⟩ (Init "http.d")).1.inputs = [] ∧
    (loadInputs refuseAll ⟨treeA, [], none⟩ (Init "http.d")).2 =
      some (.host "start refused") ∧
    (Run refuseAll ⟨treeA, [], none⟩ [.tick ⟨treeA, [], none⟩, .tick ⟨treeA, [], none⟩]
      (Init "http.d")).2 = .returned (some (.host "start refused")) ∧
    (Run refuseAll ⟨treeA, [], none⟩ [.tick ⟨treeA, [], none⟩, .tick ⟨treeA, [], none⟩]
      (Init "http.d")).1.calls = [.AddInputRunner ⟨"A", 2⟩] := by
  decide


/-! ## The callback of the walk -/

theorem logDirWalkFunc_of_error (loadHttpFile : String → GoError ⊕ MutableMaker) (path : String)
    (info : Option FileInfo) (e : GoError) (lsdi : HttpDirectoryInput) :
    logDirWalkFunc loadHttpFile path info (some e) lsdi =
      ({ lsdi with
          log := lsdi.log ++ [.LogError ("walking \x27" ++ path ++ "\x27: " ++ e.Error)] },
        none) := rfl

theorem logDirWalkFunc_of_nil_info (loadHttpFile : String → GoError ⊕ MutableMaker)
    (path : String) (lsdi : HttpDirectoryInput) :
    logDirWalkFunc loadHttpFile path none none lsdi = (lsdi, none) := rfl

theorem logDirWalkFunc_of_skipped (loadHttpFile : String → GoError ⊕ MutableMaker)
    (path : String) (i : FileInfo) (lsdi : HttpDirectoryInput)
    (h : i.IsDir = true ∨ Ext path ≠ ".toml") :
    logDirWalkFunc loadHttpFile path (some i) none lsdi = (lsdi, none) := by
  unfold logDirWalkFunc
  simp only
  rw [if_pos]
  rcases h with h | h
  · simp [h]
  · simp [h]

theorem logDirWalkFunc_of_file (loadHttpFile : String → GoError ⊕ MutableMaker)
    (path : String) (i : FileInfo) (lsdi : HttpDirectoryInput)
    (hd : i.IsDir = false) (hx : Ext path = ".toml") :
    logDirWalkFunc loadHttpFile path (some i) none lsdi =
      match loadHttpFile path with
      | .inl e =>
          ({ lsdi with
              log := lsdi.log ++
                [.LogError ("loading http file \x27" ++ path ++ "\x27: " ++ e.Error)] }, none)
      | .inr maker =>
        match maker.OrigPrepConfig with
        | .inl e =>
            ({ lsdi with log := lsdi.log ++ [.LogError ("prepping config: " ++ e.Error)] }, none)
        | .inr config =>
          match maker.MakeRunner with
          | .inl e =>
              ({ lsdi with log := lsdi.log ++ [.LogError ("making runner: " ++ e.Error)] }, none)
          | .inr runner =>
              ({ lsdi with
                  specified :=
                    mapSet path { ir := runner, maker := maker, config := config, fileName := path }
                      lsdi.specified }, none) := by
  unfold logDirWalkFunc
  simp only
  rw [if_neg]
  simp [hd, hx]

/-- Whatever it is handed, and whatever `loadHttpFile` returns when it
returns, `logDirWalkFunc` returns a nil error and never touches `inputs` or
the calls of the manager.  It leaves `specified` unchanged when it is handed a walk
error, a nil file info, a directory, a file whose extension is not `.toml`, a
file `loadHttpFile` returns an error for, a maker whose configuration cannot
be prepared, or a maker whose runner cannot be built.  `specified` changes
only for a file that is not a directory, has the extension `.toml`, loads,
prepares and builds, and then the entry is stored under the path of the
file, with that path as its `fileName`. -/
theorem logDirWalkFunc_of_returns (loadHttpFile : String → GoError ⊕ MutableMaker)
    (path : String) (info : Option FileInfo) (err : Option GoError) (lsdi : HttpDirectoryInput) :
    (logDirWalkFunc loadHttpFile path info err lsdi).2 = none ∧
    (logDirWalkFunc loadHttpFile path info err lsdi).1.inputs = lsdi.inputs ∧
    (logDirWalkFunc loadHttpFile path info err lsdi).1.calls = lsdi.calls ∧
    ((∃ e, err = some e) →
      (logDirWalkFunc loadHttpFile path info err lsdi).1.specified = lsdi.specified) ∧
    (info = none →
      (logDirWalkFunc loadHttpFile path info err lsdi).1.specified = lsdi.specified) ∧
    ((∃ i, info = some i ∧ i.IsDir = true) →
      (logDirWalkFunc loadHttpFile path info err lsdi).1.specified = lsdi.specified) ∧
    (Ext path ≠ ".toml" →
      (logDirWalkFunc loadHttpFile path info err lsdi).1.specified = lsdi.specified) ∧
    ((∃ e, loadHttpFile path = .inl e) →
      (logDirWalkFunc loadHttpFile path info err lsdi).1.specified = lsdi.specified) ∧
    ((∃ maker e, loadHttpFile path = .inr maker ∧ maker.OrigPrepConfig = .inl e) →
      (logDirWalkFunc loadHttpFile path info err lsdi).1.specified = lsdi.specified) ∧
    ((∃ maker e, loadHttpFile path = .inr maker ∧ maker.MakeRunner = .inl e) →
      (logDirWalkFunc loadHttpFile path info err lsdi).1.specified = lsdi.specified) ∧
    ((logDirWalkFunc loadHttpFile path info err lsdi).1.specified = lsdi.specified ∨
      ∃ i maker config runner, err = none ∧ info = some i ∧ i.IsDir = false ∧
        Ext path = ".toml" ∧ loadHttpFile path = .inr maker ∧
        maker.OrigPrepConfig = .inr config ∧ maker.MakeRunner = .inr runner ∧
        (logDirWalkFunc loadHttpFile path info err lsdi).1.specified =
          mapSet path { ir := runner, maker := maker, config := config, fileName := path }
            lsdi.specified) := by
  cases err with
  | some e =>
    rw [logDirWalkFunc_of_error]
    exact ⟨rfl, rfl, rfl, fun _ => rfl, fun _ => rfl, fun _ => rfl, fun _ => rfl, fun _ => rfl,
      fun _ => rfl, fun _ => rfl, Or.inl rfl⟩
  | none =>
    cases info with
    | none =>
      rw [logDirWalkFunc_of_nil_info]
      exact ⟨rfl, rfl, rfl, fun _ => rfl, fun _ => rfl, fun _ => rfl, fun _ => rfl, fun _ => rfl,
        fun _ => rfl, fun _ => rfl, Or.inl rfl⟩
    | some i =>
      by_cases hskip : i.IsDir = true ∨ Ext path ≠ ".toml"
      · rw [logDirWalkFunc_of_skipped loadHttpFile path i lsdi hskip]
        exact ⟨rfl, rfl, rfl, fun _ => rfl, fun _ => rfl, fun _ => rfl, fun _ => rfl,
          fun _ => rfl, fun _ => rfl, fun _ => rfl, Or.inl rfl⟩
      · have hd : i.IsDir = false := by
          cases h : i.IsDir with
          | false => rfl
          | true => exact absurd (Or.inl h) hskip
        have hx : Ext path = ".toml" := by
          by_contra h
          exact hskip (Or.inr h)
        rw [logDirWalkFunc_of_file loadHttpFile path i lsdi hd hx]
        cases hl : loadHttpFile path with
        | inl e =>
          refine ⟨rfl, rfl, rfl, fun _ => rfl, fun _ => rfl, fun _ => rfl, fun _ => rfl,
            fun _ => rfl, fun _ => rfl, fun _ => rfl, Or.inl rfl⟩
        | inr maker =>
          cases hp : maker.OrigPrepConfig with
          | inl e =>
            simp [hp]
          | inr config =>
            cases hm : maker.MakeRunner with
            | inl e =>
              simp [hp, hm]
            | inr runner =>
              simp only [hp, hm]
              refine ⟨trivial, trivial, trivial, ?_, ?_, ?_, ?_, ?_, ?_, ?_, ?_⟩
              · rintro ⟨e, he⟩
                cases he
              · intro h
                cases h
              · rintro ⟨j, hj, hjd⟩
                cases hj
                rw [hd] at hjd
                cases hjd
              · intro h
                exact absurd hx h
              · rintro ⟨e, he⟩
                cases he
              · rintro ⟨m, e, h1, h2⟩
                cases h1
                rw [hp] at h2
                cases h2
              · rintro ⟨m, e, h1, h2⟩
                cases h1
                rw [hm] at h2
                cases h2
              · exact Or.inr ⟨i, maker, config, runner, trivial, rfl, hd, hx, rfl, hp, hm, rfl⟩


/-! ## The error a pass returns -/

theorem lastStart_add (pConfig : PipelineConfig) (before ext : List Call) (ir : InputRunner)
    (acc : Option GoError) :
    lastStart pConfig before (.AddInputRunner ir :: ext) acc =
      lastStart pConfig (before ++ [.AddInputRunner ir]) ext
        ((pConfig.AddInputRunner before ir).map GoError.host) := rfl

theorem lastStart_remove (pConfig : PipelineConfig) (before ext : List Call) (ir : InputRunner)
    (acc : Option GoError) :
    lastStart pConfig before (.RemoveInputRunner ir :: ext) acc =
      lastStart pConfig (before ++ [.RemoveInputRunner ir]) ext acc := rfl

theorem lastStart_append (pConfig : PipelineConfig) (before ext1 ext2 : List Call)
    (acc : Option GoError) :
    lastStart pConfig before (ext1 ++ ext2) acc =
      lastStart pConfig (before ++ ext1) ext2 (lastStart pConfig before ext1 acc) := by
  induction ext1 generalizing before acc with
  | nil => simp [lastStart]
  | cons c ext1 ih =>
    cases c with
    | AddInputRunner ir =>
      rw [List.cons_append, lastStart_add, lastStart_add, ih]
      simp
    | RemoveInputRunner ir =>
      rw [List.cons_append, lastStart_remove, lastStart_remove, ih]
      simp

theorem lastStart_of_no_start (pConfig : PipelineConfig) (before ext : List Call)
    (acc : Option GoError) (h : ∀ ir, Call.AddInputRunner ir ∉ ext) :
    lastStart pConfig before ext acc = acc := by
  induction ext generalizing before with
  | nil => rfl
  | cons c ext ih =>
    cases c with
    | AddInputRunner ir => exact absurd (List.mem_cons_self _ _) (h ir)
    | RemoveInputRunner ir =>
      simp only [lastStart]
      exact ih _ (fun ir1 hmem => h ir1 (List.mem_cons_of_mem _ hmem))

theorem lastStart_cases (pConfig : PipelineConfig) (before ext : List Call)
    (acc : Option GoError) :
    ((∀ ir, Call.AddInputRunner ir ∉ ext) ∧ lastStart pConfig before ext acc = acc) ∨
    ∃ front ir after, ext = front ++ Call.AddInputRunner ir :: after ∧
      (∀ ir1, Call.AddInputRunner ir1 ∉ after) ∧
      lastStart pConfig before ext acc =
        (pConfig.AddInputRunner (before ++ front) ir).map GoError.host := by
  induction ext generalizing before acc with
  | nil => exact Or.inl ⟨by simp, rfl⟩
  | cons c ext ih =>
    cases c with
    | AddInputRunner ir =>
      simp only [lastStart]
      rcases ih (before ++ [.AddInputRunner ir])
          ((pConfig.AddInputRunner before ir).map GoError.host) with ⟨h1, h2⟩ | ⟨f, ir1, a, h1, h2, h3⟩
      · refine Or.inr ⟨[], ir, ext, rfl, h1, ?_⟩
        rw [h2]
        simp
      · refine Or.inr ⟨.AddInputRunner ir :: f, ir1, a, by rw [h1]; rfl, h2, ?_⟩
        rw [h3]
        simp
    | RemoveInputRunner ir =>
      simp only [lastStart]
      rcases ih (before ++ [.RemoveInputRunner ir]) acc with ⟨h1, h2⟩ | ⟨f, ir1, a, h1, h2, h3⟩
      · refine Or.inl ⟨?_, h2⟩
        intro ir1 hmem
        rcases List.mem_cons.1 hmem with h | h
        · cases h
        · exact h1 ir1 h
      · refine Or.inr ⟨.RemoveInputRunner ir :: f, ir1, a, by rw [h1]; rfl, h2, ?_⟩
        rw [h3]
        simp

theorem startInput_next_lastStart (pConfig : PipelineConfig) (name : String)
    (newEntry : HttpEntry) (lsdi s : HttpDirectoryInput) (e : Option GoError)
    (h : startInput pConfig name newEntry lsdi = .next s e) :
    s.calls = lsdi.calls ++ [.AddInputRunner newEntry.ir] ∧
    e = (pConfig.AddInputRunner lsdi.calls newEntry.ir).map GoError.host := by
  rcases startInput_cases pConfig name newEntry lsdi with ⟨msg, hm, hs⟩ | ⟨hm, hs⟩
  · rw [hs] at h
    cases h
    exact ⟨rfl, by rw [hm]; rfl⟩
  · rw [hs] at h
    cases h
    exact ⟨rfl, by rw [hm]; rfl⟩

theorem loopBody_next_lastStart (pConfig : PipelineConfig) (dups : Bool) (name : String)
    (newEntry : HttpEntry) (lsdi s : HttpDirectoryInput) (err e : Option GoError)
    (h : loopBody pConfig dups name newEntry lsdi err = .next s e) :
    ∃ ext, s.calls = lsdi.calls ++ ext ∧ e = lastStart pConfig lsdi.calls ext err := by
  rcases loopBody_cases pConfig dups name newEntry lsdi err with
    ⟨d, _, hb⟩ | ⟨_, r, _, _, _, _, hb⟩ | ⟨_, r, _, _, hb⟩ | ⟨_, _, hb⟩
  · rw [hb] at h
    cases h
  · rw [hb] at h
    cases h
    exact ⟨[], by simp, rfl⟩
  · rw [hb] at h
    obtain ⟨h1, h2⟩ := startInput_next_lastStart pConfig name newEntry _ s e h
    refine ⟨[.RemoveInputRunner r.ir, .AddInputRunner newEntry.ir], ?_, ?_⟩
    · rw [h1]
      simp [stopRunner]
    · rw [h2]
      simp [lastStart, stopRunner]
  · rw [hb] at h
    obtain ⟨h1, h2⟩ := startInput_next_lastStart pConfig name newEntry _ s e h
    exact ⟨[.AddInputRunner newEntry.ir], h1, by rw [h2]; simp [lastStart]⟩

theorem rangeReach_lastStart (pConfig : PipelineConfig) (dups : Bool) (rest : EntryMap)
    (lsdi s : HttpDirectoryInput) (err e : Option GoError)
    (h : rangeReach pConfig dups rest lsdi err = some (s, e)) :
    ∃ ext, s.calls = lsdi.calls ++ ext ∧ e = lastStart pConfig lsdi.calls ext err := by
  induction rest generalizing lsdi err with
  | nil =>
    simp only [rangeReach, Option.some.injEq, Prod.mk.injEq] at h
    exact ⟨[], by simp [h.1], by rw [← h.2]; rfl⟩
  | cons p rest ih =>
    obtain ⟨name, newEntry⟩ := p
    unfold rangeReach at h
    cases hb : loopBody pConfig dups name newEntry lsdi err with
    | ret s1 e1 =>
      rw [hb] at h
      cases h
    | next s1 e1 =>
      rw [hb] at h
      obtain ⟨ext1, hc1, he1⟩ := loopBody_next_lastStart pConfig dups name newEntry lsdi s1 err e1 hb
      obtain ⟨ext2, hc2, he2⟩ := ih s1 e1 h
      refine ⟨ext1 ++ ext2, by rw [hc2, hc1, List.append_assoc], ?_⟩
      rw [he2, he1, hc1, lastStart_append]

/-- C20: when the walk succeeds and the pass does not end with the duplicate
error, `loadInputs` returns the answer of the manager to the last
`AddInputRunner` call of the pass: either the pass made no such call and
returns nil, or its calls are `front`, then `AddInputRunner ir`, then calls
`after` with no `AddInputRunner` among them, and it returns what the manager
answered to that call, nil when it accepted and its error when it refused.
So a refused start is returned exactly when no start call comes after it in
the pass; an entry left running unchanged afterwards makes no call and does
not clear it. -/
theorem loadInputs_returns_last_start (pConfig : PipelineConfig) (declared : EntryMap)
    (walkLog : List LogLine) (lsdi : HttpDirectoryInput)
    (hno : ¬ IsDuplicate (loadInputs pConfig ⟨declared, walkLog, none⟩ lsdi).2) :
    ∃ ext, (loadInputs pConfig ⟨declared, walkLog, none⟩ lsdi).1.calls = lsdi.calls ++ ext ∧
      (((∀ ir, Call.AddInputRunner ir ∉ ext) ∧
          (loadInputs pConfig ⟨declared, walkLog, none⟩ lsdi).2 = none) ∨
        ∃ front ir after, ext = front ++ Call.AddInputRunner ir :: after ∧
          (∀ ir1, Call.AddInputRunner ir1 ∉ after) ∧
          (loadInputs pConfig ⟨declared, walkLog, none⟩ lsdi).2 =
            (pConfig.AddInputRunner (lsdi.calls ++ front) ir).map GoError.host) := by
  rw [loadInputs_eq] at hno ⊢
  have hreach := rangeReach_of_not_duplicate pConfig false declared _ none
    not_isDuplicate_none hno
  generalize rangeSpecified pConfig false declared
    (rangeInputs lsdi.inputs { lsdi with specified := declared, log := lsdi.log ++ walkLog })
    none = res at hreach ⊢
  obtain ⟨s, e⟩ := res
  obtain ⟨ext2, hc2, he2⟩ := rangeReach_lastStart pConfig false declared _ s none e hreach
  rw [rangeInputs_calls] at hc2 he2
  have hA : ∀ ir, Call.AddInputRunner ir ∉
      (lsdi.inputs.filter (fun p => (mapGet declared p.1).isNone)).map
        (fun p => Call.RemoveInputRunner p.2.ir) := by
    intro ir hmem
    obtain ⟨q, _, hq⟩ := List.mem_map.1 hmem
    cases hq
  have hlast : e = lastStart pConfig lsdi.calls
      ((lsdi.inputs.filter (fun p => (mapGet declared p.1).isNone)).map
        (fun p => Call.RemoveInputRunner p.2.ir) ++ ext2) none := by
    rw [lastStart_append, lastStart_of_no_start pConfig lsdi.calls _ none hA]
    exact he2
  refine ⟨_, hc2.trans (List.append_assoc _ _ _), ?_⟩
  simp only
  rw [hlast]
  exact lastStart_cases pConfig lsdi.calls _ none


/-- Witness of C20: the start of `A` is refused and the start of `C`, which
comes after it in the pass, is accepted. -/
theorem loadInputs_returns_last_start_witness :
    ∃ ext, (loadInputs refuseA ⟨treeAC, [], none⟩ (Init "http.d")).1.calls =
        (Init "http.d").calls ++ ext ∧
      (((∀ ir, Call.AddInputRunner ir ∉ ext) ∧
          (loadInputs refuseA ⟨treeAC, [], none⟩ (Init "http.d")).2 = none) ∨
        ∃ front ir after, ext = front ++ Call.AddInputRunner ir :: after ∧
          (∀ ir1, Call.AddInputRunner ir1 ∉ after) ∧
          (loadInputs refuseA ⟨treeAC, [], none⟩ (Init "http.d")).2 =
            (refuseA.AddInputRunner ((Init "http.d").calls ++ front) ir).map GoError.host) :=
  loadInputs_returns_last_start refuseA treeAC [] (Init "http.d")
    (by
      rw [show (loadInputs refuseA ⟨treeAC, [], none⟩ (Init "http.d")).2 = none from by decide]
      exact not_isDuplicate_none)

/-! ## The order of the range over `specified` -/

theorem mapGet_perm (m m1 : EntryMap) (hnd : (mapKeys m).Nodup) (hp : m1.Perm m) (k : String) :
    mapGet m1 k = mapGet m k := by
  have hnd1 : (mapKeys m1).Nodup := ((hp.map Prod.fst).nodup_iff).2 hnd
  cases hg : mapGet m k with
  | none =>
    rw [mapGet_eq_none_iff] at hg ⊢
    intro hk
    exact hg (((hp.map Prod.fst).mem_iff).1 hk)
  | some v =>
    exact mapGet_of_mem m1 hnd1 k v (hp.mem_iff.2 (mem_of_mapGet m k v hg))

theorem loopBody_next_keepOrNew (pConfig : PipelineConfig) (name : String)
    (newEntry : HttpEntry) (lsdi s : HttpDirectoryInput) (err e : Option GoError)
    (ha : AcceptsAll pConfig)
    (h : loopBody pConfig false name newEntry lsdi err = .next s e) :
    mapGet s.inputs name = keepOrNew (mapGet lsdi.inputs name) newEntry := by
  have hstart : ∀ l : HttpDirectoryInput, startInput pConfig name newEntry l = .next s e →
      mapGet s.inputs name = some newEntry := by
    intro l hl
    rcases startInput_cases pConfig name newEntry l with ⟨msg, hm, _⟩ | ⟨_, hs⟩
    · rw [ha l.calls newEntry.ir] at hm
      cases hm
    · rw [hs] at hl
      cases hl
      simp [addedRunner, mapGet_mapSet]
  rcases loopBody_cases pConfig false name newEntry lsdi err with
    ⟨d, _, hb⟩ | ⟨_, r, hg, he, hn, _, hb⟩ | ⟨_, r, hg, hc, hb⟩ | ⟨_, hg, hb⟩
  · rw [hb] at h
    cases h
  · rw [hb] at h
    cases h
    rw [hg]
    simp [keepOrNew, he, hn]
  · rw [hb] at h
    rw [hstart _ h, hg]
    have hc2 : ¬ (Equals r.config newEntry.config = true ∧ r.ir.Name = newEntry.ir.Name) :=
      fun hx => hc ⟨hx.1, hx.2, rfl⟩
    simp only [keepOrNew]
    rw [if_neg hc2]
  · rw [hb] at h
    rw [hstart _ h, hg]
    rfl

theorem rangeReach_keepOrNew (pConfig : PipelineConfig) (rest : EntryMap)
    (lsdi s : HttpDirectoryInput) (err e : Option GoError) (ha : AcceptsAll pConfig)
    (hnd : (mapKeys rest).Nodup)
    (h : rangeReach pConfig false rest lsdi err = some (s, e)) :
    ∀ p ∈ rest, mapGet s.inputs p.1 = keepOrNew (mapGet lsdi.inputs p.1) p.2 := by
  induction rest generalizing lsdi err with
  | nil => simp
  | cons p rest ih =>
    obtain ⟨name, newEntry⟩ := p
    unfold rangeReach at h
    simp only [mapKeys, List.map_cons, List.nodup_cons] at hnd
    cases hb : loopBody pConfig false name newEntry lsdi err with
    | ret s1 e1 =>
      rw [hb] at h
      cases h
    | next s1 e1 =>
      rw [hb] at h
      intro q hq
      rcases List.mem_cons.1 hq with h1 | h1
      · subst h1
        rw [rangeReach_frame pConfig false rest s1 s e1 e h name hnd.1]
        exact loopBody_next_keepOrNew pConfig name newEntry lsdi s1 err e1 ha hb
      · have hne : q.1 ≠ name := by
          intro hqn
          exact hnd.1 (by rw [← hqn]; exact List.mem_map_of_mem Prod.fst h1)
        rw [ih s1 e1 hnd.2 h q h1,
          loopBody_next_frame pConfig false name newEntry lsdi s1 err e1 hb q.1 hne]

theorem pass_outcome (pConfig : PipelineConfig) (lsdi : HttpDirectoryInput)
    (declared : EntryMap) (walkLog : List LogLine)
    (hinv : RunningInv lsdi.inputs) (hs : Scanned declared) (hnames : (mapNames declared).Nodup)
    (hc : ∀ p ∈ declared, ∀ q ∈ lsdi.inputs, q.2.ir.Name = p.2.ir.Name →
      q.2.fileName ≠ p.2.fileName → q.2.fileName ∉ mapKeys declared)
    (ha : AcceptsAll pConfig) :
    (loadInputs pConfig ⟨declared, walkLog, none⟩ lsdi).2 = none ∧
    ∀ k, mapGet (loadInputs pConfig ⟨declared, walkLog, none⟩ lsdi).1.inputs k =
      match mapGet declared k with
      | none => none
      | some e => keepOrNew (mapGet lsdi.inputs k) e := by
  have hinv1 := stepA_inv declared walkLog lsdi hinv
  have hc1 : ∀ p ∈ declared, ∀ q ∈ (rangeInputs lsdi.inputs
      { lsdi with specified := declared, log := lsdi.log ++ walkLog }).inputs,
      q.2.ir.Name = p.2.ir.Name → q.1 = p.1 := by
    intro p hp q hq hn
    obtain ⟨hq1, hq2⟩ := (stepA_mem declared walkLog lsdi q).1 hq
    by_contra hne
    have hf : q.2.fileName ≠ p.2.fileName := by
      rw [hinv.keyed q hq1, hs.keyed p hp]
      exact hne
    have := hc p hp q hq1 hn hf
    rw [hinv.keyed q hq1] at this
    exact this hq2
  obtain ⟨⟨s, e⟩, hreach⟩ := rangeReach_of_noConflict pConfig false declared _ none hinv1
    hs.keyed hnames hc1
  have heq := rangeReach_eq pConfig false declared _ none (s, e) hreach
  have hconv := rangeReach_conv pConfig false declared _ s none e ha hs.nodupKeys hreach
  have hkeep := rangeReach_keepOrNew pConfig declared _ s none e ha hs.nodupKeys hreach
  rw [loadInputs_eq, heq]
  refine ⟨hconv.2 rfl, ?_⟩
  intro k
  cases hg : mapGet declared k with
  | none =>
    have hnot := (mapGet_eq_none_iff declared k).1 hg
    have h1 := rangeReach_frame pConfig false declared _ s none e hreach k hnot
    rw [stepA_get, hg] at h1
    simpa using h1
  | some v =>
    have h1 := hkeep (k, v) (mem_of_mapGet declared k v hg)
    rw [stepA_get, hg] at h1
    simpa using h1

/-- C16, amended: from a reachable running set, over a declared set with
pairwise distinct logical names none of which is the name of a running job of
another, still declared file, with a manager that accepts every start, the
outcome of `loadInputs` is the same for every order in which the declared
entries are ranged over: no error is returned, and `inputs` holds the same
entry under every path. -/
theorem order_not_significant (pConfig : PipelineConfig) (lsdi : HttpDirectoryInput)
    (declared reordered : EntryMap) (walkLog walkLog2 : List LogLine)
    (hr : Reachable lsdi) (hs : Scanned declared) (hnames : (mapNames declared).Nodup)
    (hc : ∀ p ∈ declared, ∀ q ∈ lsdi.inputs, q.2.ir.Name = p.2.ir.Name →
      q.2.fileName ≠ p.2.fileName → q.2.fileName ∉ mapKeys declared)
    (ha : AcceptsAll pConfig) (hperm : reordered.Perm declared) :
    (loadInputs pConfig ⟨reordered, walkLog2, none⟩ lsdi).2 = none ∧
    (loadInputs pConfig ⟨declared, walkLog, none⟩ lsdi).2 = none ∧
    ∀ k, mapGet (loadInputs pConfig ⟨reordered, walkLog2, none⟩ lsdi).1.inputs k =
      mapGet (loadInputs pConfig ⟨declared, walkLog, none⟩ lsdi).1.inputs k := by
  have h1 := pass_outcome pConfig lsdi declared walkLog hr.inv hs hnames hc ha
  have hs2 : Scanned reordered := scanned_perm hs hperm
  have hnames2 : (mapNames reordered).Nodup :=
    ((hperm.map (fun p : String × HttpEntry => p.2.ir.Name)).nodup_iff).2 hnames
  have hc2 : ∀ p ∈ reordered, ∀ q ∈ lsdi.inputs, q.2.ir.Name = p.2.ir.Name →
      q.2.fileName ≠ p.2.fileName → q.2.fileName ∉ mapKeys reordered := by
    intro p hp q hq hn hf hk
    exact hc p (hperm.mem_iff.1 hp) q hq hn hf (((hperm.map Prod.fst).mem_iff).1 hk)
  have h2 := pass_outcome pConfig lsdi reordered walkLog2 hr.inv hs2 hnames2 hc2 ha
  refine ⟨h2.1, h1.1, ?_⟩
  intro k
  rw [h2.2 k, h1.2 k, mapGet_perm declared reordered hs.nodupKeys hperm k]

/-- Witness of C16, amended: `a.toml` runs `A`; the tree with the edited
`a.toml` and the new `c.toml`, ranged over in both orders. -/
theorem order_not_significant_witness :
    (loadInputs acceptAll ⟨editedTree.reverse, [], none⟩ runningA).2 = none ∧
    (loadInputs acceptAll ⟨editedTree, [], none⟩ runningA).2 = none ∧
    ∀ k, mapGet (loadInputs acceptAll ⟨editedTree.reverse, [], none⟩ runningA).1.inputs k =
      mapGet (loadInputs acceptAll ⟨editedTree, [], none⟩ runningA).1.inputs k :=
  order_not_significant acceptAll runningA editedTree editedTree.reverse [] []
    (Reachable.pass acceptAll _ (Init "http.d") (Reachable.init "http.d")
      ⟨by decide, by decide⟩)
    ⟨by decide, by decide⟩ (by decide) (by decide) (fun _ _ => rfl)
    (List.reverse_perm editedTree)

/-- C16 as stated fails: `runningA` is reachable and runs `A` from `a.toml`;
the tree `renamedTree` has pairwise distinct logical names and the manager
accepts every start.  Ranged over with `b.toml` first the pass returns the
duplicate error and leaves `inputs` empty; ranged over with `a.toml` first it
returns no error and leaves `B` and `A` running. -/
theorem order_counterexample :
    Reachable runningA ∧ Scanned (renamedTree 2) ∧ (mapNames (renamedTree 2)).Nodup ∧
    AcceptsAll acceptAll ∧ (renamedTree 2).reverse.Perm (renamedTree 2) ∧
    (loadInputs acceptAll ⟨renamedTree 2, [], none⟩ runningA).2 =
      some (.duplicateName "A" "b.toml") ∧
    (loadInputs acceptAll ⟨renamedTree 2, [], none⟩ runningA).1.inputs = [] ∧
    (loadInputs acceptAll ⟨(renamedTree 2).reverse, [], none⟩ runningA).2 = none ∧
    (loadInputs acceptAll ⟨(renamedTree 2).reverse, [], none⟩ runningA).1.inputs =
      [("a.toml", sampleEntry "B" 3 "a.toml" sampleConfig),
       ("b.toml", sampleEntry "A" 2 "b.toml" sampleConfig)] := by
  refine ⟨?_, ⟨by decide, by decide⟩, by decide, fun _ _ => rfl, List.reverse_perm _,
    by decide, by decide, by decide, by decide⟩
  exact Reachable.pass acceptAll _ (Init "http.d") (Reachable.init "http.d")
    ⟨by decide, by decide⟩


/-! ## The callback of the walk on the files of a tree -/

theorem logDirWalkFuncOnFile_of_returns
    (DecodeFile : String → GoError ⊕ List (String × Primitive))
    (NewPluginMaker : String → Primitive → GoError ⊕ PluginMaker) (path : String)
    (info : Option FileInfo) (err : Option GoError) (lsdi : HttpDirectoryInput)
    (out : GoError ⊕ LoadedEntry)
    (h : loadHttpFile DecodeFile NewPluginMaker path = some out) :
    logDirWalkFuncOnFile DecodeFile NewPluginMaker path info err lsdi =
      some (logDirWalkFunc (fun _ => parseOutcome out) path info err lsdi) := by
  unfold logDirWalkFuncOnFile logDirWalkFunc
  cases err with
  | some e => rfl
  | none =>
    cases info with
    | none => rfl
    | some i =>
      simp only
      split_ifs
      · rfl
      · rw [h]
        cases out with
        | inl e => rfl
        | inr entry =>
          simp only [parseOutcome]
          cases entry.maker.OrigPrepConfig with
          | inl e => rfl
          | inr config =>
            simp only
            cases entry.maker.MakeRunner with
            | inl e => rfl
            | inr runner => rfl

theorem logDirWalkFunc_frame (loadHttpFile : String → GoError ⊕ MutableMaker) (path : String)
    (info : Option FileInfo) (err : Option GoError) (lsdi : HttpDirectoryInput) :
    (logDirWalkFunc loadHttpFile path info err lsdi).2 = none ∧
    (logDirWalkFunc loadHttpFile path info err lsdi).1.inputs = lsdi.inputs ∧
    (logDirWalkFunc loadHttpFile path info err lsdi).1.calls = lsdi.calls := by
  unfold logDirWalkFunc
  cases err with
  | some e => exact ⟨rfl, rfl, rfl⟩
  | none =>
    cases info with
    | none => exact ⟨rfl, rfl, rfl⟩
    | some i =>
      simp only
      split_ifs
      · exact ⟨rfl, rfl, rfl⟩
      · cases loadHttpFile path with
        | inl e => exact ⟨rfl, rfl, rfl⟩
        | inr maker =>
          simp only
          cases maker.OrigPrepConfig with
          | inl e => exact ⟨rfl, rfl, rfl⟩
          | inr config =>
            simp only
            cases maker.MakeRunner with
            | inl e => exact ⟨rfl, rfl, rfl⟩
            | inr runner => exact ⟨rfl, rfl, rfl⟩

theorem logDirWalkFuncOnFile_before_load
    (DecodeFile : String → GoError ⊕ List (String × Primitive))
    (NewPluginMaker : String → Primitive → GoError ⊕ PluginMaker) (path : String)
    (info : Option FileInfo) (err : Option GoError) (lsdi : HttpDirectoryInput)
    (h : (∃ e, err = some e) ∨ info = none ∨ (∃ i, info = some i ∧ i.IsDir = true) ∨
      Ext path ≠ ".toml") :
    ∃ r, logDirWalkFuncOnFile DecodeFile NewPluginMaker path info err lsdi = some r := by
  unfold logDirWalkFuncOnFile
  cases err with
  | some e => exact ⟨_, rfl⟩
  | none =>
    cases info with
    | none => exact ⟨_, rfl⟩
    | some i =>
      have hskip : (i.IsDir || decide (Ext path ≠ ".toml")) = true := by
        rcases h with ⟨e, he⟩ | h | ⟨j, hj, hd⟩ | h
        · cases he
        · cases h
        · cases hj
          simp [hd]
        · simp [h]
      simp only
      rw [if_pos hskip]
      exact ⟨_, rfl⟩

theorem logDirWalkFuncOnFile_returns_nil
    (DecodeFile : String → GoError ⊕ List (String × Primitive))
    (NewPluginMaker : String → Primitive → GoError ⊕ PluginMaker) (path : String)
    (info : Option FileInfo) (err : Option GoError) (lsdi : HttpDirectoryInput)
    (out : GoError ⊕ LoadedEntry)
    (h : loadHttpFile DecodeFile NewPluginMaker path = some out) :
    ∃ r, logDirWalkFuncOnFile DecodeFile NewPluginMaker path info err lsdi = some r ∧
      r.2 = none ∧ r.1.inputs = lsdi.inputs ∧ r.1.calls = lsdi.calls :=
  ⟨_, logDirWalkFuncOnFile_of_returns DecodeFile NewPluginMaker path info err lsdi out h,
    logDirWalkFunc_frame (fun _ => parseOutcome out) path info err lsdi⟩

/-- C17, the code at the failing input: the callback is handed the file
`a.toml` of the tree, with no walk error and the info of a regular file.  The
file has the extension `.toml` and decodes into the sections `Foo` and
`HttpInput`; the host has no plugin type `Foo`, the loop over the sections
panics at the first of them, and the callback, from any state, returns no
value at all, nil or other: the walk does not go on.  When the section `Foo`
is not in the file the callback returns nil on the same arguments. -/
theorem logDirWalkFunc_panics_on_unregistered_section :
    Ext "a.toml" = ".toml" ∧
    rangeSections hostRegistry
      [("Foo", "x = 1"), ("HttpInput", "url = \"http://localhost\"")] (false, "", "a.toml") =
        none ∧
    (∀ lsdi : HttpDirectoryInput,
      logDirWalkFuncOnFile decodeTwoSections hostRegistry "a.toml" (some ⟨false⟩) none lsdi =
        none) ∧
    (∃ r, logDirWalkFuncOnFile
        (fun _ => .inr [("HttpInput", "url = \"http://localhost\"")]) hostRegistry "a.toml"
        (some ⟨false⟩) none (Init "http.d") = some r ∧ r.2 = none) := by
  refine ⟨by decide, by decide, ?_, ?_⟩
  · intro lsdi
    have hload : loadHttpFile decodeTwoSections hostRegistry "a.toml" = none := by decide
    have hext : (false || decide (Ext "a.toml" ≠ ".toml")) = false := by decide
    unfold logDirWalkFuncOnFile
    simp only [hload, hext]
    rfl
  · exact ⟨_, rfl, rfl⟩

end HttpDirectory
